import Mathlib

/-!
Verification of the corpus-processing core of `caesar-in-a-year`.

The Python sources under `scripts/` are shallowly embedded here:
strings become `List Char`, Python `int` becomes `ℤ`, Python `float`
arithmetic is idealized as exact rational arithmetic `ℚ` (and real
arithmetic `ℝ` where the code takes square roots), and code that can
raise exceptions returns `Except`.  Python's `re` usage is embedded by
direct recursive functions implementing the specific patterns the code
uses.  Python set iteration (over `LATIN_ABBREVS`) is fixed to the
source-literal order; all properties proved here are insensitive to
that order.
-/

deriving instance DecidableEq for Except

namespace Caesar

/-- Character-list strings, the main carrier of the embedding. -/
abbrev Str := List Char

/-- Python whitespace characters (`str.split`, `str.strip`, regex `\s`),
restricted to the ASCII range actually exercised by the corpus code. -/
def isPyWs (c : Char) : Bool :=
  c = ' ' || c = '\t' || c = '\n' || c = '\r' || c = '\x0b' || c = '\x0c'

/-- The regex class `[A-Z]`. -/
def isUpperAZ (c : Char) : Bool := 'A' ≤ c && c ≤ 'Z'

/-- The regex class `[A-Z\[]` used by `segment_regex`'s split pattern. -/
def isUpperOrBracket (c : Char) : Bool := isUpperAZ c || c = '['

/-- Sentence-final punctuation, the regex class `[.!?]`. -/
def isTermPunct (c : Char) : Bool := c = '.' || c = '!' || c = '?'

/-- Helper for `pyWords`: accumulates the current word (reversed). -/
def pyWordsAux (cur : Str) : Str → List Str
  | [] => if cur = [] then [] else [cur.reverse]
  | c :: rest =>
    if isPyWs c then
      if cur = [] then pyWordsAux [] rest else cur.reverse :: pyWordsAux [] rest
    else pyWordsAux (c :: cur) rest

/-- Python `text.split()`: split on whitespace runs, dropping empty pieces. -/
def pyWords (s : Str) : List Str := pyWordsAux [] s

/-- Python `' '.join(text.split())`, the whitespace normalization used
throughout the corpus scripts. -/
def pyNormalize (s : Str) : Str := List.intercalate [' '] (pyWords s)

/-- Python `text.strip()`. -/
def pyStrip (s : Str) : Str :=
  ((s.dropWhile isPyWs).reverse.dropWhile isPyWs).reverse

/-- Python `int(q)` on a float/rational: truncation toward zero. -/
def pyInt (q : ℚ) : ℤ := if q < 0 then -⌊-q⌋ else ⌊q⌋

theorem dropWhile_length_le (p : Char → Bool) (l : Str) :
    (l.dropWhile p).length ≤ l.length := by
  induction l with
  | nil => simp
  | cons a t ih =>
    by_cases h : p a
    · simp only [List.dropWhile_cons, h, if_true]
      exact Nat.le_succ_of_le ih
    · simp [List.dropWhile_cons, h]

/-- Head test used for the regex lookahead `(?=[X])`. -/
def headIs (la : Char → Bool) : Str → Bool
  | [] => false
  | c :: _ => la c

/-- Helper for `splitTerm`: a single left-to-right scan.  `cur` is the
reversed piece being built (whitespace seen since the last non-blank
character excluded), `pend` is that reversed run of pending whitespace,
and `prevTerm` records whether the last non-blank character was
sentence-final punctuation.  A split happens exactly when a non-blank
character satisfying the lookahead follows a non-empty whitespace run
whose preceding character was a terminator, in which case the whitespace
run (the regex match `\s+`) is discarded. -/
def splitTermAux (la : Char → Bool) (cur pend : Str) (prevTerm : Bool) :
    Str → List Str
  | [] => [(pend ++ cur).reverse]
  | c :: rest =>
    if isPyWs c then splitTermAux la cur (c :: pend) prevTerm rest
    else if prevTerm && !pend.isEmpty && la c then
      cur.reverse :: splitTermAux la [c] [] (isTermPunct c) rest
    else
      splitTermAux la (c :: (pend ++ cur)) [] (isTermPunct c) rest

/-- Embedding of `re.split(r'(?<=[.!?])\s+(?=[X])', text)`: a split point
is sentence-final punctuation followed by a (consumed) whitespace run
whose next character satisfies the lookahead `la`. -/
def splitTerm (la : Char → Bool) (s : Str) : List Str :=
  splitTermAux la [] [] false s

/-- One step of the proportional-distribution loop shared by both
`_distribute_text` implementations.  State: chunks built so far and the
running fractional index `current_idx`. -/
def distStep (sentences : List Str) (section_count : ℤ) (per : ℚ)
    (st : List Str × ℚ) (i : ℕ) : List Str × ℚ :=
  let start := (pyInt st.2).toNat
  let cur' := st.2 + per
  let stop := if (i : ℤ) < section_count - 1 then (pyInt cur').toNat
              else sentences.length
  (st.1 ++ [pyStrip (List.intercalate [' '] ((sentences.drop start).take (stop - start)))],
   cur')

/-- Embedding of `_distribute_text` from `scripts/process-corpus.py`. -/
def distribute_text (text : Str) (section_count : ℤ) : List Str :=
  if section_count ≤ 0 then []
  else if section_count = 1 then [pyStrip text]
  else
    let sentences := splitTerm isUpperAZ text
    if (sentences.length : ℤ) ≤ section_count then
      sentences ++ List.replicate (section_count - sentences.length).toNat []
    else
      let per : ℚ := (sentences.length : ℚ) / (section_count : ℚ)
      ((List.range section_count.toNat).foldl
        (distStep sentences section_count per) ([], 0)).1

namespace MITClassicsSource

/-- Embedding of `MITClassicsSource._distribute_text` from
`scripts/corpus/sources.py`, whose body is line-for-line the same
algorithm as the module-level `_distribute_text` of
`scripts/process-corpus.py`. -/
def distribute_text (text : Str) (section_count : ℤ) : List Str :=
  if section_count ≤ 0 then []
  else if section_count = 1 then [pyStrip text]
  else
    let sentences := splitTerm isUpperAZ text
    if (sentences.length : ℤ) ≤ section_count then
      sentences ++ List.replicate (section_count - sentences.length).toNat []
    else
      let per : ℚ := (sentences.length : ℚ) / (section_count : ℚ)
      ((List.range section_count.toNat).foldl
        (distStep sentences section_count per) ([], 0)).1

end MITClassicsSource

/-- Closed form for the chunk built at loop index `i` by the
proportional-distribution loop. -/
def distChunk (sentences : List Str) (section_count : ℤ) (per : ℚ) (i : ℕ) : Str :=
  let start := (pyInt ((i : ℚ) * per)).toNat
  let stop := if (i : ℤ) < section_count - 1 then (pyInt (((i : ℚ) + 1) * per)).toNat
              else sentences.length
  pyStrip (List.intercalate [' '] ((sentences.drop start).take (stop - start)))

theorem distFold_closed (sentences : List Str) (sc : ℤ) (per : ℚ) :
    ∀ (k a : ℕ) (chs : List Str),
      (List.range' a k).foldl (distStep sentences sc per) (chs, (a : ℚ) * per)
        = (chs ++ (List.range' a k).map (distChunk sentences sc per),
           (((a + k : ℕ) : ℚ)) * per) := by
  intro k
  induction k with
  | zero => intro a chs; simp
  | succ k ih =>
    intro a chs
    rw [List.range'_succ]
    simp only [List.foldl_cons, List.map_cons]
    have harith : (a : ℚ) * per + per = ((a : ℚ) + 1) * per := by ring
    have hstep : distStep sentences sc per (chs, (a : ℚ) * per) a
        = (chs ++ [distChunk sentences sc per a], (((a + 1 : ℕ) : ℚ)) * per) := by
      simp only [distStep, distChunk, harith]
      refine Prod.ext ?_ ?_
      · simp
      · push_cast
        ring
    rw [hstep]
    have hih := ih (a + 1) (chs ++ [distChunk sentences sc per a])
    rw [hih]
    refine Prod.ext ?_ ?_
    · simp
    · have : a + 1 + k = a + (k + 1) := by omega
      simp [this]

theorem distribute_text_big (text : Str) (N : ℤ) (h2 : 2 ≤ N)
    (hbig : N < ((splitTerm isUpperAZ text).length : ℤ)) :
    distribute_text text N
      = (List.range N.toNat).map
          (distChunk (splitTerm isUpperAZ text) N
            (((splitTerm isUpperAZ text).length : ℚ) / (N : ℚ))) := by
  unfold distribute_text
  rw [if_neg (by omega), if_neg (by omega), if_neg (by omega)]
  dsimp only
  rw [List.range_eq_range']
  have h0 : (0 : ℚ) = ((0 : ℕ) : ℚ) *
      (((splitTerm isUpperAZ text).length : ℚ) / (N : ℚ)) := by simp
  rw [h0, distFold_closed]
  simp

theorem distribute_text_pad (text : Str) (N : ℤ) (h2 : 2 ≤ N)
    (hle : ((splitTerm isUpperAZ text).length : ℤ) ≤ N) :
    distribute_text text N
      = splitTerm isUpperAZ text
        ++ List.replicate (N - (splitTerm isUpperAZ text).length).toNat [] := by
  unfold distribute_text
  rw [if_neg (by omega), if_neg (by omega), if_pos hle]

/-- C5: `_distribute_text` returns exactly `N` chunks for every `N ≥ 1` —
the stripped whole text for `N = 1`, one sentence per chunk padded with
empty strings when the sentence count is at most `N`, and proportional
spans (whose final chunk runs to the end of the sentence list) otherwise —
and returns the empty list for `N ≤ 0`. -/
theorem C5_distribute_text_contract (text : Str) (N : ℤ) :
    (N ≤ 0 → distribute_text text N = [])
    ∧ (1 ≤ N → ((distribute_text text N).length : ℤ) = N)
    ∧ (N = 1 → distribute_text text N = [pyStrip text])
    ∧ (2 ≤ N → ((splitTerm isUpperAZ text).length : ℤ) ≤ N →
        distribute_text text N
          = splitTerm isUpperAZ text
            ++ List.replicate (N - (splitTerm isUpperAZ text).length).toNat [])
    ∧ (2 ≤ N → N < ((splitTerm isUpperAZ text).length : ℤ) →
        distribute_text text N
          = (List.range N.toNat).map
              (distChunk (splitTerm isUpperAZ text) N
                (((splitTerm isUpperAZ text).length : ℚ) / (N : ℚ)))) := by
  refine ⟨?_, ?_, ?_, distribute_text_pad text N, distribute_text_big text N⟩
  · intro h
    unfold distribute_text
    rw [if_pos h]
  · intro h1
    rcases eq_or_lt_of_le h1 with h1 | h2
    · unfold distribute_text
      rw [if_neg (by omega), if_pos h1.symm]
      simp [← h1]
    · by_cases hle : ((splitTerm isUpperAZ text).length : ℤ) ≤ N
      · rw [distribute_text_pad text N (by omega) hle]
        simp only [List.length_append, List.length_replicate]
        omega
      · rw [distribute_text_big text N (by omega) (by omega)]
        simp only [List.length_map, List.length_range]
        omega
  · intro h
    unfold distribute_text
    rw [if_neg (by omega), if_pos h]

theorem C5_witness :
    distribute_text ("A. B").toList 0 = []
    ∧ ((distribute_text ("A. B").toList 3).length : ℤ) = 3 :=
  ⟨(C5_distribute_text_contract _ 0).1 (by decide),
   (C5_distribute_text_contract _ 3).2.1 (by decide)⟩

/-- C10: the module-level `_distribute_text` of `process-corpus.py` and
`MITClassicsSource._distribute_text` of `sources.py` are extensionally
equal: on every text and every section count they return identical
chunk lists. -/
theorem C10_distribute_text_duplicates_agree (text : Str) (N : ℤ) :
    distribute_text text N = MITClassicsSource.distribute_text text N := rfl

/-! ### Percentile difficulty assignment (`scripts/corpus/models.py`) -/

/-- Ordering on `(original index, raw score)` pairs by raw score. -/
def scoreLE (a b : ℕ × ℚ) : Prop := a.2 ≤ b.2

instance : DecidableRel scoreLE := fun a b => inferInstanceAs (Decidable (a.2 ≤ b.2))

/-- Stable insertion of a pair into a score-sorted list: the new pair goes
after every pair with an equal or smaller score, as Python's stable
`sorted(..., key=lambda x: x[1])` does for later-input elements. -/
def insScore (p : ℕ × ℚ) : List (ℕ × ℚ) → List (ℕ × ℚ)
  | [] => [p]
  | q :: t => if p.2 < q.2 then p :: q :: t else q :: insScore p t

/-- Embedding of `sorted(enumerate(raw_scores), key=lambda x: x[1])`:
a stable sort by score. -/
def sortScore (l : List (ℕ × ℚ)) : List (ℕ × ℚ) :=
  l.foldl (fun acc p => insScore p acc) []

/-- Embedding of `assign_percentile_difficulties` from
`scripts/corpus/models.py`. -/
def assign_percentile_difficulties (raw_scores : List ℚ) : List ℤ :=
  if raw_scores.isEmpty then []
  else
    let n := raw_scores.length
    let indexed := sortScore raw_scores.enum
    indexed.enum.foldl
      (fun difficulties rp =>
        difficulties.set rp.2.1
          (max 1 (min 100 (pyInt (1 + 99 * ((rp.1 : ℚ) / ((max 1 (n - 1) : ℕ) : ℚ)))))))
      (List.replicate n 0)

theorem insScore_perm (p : ℕ × ℚ) (l : List (ℕ × ℚ)) : List.Perm (insScore p l) (p :: l) := by
  induction l with
  | nil => simp [insScore]
  | cons q t ih =>
    by_cases h : p.2 < q.2
    · simp [insScore, h]
    · simp only [insScore, h, if_false]
      exact (ih.cons q).trans (List.Perm.swap p q t)

theorem sortScore_fold_perm (l : List (ℕ × ℚ)) :
    ∀ acc : List (ℕ × ℚ), List.Perm (l.foldl (fun acc p => insScore p acc) acc) (acc ++ l) := by
  induction l with
  | nil => intro acc; simp
  | cons p t ih =>
    intro acc
    simp only [List.foldl_cons]
    refine (ih (insScore p acc)).trans ?_
    refine (((insScore_perm p acc).append_right t)).trans ?_
    exact (List.perm_middle).symm

theorem sortScore_perm (l : List (ℕ × ℚ)) : List.Perm (sortScore l) l := by
  simpa using sortScore_fold_perm l []

theorem insScore_sorted (p : ℕ × ℚ) (l : List (ℕ × ℚ))
    (h : l.Pairwise scoreLE) : (insScore p l).Pairwise scoreLE := by
  induction l with
  | nil => simp [insScore, List.Pairwise]
  | cons q t ih =>
    rcases List.pairwise_cons.mp h with ⟨hq, ht⟩
    by_cases hlt : p.2 < q.2
    · simp only [insScore, hlt, if_true]
      refine List.pairwise_cons.mpr ⟨?_, h⟩
      intro x hx
      rcases List.mem_cons.mp hx with rfl | hx
      · exact le_of_lt hlt
      · exact le_trans (le_of_lt hlt) (hq x hx)
    · simp only [insScore, hlt, if_false]
      refine List.pairwise_cons.mpr ⟨?_, ih ht⟩
      intro x hx
      have := (insScore_perm p t).mem_iff.mp hx
      rcases List.mem_cons.mp this with rfl | hx'
      · exact le_of_not_lt hlt
      · exact hq x hx'

theorem sortScore_sorted (l : List (ℕ × ℚ)) : (sortScore l).Pairwise scoreLE := by
  suffices h : ∀ acc : List (ℕ × ℚ), acc.Pairwise scoreLE →
      (l.foldl (fun acc p => insScore p acc) acc).Pairwise scoreLE by
    exact h [] (by simp)
  induction l with
  | nil => intro acc hacc; simpa using hacc
  | cons p t ih =>
    intro acc hacc
    simp only [List.foldl_cons]
    exact ih _ (insScore_sorted p acc hacc)

theorem foldl_set_length {α : Type} (key : α → ℕ) (val : α → ℤ)
    (l : List α) (init : List ℤ) :
    (l.foldl (fun acc x => acc.set (key x) (val x)) init).length = init.length := by
  induction l generalizing init with
  | nil => rfl
  | cons p t ih => simpa using ih (init.set (key p) (val p))

theorem foldl_set_untouched {α : Type} (key : α → ℕ) (val : α → ℤ)
    (l : List α) (init : List ℤ) (k : ℕ) (hk : k ∉ l.map key) :
    (l.foldl (fun acc x => acc.set (key x) (val x)) init)[k]? = init[k]? := by
  induction l generalizing init with
  | nil => rfl
  | cons p t ih =>
    simp only [List.map_cons, List.mem_cons, not_or] at hk
    simp only [List.foldl_cons]
    rw [ih (init.set (key p) (val p)) hk.2,
      List.getElem?_set_ne (fun h => hk.1 h.symm)]

theorem foldl_set_distinct {α : Type} (key : α → ℕ) (val : α → ℤ)
    (l : List α) (init : List ℤ) (hnd : (l.map key).Nodup)
    (hlt : ∀ p ∈ l, key p < init.length) :
    ∀ p ∈ l, (l.foldl (fun acc x => acc.set (key x) (val x)) init)[key p]?
      = some (val p) := by
  induction l generalizing init with
  | nil => intro p hp; cases hp
  | cons q t ih =>
    intro p hp
    simp only [List.map_cons, List.nodup_cons] at hnd
    rcases List.mem_cons.mp hp with rfl | hp'
    · simp only [List.foldl_cons]
      rw [foldl_set_untouched key val t (init.set (key p) (val p)) (key p) hnd.1]
      exact List.getElem?_set_self
        (by simpa using hlt p (List.mem_cons_self _ _))
    · simp only [List.foldl_cons]
      refine ih (init.set (key q) (val q)) hnd.2 ?_ p hp'
      intro r hr
      simpa using hlt r (List.mem_cons_of_mem _ hr)

/-- The difficulty value the percentile loop computes for rank `r` in a
batch of `n` scores (with Python `int` truncation). -/
def percentileDiff (n r : ℕ) : ℤ :=
  max 1 (min 100 (pyInt (1 + 99 * ((r : ℚ) / ((max 1 (n - 1) : ℕ) : ℚ)))))

theorem sortScore_enum_fst_mem (raw : List ℚ) (p : ℕ × ℚ)
    (hp : p ∈ sortScore raw.enum) : p.1 < raw.length := by
  have h1 : p ∈ raw.enum := (sortScore_perm raw.enum).mem_iff.mp hp
  have h2 := List.mem_enum_iff_get?.mp h1
  have h3 := List.get?_eq_some.mp h2
  exact h3.1

theorem sortScore_enum_keys_nodup (raw : List ℚ) :
    ((sortScore raw.enum).map Prod.fst).Nodup := by
  have hperm : List.Perm ((sortScore raw.enum).map Prod.fst) (raw.enum.map Prod.fst) :=
    (sortScore_perm raw.enum).map Prod.fst
  rw [hperm.nodup_iff, List.enum_map_fst]
  exact List.nodup_range _

theorem assign_percentile_eval (raw : List ℚ) (r : ℕ)
    (hr : r < (sortScore raw.enum).length) :
    (assign_percentile_difficulties raw)[((sortScore raw.enum).get ⟨r, hr⟩).1]?
      = some (percentileDiff raw.length r) := by
  have hne : raw ≠ [] := by
    intro h
    rw [h] at hr
    simp [sortScore, List.enum] at hr
  unfold assign_percentile_difficulties
  rw [if_neg (by simpa using hne)]
  dsimp only
  have hnd : ((sortScore raw.enum).enum.map (fun rp : ℕ × ℕ × ℚ => rp.2.1)).Nodup := by
    have heq : ((sortScore raw.enum).enum.map (fun rp : ℕ × ℕ × ℚ => rp.2.1))
        = (sortScore raw.enum).map Prod.fst := by
      rw [show (fun rp : ℕ × ℕ × ℚ => rp.2.1)
          = Prod.fst ∘ (Prod.snd : ℕ × ℕ × ℚ → ℕ × ℚ) from rfl]
      rw [← List.map_map, List.enum_map_snd]
    rw [heq]
    exact sortScore_enum_keys_nodup raw
  have hlt : ∀ rp ∈ (sortScore raw.enum).enum,
      rp.2.1 < (List.replicate raw.length (0 : ℤ)).length := by
    intro rp hrp
    have hmem2 : rp.2 ∈ sortScore raw.enum := by
      have := List.mem_map_of_mem Prod.snd hrp
      rwa [List.enum_map_snd] at this
    simpa using sortScore_enum_fst_mem raw rp.2 hmem2
  have hmem : (r, (sortScore raw.enum).get ⟨r, hr⟩) ∈ (sortScore raw.enum).enum := by
    refine List.mem_enum_iff_get?.mpr ?_
    simpa using List.get?_eq_get hr
  have hmain := foldl_set_distinct (fun rp : ℕ × ℕ × ℚ => rp.2.1)
    (fun rp : ℕ × ℕ × ℚ => percentileDiff raw.length rp.1)
    ((sortScore raw.enum).enum) (List.replicate raw.length 0) hnd hlt
    (r, (sortScore raw.enum).get ⟨r, hr⟩) hmem
  exact hmain

theorem sortScore_length (raw : List ℚ) :
    (sortScore raw.enum).length = raw.length := by
  rw [(sortScore_perm raw.enum).length_eq, List.enum_length]

theorem sortScore_mem_of_mem_raw (raw : List ℚ) (x : ℚ) (hx : x ∈ raw) :
    ∃ ix : ℕ, (ix, x) ∈ sortScore raw.enum := by
  obtain ⟨ix, hix⟩ := List.mem_iff_get?.mp hx
  refine ⟨ix, ?_⟩
  exact (sortScore_perm raw.enum).symm.mem_iff.mp
    (List.mem_enum_iff_get?.mpr (by simpa using hix))

theorem percentileDiff_zero (n : ℕ) : percentileDiff n 0 = 1 := by
  unfold percentileDiff pyInt
  norm_num

theorem percentileDiff_top (n : ℕ) (hn : 2 ≤ n) : percentileDiff n (n - 1) = 100 := by
  unfold percentileDiff pyInt
  have h1 : max 1 (n - 1) = n - 1 := by omega
  have h2 : ((n - 1 : ℕ) : ℚ) ≠ 0 := by
    have : 1 ≤ n - 1 := by omega
    positivity
  rw [h1, div_self h2]
  norm_num

/-- C3 (amended): percentile scoring assigns the sentence at ascending rank
`r` (0-indexed) out of `n` the difficulty
`clamp(trunc(1 + 99 * r / max(1, n-1)), 1, 100)` — Python `int()`
truncation, not rounding to nearest — and in every batch with at least two
distinct raw scores a sentence attaining the minimum raw score receives
difficulty exactly 1 and a sentence attaining the maximum receives
exactly 100. -/
theorem C3_percentile_difficulties (raw : List ℚ) :
    (∀ r (hr : r < (sortScore raw.enum).length),
      (assign_percentile_difficulties raw)[((sortScore raw.enum).get ⟨r, hr⟩).1]?
        = some (percentileDiff raw.length r))
    ∧ ((∃ x ∈ raw, ∃ y ∈ raw, x ≠ y) →
        (∃ i m, raw.get? i = some m ∧ (∀ x ∈ raw, m ≤ x)
          ∧ (assign_percentile_difficulties raw)[i]? = some 1)
        ∧ (∃ j M, raw.get? j = some M ∧ (∀ x ∈ raw, x ≤ M)
          ∧ (assign_percentile_difficulties raw)[j]? = some 100)) := by
  refine ⟨assign_percentile_eval raw, ?_⟩
  intro hdist
  have hn2 : 2 ≤ raw.length := by
    rcases hdist with ⟨x, hx, y, hy, hxy⟩
    match raw, hx, hy with
    | [], hx, _ => cases hx
    | [a], hx, hy =>
      exact absurd (by
        rw [List.mem_singleton.mp hx, List.mem_singleton.mp hy]) hxy
    | a :: b :: t, _, _ => simp [List.length_cons]
  have hlen := sortScore_length raw
  have hsorted := sortScore_sorted raw.enum
  constructor
  · -- a minimum sentence receives difficulty 1
    have hr0 : 0 < (sortScore raw.enum).length := by omega
    set p0 := (sortScore raw.enum).get ⟨0, hr0⟩ with hp0
    have hp0enum : p0 ∈ raw.enum :=
      (sortScore_perm raw.enum).mem_iff.mp (List.get_mem _ _ _)
    refine ⟨p0.1, p0.2, ?_, ?_, ?_⟩
    · simpa using List.mem_enum_iff_get?.mp hp0enum
    · intro x hxmem
      obtain ⟨ix, hixs⟩ := sortScore_mem_of_mem_raw raw x hxmem
      obtain ⟨j, hj⟩ := List.mem_iff_get.mp hixs
      rcases Nat.eq_zero_or_pos j.1 with hj0 | hjpos
      · have hgj : (sortScore raw.enum).get j = p0 := by
          rw [hp0]; congr 1; exact Fin.ext hj0
        have hpe : p0 = (ix, x) := hgj.symm.trans hj
        rw [hpe]
      · have hrel := (List.pairwise_iff_get.mp hsorted) ⟨0, hr0⟩ j hjpos
        rw [hj] at hrel
        exact hrel
    · have hd0 := assign_percentile_eval raw 0 hr0
      rw [percentileDiff_zero] at hd0
      exact hd0
  · -- a maximum sentence receives difficulty 100
    have hrl : (sortScore raw.enum).length - 1 < (sortScore raw.enum).length := by
      omega
    set rl := (sortScore raw.enum).length - 1 with hrl0
    set pl := (sortScore raw.enum).get ⟨rl, hrl⟩ with hpl
    have hplenum : pl ∈ raw.enum :=
      (sortScore_perm raw.enum).mem_iff.mp (List.get_mem _ _ _)
    refine ⟨pl.1, pl.2, ?_, ?_, ?_⟩
    · simpa using List.mem_enum_iff_get?.mp hplenum
    · intro x hxmem
      obtain ⟨ix, hixs⟩ := sortScore_mem_of_mem_raw raw x hxmem
      obtain ⟨j, hj⟩ := List.mem_iff_get.mp hixs
      rcases eq_or_lt_of_le (Nat.le_of_lt_succ (by omega : j.1 < rl + 1)) with hj0 | hjpos
      · have hgj : (sortScore raw.enum).get j = pl := by
          rw [hpl]; congr 1; exact Fin.ext hj0
        have hpe : pl = (ix, x) := hgj.symm.trans hj
        rw [hpe]
      · have hrel := (List.pairwise_iff_get.mp hsorted) j ⟨rl, hrl⟩ hjpos
        rw [hj] at hrel
        exact hrel
    · have hdl := assign_percentile_eval raw rl hrl
      have : percentileDiff raw.length rl = 100 := by
        rw [hrl0, hlen]
        exact percentileDiff_top raw.length hn2
      rw [this] at hdl
      exact hdl

theorem C3_witness :
    ((10:ℚ) ∈ [(10:ℚ), 20] ∧ (20:ℚ) ∈ [(10:ℚ), 20] ∧ (10:ℚ) ≠ 20)
    ∧ ((∃ i m, ([(10:ℚ), 20]).get? i = some m ∧ (∀ x ∈ [(10:ℚ), 20], m ≤ x)
          ∧ (assign_percentile_difficulties [10, 20])[i]? = some 1)
        ∧ (∃ j M, ([(10:ℚ), 20]).get? j = some M ∧ (∀ x ∈ [(10:ℚ), 20], x ≤ M)
          ∧ (assign_percentile_difficulties [10, 20])[j]? = some 100)) := by
  refine ⟨⟨by decide, by decide, by norm_num⟩, ?_⟩
  exact (C3_percentile_difficulties [10, 20]).2
    ⟨10, by decide, 20, by decide, by norm_num⟩

/-- C3 counterexample: on the batch `[10, 20, 30, 40, 50]` the code
assigns the rank-1 sentence difficulty `int(1 + 99/4) = 25`, while the
claim's formula `clamp(round(1 + 99 * 1/(5-1)), 1, 100)` yields `26`:
percentile difficulties use truncation, not rounding. -/
theorem C3_counterexample :
    assign_percentile_difficulties [10, 20, 30, 40, 50] = [1, 25, 50, 75, 100]
    ∧ max (1:ℤ) (min 100 (round ((1:ℚ) + 99 * (1 / (5 - 1))))) = 26 := by
  constructor
  · norm_num [assign_percentile_difficulties, sortScore, insScore, List.enum,
      List.enumFrom, percentileDiff, pyInt]
    decide
  · norm_num [round_eq]

/-! ### Translation alignment (`scripts/process-corpus.py`) -/

/-- Embedding of the `SegmentedSentence` dataclass.  The Python field
`section` is a Lean keyword and is rendered `secNum`. -/
structure SegmentedSentence where
  id : Str
  latin : Str
  english : Str
  secNum : ℤ
  position : ℤ
  alignment_confidence : ℚ
deriving Repr, DecidableEq

/-- Embedding of `_split_english_sentences`. -/
def split_english_sentences (text : Str) : List Str :=
  if pyStrip text = [] then []
  else
    ((splitTerm isUpperAZ (pyNormalize text)).map pyStrip).filter (fun s => !s.isEmpty)

/-- The sentinel `"[MISSING SECTION]"`. -/
def missing_section_text : Str := "[MISSING SECTION]".toList

/-- The sentinel `"[MISSING TRANSLATION]"`. -/
def missing_translation_text : Str := "[MISSING TRANSLATION]".toList

/-- Exceptions the alignment function can raise. -/
inductive PyExn where
  | indexError
deriving Repr, DecidableEq

/-- Outcome of `english_sections[section_num - 1]` under Python list
indexing: the pre-checked out-of-range-high case, an `IndexError`
(negative index below `-len`), or the chunk found (negative indices
count from the end). -/
inductive ChunkLookup where
  | missing
  | error
  | found (t : Str)
deriving Repr, DecidableEq

/-- Embedding of the chunk lookup in `align_translations`. -/
def lookupChunk (engs : List Str) (secNum : ℤ) : ChunkLookup :=
  let idx := secNum - 1
  if (engs.length : ℤ) ≤ idx then .missing
  else if idx < -(engs.length : ℤ) then .error
  else
    let eff : ℕ := if 0 ≤ idx then idx.toNat else (idx + engs.length).toNat
    .found (engs.getD eff [])

/-- The sentences of `latin_sentences` that share section number `n`, in
original order — the value `sections_map[n]` built by
`align_translations`. -/
def sectionGroup (sents : List SegmentedSentence) (n : ℤ) : List SegmentedSentence :=
  sents.filter (fun s => s.secNum = n)

/-- The base confidence computed per section from the two sentence
counts. -/
def baseConfidence (Ls Es : ℕ) : ℚ :=
  if Ls = Es then 1 else ((min Ls Es : ℕ) : ℚ) / ((max Ls Es : ℕ) : ℚ) * (8/10)

/-- The fan-out (`english_count >= latin_count`) text assignment for the
sentence at group position `i`: a proportional slice of the English
sentences, joined by single spaces.  The running float index of the
source loop after `i` additions of `per_latin` is exactly
`i * per_latin`, used directly here. -/
def alignFanOut (es : List Str) (Ls i : ℕ) : Str :=
  let per_latin : ℚ := (es.length : ℚ) / (Ls : ℚ)
  let start := (pyInt ((i : ℚ) * per_latin)).toNat
  let stop := (pyInt (((i : ℚ) + 1) * per_latin)).toNat
  List.intercalate [' '] ((es.drop start).take (stop - start))

/-- The fan-in (`english_count < latin_count`) text assignment:
`english_sents[min(int(i / per_english), english_count - 1)]`. -/
def alignFanIn (es : List Str) (Ls i : ℕ) : Str :=
  let per_english : ℚ := (Ls : ℚ) / (es.length : ℚ)
  es.getD (min (pyInt ((i : ℚ) / per_english)).toNat (es.length - 1)) []

/-- How `align_translations` rewrites the sentence at overall position
`p`; `i` below is the sentence's 0-based position within its section
group. -/
def alignSentence (latin_sentences : List SegmentedSentence)
    (english_sections : List Str) (p : ℕ) (s : SegmentedSentence) :
    SegmentedSentence :=
  match lookupChunk english_sections s.secNum with
  | .missing => { s with english := missing_section_text, alignment_confidence := 0 }
  | .error => s
  | .found etext =>
    let group := sectionGroup latin_sentences s.secNum
    let i := ((latin_sentences.take p).filter (fun t => t.secNum = s.secNum)).length
    let es := split_english_sentences etext
    if es.length = 0 then
      { s with english := missing_translation_text, alignment_confidence := 0 }
    else if group.length ≤ es.length then
      { s with english := alignFanOut es group.length i,
               alignment_confidence := baseConfidence group.length es.length }
    else
      { s with english := alignFanIn es group.length i,
               alignment_confidence := baseConfidence group.length es.length * (9/10) }

/-- Embedding of `align_translations`.  The function raises `IndexError`
exactly when some sentence's `section - 1` is a negative Python index
below `-len(english_sections)`; otherwise it rewrites every sentence in
place. -/
def align_translations (latin_sentences : List SegmentedSentence)
    (english_sections : List Str) : Except PyExn (List SegmentedSentence) :=
  if latin_sentences.any (fun s =>
      decide ((s.secNum - 1 : ℤ) < (english_sections.length : ℤ))
      && decide ((s.secNum - 1 : ℤ) < -(english_sections.length : ℤ))) then
    .error .indexError
  else
    .ok (latin_sentences.enum.map
      (fun ps => alignSentence latin_sentences english_sections ps.1 ps.2))

theorem count_take_lt {α : Type} (l : List α) (p : α → Bool) (k : ℕ)
    (hk : k < l.length) (hp : p (l.get ⟨k, hk⟩)) :
    ((l.take k).filter p).length < (l.filter p).length := by
  conv_rhs => rw [← List.take_append_drop k l]
  rw [List.filter_append, List.length_append]
  have hdrop : l.drop k = l.get ⟨k, hk⟩ :: l.drop (k + 1) := List.drop_eq_get_cons hk
  rw [hdrop, List.filter_cons, hp]
  simp

theorem split_english_sentences_mem_nonempty (t : Str) (x : Str)
    (hx : x ∈ split_english_sentences t) : x ≠ [] := by
  unfold split_english_sentences at hx
  by_cases h : pyStrip t = []
  · rw [if_pos h] at hx; cases hx
  · rw [if_neg h] at hx
    have := (List.mem_filter.mp hx).2
    simpa [List.isEmpty_iff] using this

theorem intercalate_cons_exists (sep a : Str) (t : List Str) :
    ∃ r, List.intercalate sep (a :: t) = a ++ r := by
  cases t with
  | nil => exact ⟨[], by simp [List.intercalate]⟩
  | cons b t' =>
    refine ⟨sep ++ List.intercalate sep (b :: t'), ?_⟩
    simp [List.intercalate, List.intersperse]

theorem intercalate_space_ne_nil (xs : List Str) (hne : xs ≠ [])
    (hx : ∀ x ∈ xs, x ≠ []) : List.intercalate [' '] xs ≠ [] := by
  cases xs with
  | nil => exact absurd rfl hne
  | cons a t =>
    obtain ⟨r, hr⟩ := intercalate_cons_exists [' '] a t
    rw [hr]
    have ha := hx a (List.mem_cons_self _ _)
    intro h
    exact ha (by simpa using (List.append_eq_nil.mp h).1)

theorem getD_mem_of_lt {α : Type} (l : List α) (i : ℕ) (d : α)
    (h : i < l.length) : l.getD i d ∈ l := by
  rw [List.getD_eq_getElem l d h]
  exact List.get_mem l i h

theorem pyInt_nonneg_eq_floor (q : ℚ) (h : 0 ≤ q) : pyInt q = ⌊q⌋ := by
  unfold pyInt
  rw [if_neg (not_lt.mpr h)]

theorem baseConfidence_nonneg (Ls Es : ℕ) : 0 ≤ baseConfidence Ls Es := by
  unfold baseConfidence
  split_ifs
  · norm_num
  · positivity

theorem baseConfidence_le_one (Ls Es : ℕ) (h : 1 ≤ Ls) :
    baseConfidence Ls Es ≤ 1 := by
  unfold baseConfidence
  split_ifs with heq
  · exact le_refl 1
  · have hmaxpos : (0:ℚ) < ((max Ls Es : ℕ) : ℚ) := by
      have h1 : 1 ≤ max Ls Es := le_trans h (le_max_left _ _)
      exact_mod_cast h1
    have hratio : ((min Ls Es : ℕ) : ℚ) / ((max Ls Es : ℕ) : ℚ) ≤ 1 := by
      rw [div_le_one hmaxpos]
      exact_mod_cast min_le_max
    have hrat0 : (0:ℚ) ≤ ((min Ls Es : ℕ) : ℚ) / ((max Ls Es : ℕ) : ℚ) := by positivity
    nlinarith

theorem alignFanOut_slice (es : List Str) (Ls i : ℕ) (hLs : 1 ≤ Ls)
    (hfan : Ls ≤ es.length) (hi : i < Ls) :
    ∃ start stop : ℕ, start < stop ∧ stop ≤ es.length
      ∧ alignFanOut es Ls i
          = List.intercalate [' '] ((es.drop start).take (stop - start)) := by
  unfold alignFanOut
  dsimp only
  have hLpos : (0:ℚ) < (Ls : ℚ) := by exact_mod_cast hLs
  set per := (es.length : ℚ) / (Ls : ℚ) with hperdef
  have hper1 : (1:ℚ) ≤ per := by
    rw [hperdef, le_div_iff hLpos]
    simpa using (by exact_mod_cast hfan : (Ls:ℚ) ≤ (es.length : ℚ))
  have hiq : (0:ℚ) ≤ (i : ℚ) := by positivity
  have hstart0 : (0:ℚ) ≤ (i:ℚ) * per := by nlinarith
  have hstop0 : (0:ℚ) ≤ ((i:ℚ) + 1) * per := by nlinarith
  rw [pyInt_nonneg_eq_floor _ hstart0, pyInt_nonneg_eq_floor _ hstop0]
  refine ⟨_, _, ?_, ?_, rfl⟩
  · have hfl : ⌊(i:ℚ) * per⌋ + 1 ≤ ⌊((i:ℚ) + 1) * per⌋ := by
      have h1 : (i:ℚ) * per + 1 ≤ ((i:ℚ) + 1) * per := by nlinarith
      calc ⌊(i:ℚ) * per⌋ + 1 = ⌊(i:ℚ) * per + 1⌋ := by
            rw [Int.floor_add_one]
        _ ≤ ⌊((i:ℚ) + 1) * per⌋ := Int.floor_le_floor h1
    have hfl0 : 0 ≤ ⌊(i:ℚ) * per⌋ := Int.floor_nonneg.mpr hstart0
    omega
  · have hle : ((i:ℚ) + 1) * per ≤ (es.length : ℚ) := by
      have hi1 : ((i:ℚ) + 1) ≤ (Ls : ℚ) := by exact_mod_cast hi
      have h2 : ((i:ℚ) + 1) * per ≤ (Ls : ℚ) * per := by nlinarith
      have hcancel : (Ls : ℚ) * per = (es.length : ℚ) := by
        rw [hperdef, mul_div_cancel₀]
        exact ne_of_gt hLpos
      linarith [hcancel ▸ h2]
    have := Int.floor_le_floor hle
    rw [Int.floor_natCast] at this
    omega

theorem alignFanOut_ne_nil (es : List Str) (Ls i : ℕ) (hLs : 1 ≤ Ls)
    (hfan : Ls ≤ es.length) (hi : i < Ls) (hne : ∀ x ∈ es, x ≠ []) :
    alignFanOut es Ls i ≠ [] := by
  obtain ⟨start, stop, hss, hstop, heq⟩ := alignFanOut_slice es Ls i hLs hfan hi
  rw [heq]
  have hslice : (es.drop start).take (stop - start) ≠ [] := by
    intro hnil
    have hlen2 := congrArg List.length hnil
    simp only [List.length_take, List.length_drop, List.length_nil] at hlen2
    omega
  refine intercalate_space_ne_nil _ hslice ?_
  intro x hxmem
  exact hne x (List.mem_of_mem_drop (List.mem_of_mem_take hxmem))

theorem alignFanIn_ne_nil (es : List Str) (Ls i : ℕ) (hes : 1 ≤ es.length)
    (hne : ∀ x ∈ es, x ≠ []) : alignFanIn es Ls i ≠ [] := by
  unfold alignFanIn
  dsimp only
  have hidx : min (pyInt ((i : ℚ) / ((Ls : ℚ) / (es.length : ℚ)))).toNat
      (es.length - 1) < es.length := by
    have := min_le_right (pyInt ((i : ℚ) / ((Ls : ℚ) / (es.length : ℚ)))).toNat
      (es.length - 1)
    omega
  intro hnil
  have hmem := getD_mem_of_lt es _ ([] : Str) hidx
  rw [hnil] at hmem
  exact hne [] hmem rfl

theorem align_guard_ok (sents : List SegmentedSentence) (engs : List Str)
    (hsec : ∀ s ∈ sents, 1 ≤ s.secNum) :
    align_translations sents engs
      = Except.ok (sents.enum.map
          (fun ps => alignSentence sents engs ps.1 ps.2)) := by
  unfold align_translations
  rw [if_neg]
  simp only [List.any_eq_true, Bool.and_eq_true, decide_eq_true_eq, not_exists, not_and]
  intro s hs hcontra
  have h1 := hsec s hs
  have hlen : (0 : ℤ) ≤ (engs.length : ℤ) := by positivity
  omega

theorem lookupChunk_not_error (engs : List Str) (n : ℤ) (hn : 1 ≤ n) :
    lookupChunk engs n ≠ ChunkLookup.error := by
  unfold lookupChunk
  have hlen : (0 : ℤ) ≤ (engs.length : ℤ) := by positivity
  dsimp only
  split_ifs with h1 h2 h3
  · simp
  · omega
  · simp
  · simp

/-- Confidence and non-emptiness facts for one rewritten sentence. -/
theorem alignSentence_ok (sents : List SegmentedSentence) (engs : List Str)
    (p : ℕ) (s : SegmentedSentence) (hp : p < sents.length)
    (hs : sents.get ⟨p, hp⟩ = s) (hsec : 1 ≤ s.secNum) :
    (alignSentence sents engs p s).english ≠ []
    ∧ 0 ≤ (alignSentence sents engs p s).alignment_confidence
    ∧ (alignSentence sents engs p s).alignment_confidence ≤ 1 := by
  have hi : ((sents.take p).filter (fun t => t.secNum = s.secNum)).length
      < (sectionGroup sents s.secNum).length := by
    unfold sectionGroup
    exact count_take_lt sents (fun t => decide (t.secNum = s.secNum)) p hp
      (by rw [hs]; simp)
  rcases hlc : lookupChunk engs s.secNum with _ | _ | etext
  · simp only [alignSentence, hlc]
    exact ⟨by decide, le_refl 0, by norm_num⟩
  · exact absurd hlc (lookupChunk_not_error engs s.secNum hsec)
  · simp only [alignSentence, hlc]
    set es := split_english_sentences etext with hesdef
    set Ls := (sectionGroup sents s.secNum).length with hLsdef
    set i := ((sents.take p).filter (fun t => t.secNum = s.secNum)).length with hidef
    have hLs1 : 1 ≤ Ls := by omega
    have hnex : ∀ x ∈ es, x ≠ [] := by
      intro x hx
      exact split_english_sentences_mem_nonempty etext x (by rw [← hesdef]; exact hx)
    by_cases h0 : es.length = 0
    · rw [if_pos h0]
      refine ⟨?_, le_refl 0, by norm_num⟩
      show missing_translation_text ≠ []
      decide
    · rw [if_neg h0]
      by_cases hfan : Ls ≤ es.length
      · rw [if_pos hfan]
        exact ⟨alignFanOut_ne_nil es Ls i hLs1 hfan hi hnex,
          baseConfidence_nonneg Ls es.length,
          baseConfidence_le_one Ls es.length hLs1⟩
      · rw [if_neg hfan]
        refine ⟨alignFanIn_ne_nil es Ls i (by omega) hnex, ?_, ?_⟩
        · have := baseConfidence_nonneg Ls es.length
          nlinarith
        · have h1 := baseConfidence_nonneg Ls es.length
          have h2 := baseConfidence_le_one Ls es.length hLs1
          nlinarith

/-- C1 (amended): for every list of segmented sentences whose section
numbers are all at least 1 and every list of target chunks,
`align_translations` returns normally with one output per input
sentence, every output sentence has non-empty `english` text and
`alignment_confidence` in `[0, 1]`. -/
theorem C1_align_translations_total (sents : List SegmentedSentence)
    (engs : List Str) (hsec : ∀ s ∈ sents, 1 ≤ s.secNum) :
    ∃ out, align_translations sents engs = Except.ok out
      ∧ out.length = sents.length
      ∧ ∀ s ∈ out, s.english ≠ []
          ∧ 0 ≤ s.alignment_confidence ∧ s.alignment_confidence ≤ 1 := by
  refine ⟨_, align_guard_ok sents engs hsec, by simp, ?_⟩
  intro s' hs'
  rcases List.mem_map.mp hs' with ⟨ps, hpsmem, rfl⟩
  have hget : sents.get? ps.1 = some ps.2 := by
    simpa using List.mem_enum_iff_get?.mp hpsmem
  obtain ⟨hp, hg⟩ := List.get?_eq_some.mp hget
  have hmem2 : ps.2 ∈ sents := hg ▸ List.get_mem _ _ _
  exact alignSentence_ok sents engs ps.1 ps.2 hp hg (hsec ps.2 hmem2)

/-- C1 counterexample: a segmented sentence whose section number is `-1`
together with a single target chunk makes `align_translations` raise
`IndexError` (Python resolves `english_sections[-2]` on a length-1 list),
so as stated — over every list of segmented sentences — the claim fails. -/
theorem C1_counterexample :
    align_translations
      [{ id := "x".toList, latin := "a".toList, english := [],
         secNum := -1, position := 1, alignment_confidence := 0 }]
      ["One.".toList]
      = Except.error PyExn.indexError := rfl

theorem C1_witness :
    ((∀ s ∈ [({ id := "x".toList, latin := "a".toList, english := [],
                secNum := 1, position := 1, alignment_confidence := 0 }
          : SegmentedSentence)], 1 ≤ s.secNum))
    ∧ ∃ out, align_translations
        [{ id := "x".toList, latin := "a".toList, english := [],
           secNum := 1, position := 1, alignment_confidence := 0 }]
        ["One. Two.".toList] = Except.ok out
      ∧ out.length = 1
      ∧ ∀ s ∈ out, s.english ≠ []
          ∧ 0 ≤ s.alignment_confidence ∧ s.alignment_confidence ≤ 1 :=
  ⟨by decide,
   C1_align_translations_total _ ["One. Two.".toList] (by decide)⟩

theorem alignFanOut_single (es : List Str) (h : es.length = 1) :
    alignFanOut es 1 0 = es.getD 0 [] := by
  rcases es with _ | ⟨a, t⟩
  · simp at h
  · rcases t with _ | ⟨b, t'⟩
    · unfold alignFanOut
      norm_num [pyInt]
      simp [List.intercalate]
    · simp at h

theorem alignFanIn_single (es : List Str) (Ls i : ℕ) (h : es.length = 1) :
    alignFanIn es Ls i = es.getD 0 [] := by
  unfold alignFanIn
  rw [h]
  simp

/-- C2: per aligned section, each sentence's confidence is `1.0` when the
source and target sentence counts agree, `0.8 * min/max` when there are
more target sentences, and `0.8 * min/max * 0.9` when there are fewer;
when the target chunk holds exactly one sentence every source sentence
receives that same single target sentence. -/
theorem C2_align_confidence (sents : List SegmentedSentence) (engs : List Str)
    (n : ℤ) (etext : Str)
    (hne : sents ≠ [])
    (hall : ∀ s ∈ sents, s.secNum = n)
    (hn : 1 ≤ n)
    (hchunk : lookupChunk engs n = ChunkLookup.found etext)
    (hes : split_english_sentences etext ≠ []) :
    ∃ out, align_translations sents engs = Except.ok out
      ∧ ∀ s ∈ out,
        (sents.length = (split_english_sentences etext).length →
          s.alignment_confidence = 1)
        ∧ (sents.length < (split_english_sentences etext).length →
          s.alignment_confidence =
            ((min sents.length (split_english_sentences etext).length : ℕ) : ℚ)
            / ((max sents.length (split_english_sentences etext).length : ℕ) : ℚ)
            * (8/10))
        ∧ ((split_english_sentences etext).length < sents.length →
          s.alignment_confidence =
            ((min sents.length (split_english_sentences etext).length : ℕ) : ℚ)
            / ((max sents.length (split_english_sentences etext).length : ℕ) : ℚ)
            * (8/10) * (9/10))
        ∧ ((split_english_sentences etext).length = 1 →
          s.english = (split_english_sentences etext).getD 0 []) := by
  have hsec : ∀ s ∈ sents, 1 ≤ s.secNum := fun s hs => (hall s hs) ▸ hn
  refine ⟨_, align_guard_ok sents engs hsec, ?_⟩
  intro s' hs'
  rcases List.mem_map.mp hs' with ⟨ps, hpsmem, rfl⟩
  have hget : sents.get? ps.1 = some ps.2 := by
    simpa using List.mem_enum_iff_get?.mp hpsmem
  obtain ⟨hp, hg⟩ := List.get?_eq_some.mp hget
  have hmem2 : ps.2 ∈ sents := hg ▸ List.get_mem _ _ _
  have hsn : ps.2.secNum = n := hall ps.2 hmem2
  have hgroup : sectionGroup sents ps.2.secNum = sents := by
    unfold sectionGroup
    refine List.filter_eq_self.mpr ?_
    intro t ht
    simp [hsn, hall t ht]
  have hi : ((sents.take ps.1).filter (fun t => t.secNum = ps.2.secNum)).length
      < (sectionGroup sents ps.2.secNum).length := by
    unfold sectionGroup
    exact count_take_lt sents (fun t => decide (t.secNum = ps.2.secNum)) ps.1 hp
      (by rw [hg]; simp)
  simp only [alignSentence, hsn, hchunk]
  rw [show sectionGroup sents n = sents from hsn ▸ hgroup]
  set es := split_english_sentences etext with hesdef
  set i := ((sents.take ps.1).filter (fun t => t.secNum = n)).length
    with hidef
  have hin : i < sents.length := by
    rw [hidef, ← hsn]
    have h2 := hi
    rw [hgroup] at h2
    exact h2
  have hesne : es.length ≠ 0 := by
    intro hz
    exact hes (List.length_eq_zero.mp (hesdef ▸ hz))
  rw [if_neg hesne]
  have hLs1 : 1 ≤ sents.length := by
    rcases sents with _ | _
    · exact absurd rfl hne
    · simp
  refine ⟨?_, ?_, ?_, ?_⟩
  · intro heq
    rw [if_pos (le_of_eq heq)]
    simp [baseConfidence, heq]
  · intro hlt
    rw [if_pos (le_of_lt hlt)]
    simp [baseConfidence, Nat.ne_of_lt hlt]
  · intro hlt
    rw [if_neg (not_le.mpr hlt)]
    simp [baseConfidence, Nat.ne_of_gt hlt]
  · intro h1
    by_cases hfan : sents.length ≤ es.length
    · rw [if_pos hfan]
      show alignFanOut es sents.length i = es.getD 0 []
      have hLs : sents.length = 1 := by omega
      have hi0 : i = 0 := by omega
      rw [hLs, hi0]
      exact alignFanOut_single es h1
    · rw [if_neg hfan]
      show alignFanIn es sents.length i = es.getD 0 []
      exact alignFanIn_single es sents.length i h1

theorem C2_witness :
    (lookupChunk ["Omnia vincit amor.".toList] 1
        = ChunkLookup.found ("Omnia vincit amor.".toList))
    ∧ ∃ out, align_translations
        [{ id := "a".toList, latin := "u".toList, english := [],
           secNum := 1, position := 1, alignment_confidence := 0 },
         { id := "b".toList, latin := "v".toList, english := [],
           secNum := 1, position := 2, alignment_confidence := 0 },
         { id := "c".toList, latin := "w".toList, english := [],
           secNum := 1, position := 3, alignment_confidence := 0 }]
        ["Omnia vincit amor.".toList] = Except.ok out
      ∧ ∀ s ∈ out,
          s.alignment_confidence
            = ((min 3 (split_english_sentences ("Omnia vincit amor.".toList)).length : ℕ) : ℚ)
              / ((max 3 (split_english_sentences ("Omnia vincit amor.".toList)).length : ℕ) : ℚ)
              * (8/10) * (9/10)
          ∧ s.english = (split_english_sentences ("Omnia vincit amor.".toList)).getD 0 [] := by
  refine ⟨by decide, ?_⟩
  obtain ⟨out, hout, hprop⟩ := C2_align_confidence
    [{ id := "a".toList, latin := "u".toList, english := [],
       secNum := 1, position := 1, alignment_confidence := 0 },
     { id := "b".toList, latin := "v".toList, english := [],
       secNum := 1, position := 2, alignment_confidence := 0 },
     { id := "c".toList, latin := "w".toList, english := [],
       secNum := 1, position := 3, alignment_confidence := 0 }]
    ["Omnia vincit amor.".toList] 1 ("Omnia vincit amor.".toList)
    (by decide) (by decide) (by decide) (by decide) (by decide)
  refine ⟨out, hout, ?_⟩
  intro s hs
  have hlen : (split_english_sentences ("Omnia vincit amor.".toList)).length = 1 := by
    decide
  exact ⟨(hprop s hs).2.2.1 (by rw [hlen]; decide),
    (hprop s hs).2.2.2 hlen⟩

/-! ### Absolute difficulty scoring (`scripts/corpus/models.py`) -/

/-- The regex class `\w` (ASCII approximation: letters, digits,
underscore). -/
def isWordChar (c : Char) : Bool := c.isAlphanum || c = '_'

/-- Python `w.isdigit()` for ASCII tokens. -/
def pyIsDigit (w : Str) : Bool := !w.isEmpty && w.all Char.isDigit

/-- Embedding of `tokenize_latin`: strip non-word characters to spaces,
lowercase, split, and keep tokens longer than one character that are not
purely numeric. -/
def tokenize_latin (text : Str) : List Str :=
  let cleaned := text.map (fun c => if isWordChar c || isPyWs c then c else ' ')
  (pyWords (cleaned.map Char.toLower)).filter
    (fun w => decide (1 < w.length) && !pyIsDigit w)

/-- Python `freq_ranks.get(w, default)` for a table represented as an
association list. -/
def tableGet (tbl : List (Str × ℕ)) (w : Str) (dflt : ℕ) : ℕ :=
  match tbl.find? (fun kv => kv.1 = w) with
  | some kv => kv.2
  | none => dflt

/-- Python `int()` on a real value: truncation toward zero. -/
noncomputable def pyIntR (x : ℝ) : ℤ := if x < 0 then -⌊-x⌋ else ⌊x⌋

/-- Embedding of `calculate_raw_difficulty`.  The float arithmetic is
idealized over `ℝ` because of `math.sqrt`; the hapax comparison
`rank > max_rank * 0.5` is exact and kept in `ℚ`. -/
noncomputable def calculate_raw_difficulty (latin_text : Str)
    (freq_ranks : List (Str × ℕ)) (max_rank : ℕ) : ℝ :=
  let words := tokenize_latin latin_text
  if words.isEmpty then 1/2
  else
    let ranks := words.map (fun w => tableGet freq_ranks w max_rank)
    let avg_rank : ℝ := ((ranks.sum : ℕ) : ℝ) / (words.length : ℝ)
    let vocab_score : ℝ := Real.sqrt avg_rank / Real.sqrt (max_rank : ℝ)
    let length_score : ℝ := min 1 (max 0 (((words.length : ℝ) - 3) / 47))
    let hapax_count :=
      (words.filter (fun w =>
        decide ((max_rank : ℚ) * (1/2) < (tableGet freq_ranks w max_rank : ℚ)))).length
    let hapax_score : ℝ := (hapax_count : ℝ) / (words.length : ℝ)
    (60/100) * vocab_score + (25/100) * length_score + (15/100) * hapax_score

/-- Embedding of `calculate_difficulty`. -/
noncomputable def calculate_difficulty (latin_text : Str)
    (freq_ranks : List (Str × ℕ)) (max_rank : ℕ) : ℤ :=
  max 1 (min 100
    (pyIntR (1 + 99 * calculate_raw_difficulty latin_text freq_ranks max_rank)))

theorem list_sum_le_length_mul (l : List ℕ) (n : ℕ) (h : ∀ x ∈ l, x ≤ n) :
    l.sum ≤ l.length * n := by
  induction l with
  | nil => simp
  | cons a t ih =>
    simp only [List.sum_cons, List.length_cons]
    have ha := h a (List.mem_cons_self _ _)
    have ht := ih (fun x hx => h x (List.mem_cons_of_mem _ hx))
    calc a + t.sum ≤ n + t.length * n := by omega
      _ = (t.length + 1) * n := by ring

theorem tableGet_le (tbl : List (Str × ℕ)) (w : Str) (dflt : ℕ)
    (htbl : ∀ kv ∈ tbl, kv.2 ≤ dflt) : tableGet tbl w dflt ≤ dflt := by
  unfold tableGet
  rcases hf : tbl.find? (fun kv => decide (kv.1 = w)) with _ | kv
  · rw [hf]
  · rw [hf]
    exact htbl kv (List.mem_of_find?_eq_some hf)

theorem calculate_raw_difficulty_bounds (latin_text : Str)
    (freq_ranks : List (Str × ℕ)) (max_rank : ℕ) (hmr : 1 ≤ max_rank)
    (htbl : ∀ kv ∈ freq_ranks, kv.2 ≤ max_rank) :
    0 ≤ calculate_raw_difficulty latin_text freq_ranks max_rank
    ∧ calculate_raw_difficulty latin_text freq_ranks max_rank ≤ 1 := by
  unfold calculate_raw_difficulty
  set words := tokenize_latin latin_text with hwords
  by_cases hw : words.isEmpty
  · rw [if_pos hw]
    norm_num
  · rw [if_neg hw]
    have hlen : 1 ≤ words.length := by
      rcases words with _ | _
      · simp at hw
      · simp
    have hlenR : (0:ℝ) < (words.length : ℝ) := by exact_mod_cast hlen
    have hmrR : (0:ℝ) < (max_rank : ℝ) := by exact_mod_cast hmr
    set ranks := words.map (fun w => tableGet freq_ranks w max_rank) with hranks
    have hsum : ranks.sum ≤ words.length * max_rank := by
      refine list_sum_le_length_mul ranks max_rank ?_ |>.trans ?_
      · intro x hx
        rcases List.mem_map.mp hx with ⟨w, -, rfl⟩
        exact tableGet_le freq_ranks w max_rank htbl
      · rw [hranks, List.length_map]
    have havg0 : (0:ℝ) ≤ ((ranks.sum : ℕ) : ℝ) / (words.length : ℝ) := by positivity
    have havg1 : ((ranks.sum : ℕ) : ℝ) / (words.length : ℝ) ≤ (max_rank : ℝ) := by
      rw [div_le_iff hlenR]
      calc ((ranks.sum : ℕ) : ℝ) ≤ ((words.length * max_rank : ℕ) : ℝ) := by
            exact_mod_cast hsum
        _ = (max_rank : ℝ) * (words.length : ℝ) := by push_cast; ring
    have hsqrtpos : (0:ℝ) < Real.sqrt (max_rank : ℝ) := Real.sqrt_pos.mpr hmrR
    have hvocab0 : (0:ℝ) ≤ Real.sqrt (((ranks.sum : ℕ) : ℝ) / (words.length : ℝ))
        / Real.sqrt (max_rank : ℝ) := by positivity
    have hvocab1 : Real.sqrt (((ranks.sum : ℕ) : ℝ) / (words.length : ℝ))
        / Real.sqrt (max_rank : ℝ) ≤ 1 := by
      rw [div_le_one hsqrtpos]
      exact Real.sqrt_le_sqrt havg1
    have hls0 : (0:ℝ) ≤ min 1 (max 0 (((words.length : ℝ) - 3) / 47)) := by
      simp only [le_min_iff]
      constructor
      · norm_num
      · exact le_max_left 0 _
    have hls1 : min 1 (max 0 (((words.length : ℝ) - 3) / 47)) ≤ 1 := min_le_left _ _
    set hc := (words.filter (fun w =>
      decide ((max_rank : ℚ) * (1/2) < (tableGet freq_ranks w max_rank : ℚ)))).length
      with hhc
    have hhcle : hc ≤ words.length := by
      rw [hhc]
      exact List.length_filter_le _ _
    have hhap0 : (0:ℝ) ≤ (hc : ℝ) / (words.length : ℝ) := by positivity
    have hhap1 : (hc : ℝ) / (words.length : ℝ) ≤ 1 := by
      rw [div_le_one hlenR]
      exact_mod_cast hhcle
    constructor
    · nlinarith
    · nlinarith

/-- C4 (amended): with `max_rank ≥ 1` and all table ranks at most
`max_rank`, the raw weighted difficulty lies in `[0, 1]`, and the final
difficulty equals `clamp(trunc(1 + 99 * raw), 1, 100)` — Python `int()`
truncation, not rounding — which always lies in `[1, 100]`. -/
theorem C4_absolute_difficulty (latin_text : Str)
    (freq_ranks : List (Str × ℕ)) (max_rank : ℕ) (hmr : 1 ≤ max_rank)
    (htbl : ∀ kv ∈ freq_ranks, kv.2 ≤ max_rank) :
    (0 ≤ calculate_raw_difficulty latin_text freq_ranks max_rank
      ∧ calculate_raw_difficulty latin_text freq_ranks max_rank ≤ 1)
    ∧ calculate_difficulty latin_text freq_ranks max_rank
        = max 1 (min 100
            ⌊1 + 99 * calculate_raw_difficulty latin_text freq_ranks max_rank⌋)
    ∧ 1 ≤ calculate_difficulty latin_text freq_ranks max_rank
    ∧ calculate_difficulty latin_text freq_ranks max_rank ≤ 100 := by
  obtain ⟨h0, h1⟩ :=
    calculate_raw_difficulty_bounds latin_text freq_ranks max_rank hmr htbl
  have heq : calculate_difficulty latin_text freq_ranks max_rank
      = max 1 (min 100
          ⌊1 + 99 * calculate_raw_difficulty latin_text freq_ranks max_rank⌋) := by
    unfold calculate_difficulty pyIntR
    rw [if_neg]
    push_neg
    nlinarith
  refine ⟨⟨h0, h1⟩, heq, ?_, ?_⟩
  · rw [heq]
    exact le_max_left _ _
  · rw [heq]
    have : min 100 ⌊1 + 99 * calculate_raw_difficulty latin_text freq_ranks max_rank⌋
        ≤ 100 := min_le_left _ _
    omega

/-- C4 counterexample: on the four-token text `"ab cd ef gh"` with an
empty table and `max_rank = 1`, the raw score is `71/94 ≈ 0.7766`, the
code computes `int(1 + 99 * raw) = 75`, while the claim's
`clamp(round(1 + 99 * raw), 1, 100)` yields `76`: the absolute scorer
truncates rather than rounds. -/
theorem C4_counterexample :
    calculate_difficulty ("ab cd ef gh".toList) [] 1 = 75
    ∧ max (1:ℤ) (min 100 (round
        ((1:ℝ) + 99 * calculate_raw_difficulty ("ab cd ef gh".toList) [] 1))) = 76 := by
  have htok : tokenize_latin ("ab cd ef gh".toList)
      = ["ab".toList, "cd".toList, "ef".toList, "gh".toList] := by decide
  have hraw : calculate_raw_difficulty ("ab cd ef gh".toList) [] 1 = 71/94 := by
    unfold calculate_raw_difficulty
    rw [htok]
    norm_num [tableGet, Real.sqrt_one]
  constructor
  · unfold calculate_difficulty pyIntR
    rw [hraw]
    norm_num
  · rw [hraw]
    norm_num [round_eq]

theorem C4_witness :
    ((1 : ℕ) ≤ 1 ∧ (∀ kv ∈ ([] : List (Str × ℕ)), kv.2 ≤ 1))
    ∧ ((0 ≤ calculate_raw_difficulty ("ab cd".toList) [] 1
        ∧ calculate_raw_difficulty ("ab cd".toList) [] 1 ≤ 1)
      ∧ calculate_difficulty ("ab cd".toList) [] 1
          = max 1 (min 100
              ⌊1 + 99 * calculate_raw_difficulty ("ab cd".toList) [] 1⌋)
      ∧ 1 ≤ calculate_difficulty ("ab cd".toList) [] 1
      ∧ calculate_difficulty ("ab cd".toList) [] 1 ≤ 100) :=
  ⟨⟨le_refl 1, by decide⟩,
   C4_absolute_difficulty ("ab cd".toList) [] 1 (le_refl 1) (by decide)⟩

/-! ### Corpus validation and export (`scripts/corpus/models.py`) -/

/-- JSON values, as produced by `json.load`. -/
inductive Json where
  | null
  | bool (b : Bool)
  | num (q : ℚ)
  | str (s : String)
  | arr (l : List Json)
  | obj (l : List (String × Json))

/-- Python truthiness of a JSON value. -/
def truthy : Json → Bool
  | .null => false
  | .bool b => b
  | .num q => decide (q ≠ 0)
  | .str s => !s.isEmpty
  | .arr l => !l.isEmpty
  | .obj l => !l.isEmpty

/-- Python `d.get(k, default)` on a parsed JSON object. -/
def pyGet (fields : List (String × Json)) (k : String) (dflt : Json) : Json :=
  match fields.find? (fun kv => kv.1 = k) with
  | some kv => kv.2
  | none => dflt

/-- Python numeric coercion for comparison operators: ints and floats
are numbers; `bool` compares as 0/1; everything else raises
`TypeError`. -/
def asNum : Json → Option ℚ
  | .num q => some q
  | .bool b => some (if b then 1 else 0)
  | _ => none

/-- Consume one or more digits followed by a literal dot. -/
def digitsThenDot (s : Str) : Option Str :=
  let d := s.takeWhile Char.isDigit
  let r := s.dropWhile Char.isDigit
  if d.isEmpty then none
  else match r with
    | '.' :: r2 => some r2
    | _ => none

/-- One or more digits running to the end of the string. -/
def digitsEnd (s : Str) : Bool := !s.isEmpty && s.all Char.isDigit

/-- Embedding of `re.match(r'^bg\.\d+\.\d+\.\d+$', s)` viewed as a
boolean test. -/
def matchesIdPat (s : String) : Bool :=
  match s.toList with
  | 'b' :: 'g' :: '.' :: rest =>
    match digitsThenDot rest with
    | none => false
    | some r1 =>
      match digitsThenDot r1 with
      | none => false
      | some r2 => digitsEnd r2
  | _ => false

/-- The validation errors `validate_sentence`/`validate_corpus_file`
raise.  Field errors carry no element index (their messages name the
sentence id instead); only the `except (KeyError, TypeError)` wrapper
adds one. -/
inductive VErr where
  | invalidId
  | emptyLatin
  | emptyTranslation
  | difficultyRange
  | invalidOrder
  | missingSentences
  | sentencesNotList
  | emptyCorpus
  | typeErrorAt (i : ℕ)
deriving DecidableEq, Repr

/-- The ways `validate_corpus_file` can fail: a `ValidationError`, or an
exception the function does not catch (`AttributeError` from `.get` or
`.strip` on a non-string, `TypeError` from `in`/indexing a
non-container), which escapes to the caller. -/
inductive PyFail where
  | vErr (e : VErr)
  | uncaught
deriving DecidableEq, Repr

/-- Failure of one field check before the index-adding wrapper. -/
inductive ElemFail where
  | valErr (e : VErr)
  | typeError
  | attrError
deriving DecidableEq, Repr

/-- The check `if not sent.id or not re.match(pattern, sent.id)`. -/
def checkId (v : Json) : Except ElemFail Unit :=
  if !truthy v then .error (.valErr .invalidId)
  else match v with
    | .str s => if matchesIdPat s then .ok () else .error (.valErr .invalidId)
    | _ => .error .typeError

/-- The check `if not sent.x or not sent.x.strip()` shared by the two
text fields. -/
def checkText (v : Json) (e : VErr) : Except ElemFail Unit :=
  if !truthy v then .error (.valErr e)
  else match v with
    | .str s => if (pyStrip s.toList).isEmpty then .error (.valErr e) else .ok ()
    | _ => .error .attrError

/-- The check `if not 1 <= sent.difficulty <= 100`. -/
def checkDifficulty (v : Json) : Except ElemFail Unit :=
  match asNum v with
  | some q => if 1 ≤ q ∧ q ≤ 100 then .ok () else .error (.valErr .difficultyRange)
  | none => .error .typeError

/-- The check `if sent.order < 1`. -/
def checkOrder (v : Json) : Except ElemFail Unit :=
  match asNum v with
  | some q => if q < 1 then .error (.valErr .invalidOrder) else .ok ()
  | none => .error .typeError

/-- `validate_sentence` applied to the Sentence rebuilt from one array
element via `.get` with defaults. -/
def checkElement (e : Json) : Except ElemFail Unit :=
  match e with
  | .obj fields => do
    checkId (pyGet fields "id" (.str ""))
    checkText (pyGet fields "latin" (.str "")) .emptyLatin
    checkText (pyGet fields "referenceTranslation" (.str "")) .emptyTranslation
    checkDifficulty (pyGet fields "difficulty" (.num 0))
    checkOrder (pyGet fields "order" (.num 0))
  | _ => .error .attrError

/-- The per-element loop of `validate_corpus_file`, starting at index
`i`: `TypeError`s are wrapped as `ValidationError` with the element's
index, `ValidationError`s propagate as they are, `AttributeError`s
escape. -/
def checkSentencesFrom (i : ℕ) : List Json → Except PyFail Unit
  | [] => .ok ()
  | e :: rest =>
    match checkElement e with
    | .ok () => checkSentencesFrom (i + 1) rest
    | .error (.valErr v) => .error (.vErr v)
    | .error .typeError => .error (.vErr (.typeErrorAt i))
    | .error .attrError => .error .uncaught

/-- Embedding of `validate_corpus_file` on the parsed JSON document
(file lookup and JSON decoding are external). -/
def validate_corpus_file (data : Json) : Except PyFail Bool :=
  match data with
  | .obj fields =>
    if (fields.find? (fun kv => kv.1 = "sentences")).isNone then
      .error (.vErr .missingSentences)
    else match pyGet fields "sentences" .null with
      | .arr l =>
        if l.isEmpty then .error (.vErr .emptyCorpus)
        else match checkSentencesFrom 0 l with
          | .ok () => .ok true
          | .error f => .error f
      | _ => .error (.vErr .sentencesNotList)
  | .str s =>
    if (s.splitOn "sentences").length > 1 then .error .uncaught
    else .error (.vErr .missingSentences)
  | .arr l =>
    if l.any (fun j => match j with | .str s => s = "sentences" | _ => false) then
      .error .uncaught
    else .error (.vErr .missingSentences)
  | _ => .error .uncaught

/-- Declarative characterization of the elements `validate_corpus_file`
accepts (the amended claim's field rules). -/
def elemOKb (e : Json) : Bool :=
  match e with
  | .obj fields =>
    (match pyGet fields "id" (.str "") with
     | .str s => matchesIdPat s
     | _ => false)
    && (match pyGet fields "latin" (.str "") with
        | .str s => !(pyStrip s.toList).isEmpty
        | _ => false)
    && (match pyGet fields "referenceTranslation" (.str "") with
        | .str s => !(pyStrip s.toList).isEmpty
        | _ => false)
    && (match asNum (pyGet fields "difficulty" (.num 0)) with
        | some q => decide (1 ≤ q ∧ q ≤ 100)
        | none => false)
    && (match asNum (pyGet fields "order" (.num 0)) with
        | some q => decide (1 ≤ q)
        | none => false)
  | _ => false

/-- Declarative characterization of the documents
`validate_corpus_file` accepts. -/
def docOKb (d : Json) : Bool :=
  match d with
  | .obj fields =>
    (match pyGet fields "sentences" .null with
     | .arr l => !l.isEmpty && l.all elemOKb
     | _ => false)
  | _ => false

/-- The sentence field rules as the claim words them, including the
`alignment_confidence ∈ [0, 1]`-when-present rule and integrality of
`difficulty`. -/
def specSentenceOK (e : Json) : Bool :=
  match e with
  | .obj fields =>
    (match pyGet fields "id" (.str "") with
     | .str s => matchesIdPat s
     | _ => false)
    && (match pyGet fields "latin" (.str "") with
        | .str s => !s.isEmpty
        | _ => false)
    && (match pyGet fields "referenceTranslation" (.str "") with
        | .str s => !s.isEmpty
        | _ => false)
    && (match pyGet fields "difficulty" .null with
        | .num q => decide (q.den = 1) && decide (1 ≤ q ∧ q ≤ 100)
        | _ => false)
    && (match pyGet fields "order" .null with
        | .num q => decide (q.den = 1) && decide (1 ≤ q)
        | _ => false)
    && (match fields.find? (fun kv => kv.1 = "alignmentConfidence") with
        | none => true
        | some kv =>
          match kv.2 with
          | .num q => decide (0 ≤ q ∧ q ≤ 1)
          | _ => false)
  | _ => false

/-- Documents valid in the claim's sense. -/
def specValidDoc (d : Json) : Bool :=
  match d with
  | .obj fields =>
    (match pyGet fields "sentences" .null with
     | .arr l => !l.isEmpty && l.all specSentenceOK
     | _ => false)
  | _ => false

theorem checkId_ok_iff (v : Json) :
    checkId v = Except.ok () ↔ (match v with
      | Json.str s => matchesIdPat s
      | _ => false) = true := by
  unfold checkId
  rcases v with _ | b | q | s | l | l
  · simp [truthy]
  · cases b <;> simp [truthy]
  · by_cases hq : q = 0 <;> simp [truthy, hq]
  · by_cases hs : s.isEmpty
    · have h0 : s = "" := by simpa [String.isEmpty_iff] using hs
      subst h0
      decide
    · have hs2 : s.isEmpty = false := by simpa using hs
      rw [if_neg (by simp [truthy, hs2])]
      dsimp only
      split_ifs with hm <;> simp [hm]
  · by_cases hl : l.isEmpty <;> simp [truthy, hl]
  · by_cases hl : l.isEmpty <;> simp [truthy, hl]

theorem checkText_ok_iff (v : Json) (e : VErr) :
    checkText v e = Except.ok () ↔ (match v with
      | Json.str s => !(pyStrip s.toList).isEmpty
      | _ => false) = true := by
  unfold checkText
  rcases v with _ | b | q | s | l | l
  · simp [truthy]
  · cases b <;> simp [truthy]
  · by_cases hq : q = 0 <;> simp [truthy, hq]
  · by_cases hs : s.isEmpty
    · have h0 : s = "" := by simpa [String.isEmpty_iff] using hs
      subst h0
      rw [if_pos (by decide)]
      simp [pyStrip]
    · have hs2 : s.isEmpty = false := by simpa using hs
      rw [if_neg (by simp [truthy, hs2])]
      dsimp only
      split_ifs with hm <;> simp only [List.isEmpty_iff, String.toList] at hm <;> simp [hm]
  · by_cases hl : l.isEmpty <;> simp [truthy, hl]
  · by_cases hl : l.isEmpty <;> simp [truthy, hl]

theorem checkDifficulty_ok_iff (v : Json) :
    checkDifficulty v = Except.ok () ↔ (match asNum v with
      | some q => decide (1 ≤ q ∧ q ≤ 100)
      | none => false) = true := by
  unfold checkDifficulty
  rcases hn : asNum v with _ | q
  · simp
  · dsimp only
    split_ifs with h <;> simp [h]

theorem checkOrder_ok_iff (v : Json) :
    checkOrder v = Except.ok () ↔ (match asNum v with
      | some q => decide (1 ≤ q)
      | none => false) = true := by
  unfold checkOrder
  rcases hn : asNum v with _ | q
  · simp
  · dsimp only
    split_ifs with h
    · simp only [decide_eq_true_eq]
      constructor
      · intro hcontra
        cases hcontra
      · intro h2
        linarith
    · simp only [decide_eq_true_eq]
      have h2 : 1 ≤ q := by linarith [not_lt.mp h]
      simp [h2]




theorem except_seq_ok (a : Except ElemFail Unit) (f : Unit → Except ElemFail Unit) :
    (a >>= f) = Except.ok () ↔ a = Except.ok () ∧ f () = Except.ok () := by
  rcases a with e | u
  · simp [Bind.bind, Except.bind]
  · cases u
    simp [Bind.bind, Except.bind]

theorem checkElement_ok_iff (e : Json) :
    checkElement e = Except.ok () ↔ elemOKb e = true := by
  rcases e with _ | b | q | s | l | fields
  · simp [checkElement, elemOKb]
  · simp [checkElement, elemOKb]
  · simp [checkElement, elemOKb]
  · simp [checkElement, elemOKb]
  · simp [checkElement, elemOKb]
  · simp only [checkElement, elemOKb]
    rw [except_seq_ok, except_seq_ok, except_seq_ok, except_seq_ok]
    rw [checkId_ok_iff, checkText_ok_iff, checkText_ok_iff,
      checkDifficulty_ok_iff, checkOrder_ok_iff]
    simp only [Bool.and_eq_true]
    tauto

theorem checkSentencesFrom_ok_iff (l : List Json) :
    ∀ i, checkSentencesFrom i l = Except.ok () ↔ l.all elemOKb = true := by
  induction l with
  | nil => intro i; simp [checkSentencesFrom]
  | cons e rest ih =>
    intro i
    simp only [checkSentencesFrom, List.all_cons, Bool.and_eq_true]
    rcases he : checkElement e with f | u
    · have hef : elemOKb e = false := by
        by_contra hc
        simp only [Bool.not_eq_false] at hc
        rw [← checkElement_ok_iff, he] at hc
        cases hc
      rcases f with v | _ | _ <;> simp [hef]
    · have hee : elemOKb e = true := by
        rw [← checkElement_ok_iff, he]
      cases u
      simp [hee, ih (i + 1)]




theorem checkId_valErr (v : Json) (w : VErr)
    (h : checkId v = Except.error (ElemFail.valErr w)) : w = VErr.invalidId := by
  unfold checkId at h
  split_ifs at h
  · cases h
    rfl
  · rcases v with _ | b | q | s | l | l <;> simp_all
    split_ifs at h <;> cases h
    rfl

theorem checkText_valErr (v : Json) (e w : VErr)
    (h : checkText v e = Except.error (ElemFail.valErr w)) : w = e := by
  unfold checkText at h
  split_ifs at h
  · cases h
    rfl
  · rcases v with _ | b | q | s | l | l <;> simp_all
    split_ifs at h <;> cases h
    rfl

theorem checkDifficulty_valErr (v : Json) (w : VErr)
    (h : checkDifficulty v = Except.error (ElemFail.valErr w)) :
    w = VErr.difficultyRange := by
  unfold checkDifficulty at h
  rcases hn : asNum v with _ | q <;> rw [hn] at h
  · cases h
  · dsimp only at h
    split_ifs at h <;> cases h
    rfl

theorem checkOrder_valErr (v : Json) (w : VErr)
    (h : checkOrder v = Except.error (ElemFail.valErr w)) :
    w = VErr.invalidOrder := by
  unfold checkOrder at h
  rcases hn : asNum v with _ | q <;> rw [hn] at h
  · cases h
  · dsimp only at h
    split_ifs at h <;> cases h
    rfl

theorem checkElement_valErr (e : Json) (w : VErr)
    (h : checkElement e = Except.error (ElemFail.valErr w)) :
    ∀ i, w ≠ VErr.typeErrorAt i := by
  rcases e with _ | b | q | s | l | fields <;> simp [checkElement] at h
  have hsplit : ∀ (a : Except ElemFail Unit) (f : Unit → Except ElemFail Unit),
      (a >>= f) = Except.error (ElemFail.valErr w) →
      a = Except.error (ElemFail.valErr w) ∨ f () = Except.error (ElemFail.valErr w) := by
    intro a f hh
    rcases a with x | u
    · left
      simpa [Bind.bind, Except.bind] using hh
    · right
      cases u
      simpa [Bind.bind, Except.bind] using hh
  rcases hsplit _ _ h with h1 | h2
  · have := checkId_valErr _ _ h1
    subst this
    intro i hcontra
    cases hcontra
  rcases hsplit _ _ h2 with h1 | h2
  · have := checkText_valErr _ _ _ h1
    subst this
    intro i hcontra
    cases hcontra
  rcases hsplit _ _ h2 with h1 | h2
  · have := checkText_valErr _ _ _ h1
    subst this
    intro i hcontra
    cases hcontra
  rcases hsplit _ _ h2 with h1 | h2
  · have := checkDifficulty_valErr _ _ h1
    subst this
    intro i hcontra
    cases hcontra
  · have := checkOrder_valErr _ _ h2
    subst this
    intro i hcontra
    cases hcontra

theorem checkSentencesFrom_typeErrorAt (l : List Json) :
    ∀ k i, checkSentencesFrom k l = Except.error (PyFail.vErr (VErr.typeErrorAt i)) →
      k ≤ i ∧ ∃ e, l.get? (i - k) = some e
        ∧ checkElement e = Except.error ElemFail.typeError := by
  induction l with
  | nil => intro k i h; cases h
  | cons e rest ih =>
    intro k i h
    simp only [checkSentencesFrom] at h
    rcases he : checkElement e with f | u <;> rw [he] at h
    · rcases f with v | _ | _
      · have hv : v = VErr.typeErrorAt i := by
          cases h
          rfl
        exact absurd hv (checkElement_valErr e v he i)
      · have hk : k = i := by
          cases h
          rfl
        subst hk
        exact ⟨le_refl k, e, by simp, he⟩
      · cases h
    · cases u
      obtain ⟨hki, e', hg, hc⟩ := ih (k + 1) i h
      refine ⟨by omega, e', ?_, hc⟩
      have : i - k = (i - (k + 1)) + 1 := by omega
      rw [this]
      simpa using hg




/-- C6 (amended): `validate_corpus_file` accepts a document exactly when
it is a JSON object whose `sentences` field is a non-empty array each of
whose elements is an object carrying an id matching the pattern
`bg.<d>+.<d>+.<d>+`, `latin` and `referenceTranslation` strings with
non-whitespace content, a numeric `difficulty` in `[1, 100]` and a
numeric `order` at least 1; `alignment_confidence` is never checked.
Field-rule rejections carry only the reason (the failing field and the
sentence id), not the element index; an element index is reported
exactly for elements whose malformed field types raise `TypeError`, and
it is then the index of the first such offending element. -/
theorem C6_validate_corpus_characterization (d : Json) :
    (validate_corpus_file d = Except.ok true ↔ docOKb d = true)
    ∧ (∀ fields l i, d = Json.obj fields →
        pyGet fields "sentences" Json.null = Json.arr l →
        validate_corpus_file d = Except.error (PyFail.vErr (VErr.typeErrorAt i)) →
        ∃ e, l.get? i = some e ∧ checkElement e = Except.error ElemFail.typeError) := by
  constructor
  · rcases d with _ | b | q | s | l | fields
    · simp [validate_corpus_file, docOKb]
    · simp [validate_corpus_file, docOKb]
    · simp [validate_corpus_file, docOKb]
    · simp only [validate_corpus_file, docOKb]
      split_ifs <;> simp
    · simp only [validate_corpus_file, docOKb]
      split_ifs <;> simp
    · simp only [validate_corpus_file, docOKb]
      by_cases hfind : (fields.find? (fun kv => kv.1 = "sentences")).isNone
      · rw [if_pos hfind]
        have hget : pyGet fields "sentences" Json.null = Json.null := by
          unfold pyGet
          rw [Option.isNone_iff_eq_none.mp hfind]
        rw [hget]
        simp
      · rw [if_neg hfind]
        rcases hget : pyGet fields "sentences" Json.null with _ | b | q | s | l | f2
        · simp
        · simp
        · simp
        · simp
        case neg.arr =>
          dsimp only
          by_cases hl : l.isEmpty
          · rw [if_pos hl]
            simp [hl]
          · rw [if_neg hl]
            rcases hc : checkSentencesFrom 0 l with f | u
            · have hnok : ¬ l.all elemOKb = true := by
                intro hall
                rw [← checkSentencesFrom_ok_iff l 0] at hall
                rw [hc] at hall
                cases hall
              simp [hnok]
            · cases u
              have hall := (checkSentencesFrom_ok_iff l 0).mp hc
              simp [hl, hall]
        · simp
  · intro fields l i hd hget hval
    subst hd
    simp only [validate_corpus_file] at hval
    split_ifs at hval with hfind
    · cases hval
    · rw [hget] at hval
      dsimp only at hval
      split_ifs at hval with hl
      · cases hval
      · rcases hc : checkSentencesFrom 0 l with f | u <;> rw [hc] at hval
        · have hf : f = PyFail.vErr (VErr.typeErrorAt i) := by
            cases hval
            rfl
          subst hf
          obtain ⟨-, e, hg, hce⟩ := checkSentencesFrom_typeErrorAt l 0 i hc
          exact ⟨e, by simpa using hg, hce⟩
        · cases hval

/-- The document used to refute C6 as stated: field-wise valid but with
`alignmentConfidence` equal to 2. -/
def confidentDoc : Json :=
  Json.obj [("sentences", Json.arr [Json.obj
    [("id", Json.str "bg.1.1.1"), ("latin", Json.str "Gallia"),
     ("referenceTranslation", Json.str "Gaul"),
     ("difficulty", Json.num 50), ("order", Json.num 1),
     ("alignmentConfidence", Json.num 2)]])]

/-- C6 counterexample: the code accepts a document whose
`alignmentConfidence` is 2, outside `[0, 1]`, because
`validate_sentence` never examines that field — so acceptance is not
equivalent to the claim's field rules. -/
theorem C6_counterexample :
    validate_corpus_file confidentDoc = Except.ok true
    ∧ specValidDoc confidentDoc = false :=
  ⟨rfl, rfl⟩

theorem C6_witness :
    (docOKb confidentDoc = true
      ∧ validate_corpus_file confidentDoc = Except.ok true)
    ∧ (∃ e, (Json.arr [Json.obj [("id", Json.num 5)]] = Json.arr [Json.obj [("id", Json.num 5)]])
        ∧ [Json.obj [("id", Json.num 5)]].get? 0 = some e
        ∧ checkElement e = Except.error ElemFail.typeError) := by
  refine ⟨⟨rfl, (C6_validate_corpus_characterization confidentDoc).1.mpr rfl⟩, ?_⟩
  obtain ⟨e, hg, hc⟩ :=
    (C6_validate_corpus_characterization
        (Json.obj [("sentences", Json.arr [Json.obj [("id", Json.num 5)]])])).2
      [("sentences", Json.arr [Json.obj [("id", Json.num 5)]])]
      [Json.obj [("id", Json.num 5)]] 0 rfl rfl rfl
  exact ⟨e, rfl, hg, hc⟩

/-- Embedding of the final `Sentence` dataclass (output schema). -/
structure Sentence where
  id : String
  latin : String
  referenceTranslation : String
  difficulty : ℤ
  order : ℤ
  alignmentConfidence : Option ℚ
deriving DecidableEq, Repr

/-- Embedding of `validate_sentence` on a typed record. -/
def validate_sentence (sent : Sentence) : Except VErr Unit :=
  if sent.id.isEmpty || !matchesIdPat sent.id then .error .invalidId
  else if sent.latin.isEmpty || (pyStrip sent.latin.toList).isEmpty then
    .error .emptyLatin
  else if sent.referenceTranslation.isEmpty
      || (pyStrip sent.referenceTranslation.toList).isEmpty then
    .error .emptyTranslation
  else if ¬(1 ≤ sent.difficulty ∧ sent.difficulty ≤ 100) then
    .error .difficultyRange
  else if sent.order < 1 then .error .invalidOrder
  else .ok ()

/-- The `for sent in sentences: validate_sentence(sent)` loop of
`export_corpus`. -/
def validateAll : List Sentence → Except VErr Unit
  | [] => .ok ()
  | s :: rest =>
    match validate_sentence s with
    | .ok () => validateAll rest
    | .error e => .error e

/-- Python `dataclasses.asdict` on a `Sentence`, as serialized by
`json.dump`. -/
def sentenceToJson (s : Sentence) : Json :=
  Json.obj [("id", Json.str s.id), ("latin", Json.str s.latin),
    ("referenceTranslation", Json.str s.referenceTranslation),
    ("difficulty", Json.num s.difficulty), ("order", Json.num s.order),
    ("alignmentConfidence",
      match s.alignmentConfidence with
      | some q => Json.num q
      | none => Json.null)]

/-- Embedding of `export_corpus`: validate every sentence, then write the
document (the atomic file write is external; the document written is
returned).  `now` stands for `datetime.now().isoformat()`. -/
def export_corpus (sentences : List Sentence) (now : String) : Except VErr Json :=
  match validateAll sentences with
  | .error e => .error e
  | .ok () =>
    .ok (Json.obj
      [("sentences", Json.arr (sentences.map sentenceToJson)),
       ("metadata", Json.obj
         [("version", Json.str "1.0"), ("generated_at", Json.str now),
          ("sentence_count", Json.num sentences.length)])])

/-- A JSON value that is an integer. -/
def asInt : Json → Option ℤ
  | .num q => if q.den = 1 then some q.num else none
  | _ => none

/-- The `Sentence` that `validate_corpus_file` reconstructs from a
well-typed array element. -/
def sentenceOfJson (e : Json) : Option Sentence :=
  match e with
  | .obj fields =>
    match pyGet fields "id" .null, pyGet fields "latin" .null,
      pyGet fields "referenceTranslation" .null,
      asInt (pyGet fields "difficulty" .null),
      asInt (pyGet fields "order" .null) with
    | .str i, .str la, .str rt, some d, some o =>
      some { id := i, latin := la, referenceTranslation := rt,
             difficulty := d, order := o,
             alignmentConfidence :=
               match pyGet fields "alignmentConfidence" .null with
               | .num q => some q
               | _ => none }
    | _, _, _, _, _ => none
  | _ => none

/-- The `sentences` array of a corpus document. -/
def corpusSentences (doc : Json) : List Json :=
  match doc with
  | .obj fields =>
    match pyGet fields "sentences" .null with
    | .arr l => l
    | _ => []
  | _ => []

theorem sentenceOfJson_toJson (s : Sentence) :
    sentenceOfJson (sentenceToJson s) = some s := by
  rcases s with ⟨i, la, rt, d, o, ac⟩
  rcases ac with _ | q <;>
    simp [sentenceOfJson, sentenceToJson, pyGet, List.find?, asInt,
      Rat.den_intCast, Rat.num_intCast]

theorem validateAll_ok (l : List Sentence)
    (h : ∀ s ∈ l, validate_sentence s = Except.ok ()) :
    validateAll l = Except.ok () := by
  induction l with
  | nil => rfl
  | cons s rest ih =>
    simp only [validateAll]
    rw [h s (List.mem_cons_self _ _)]
    exact ih (fun t ht => h t (List.mem_cons_of_mem _ ht))

theorem checkElement_toJson (s : Sentence)
    (h : validate_sentence s = Except.ok ()) :
    checkElement (sentenceToJson s) = Except.ok () := by
  rcases s with ⟨i, la, rt, d, o, ac⟩
  unfold validate_sentence at h
  dsimp only at h
  split_ifs at h with h1 h2 h3 h4 h5
  simp only [not_or, Bool.or_eq_true, Bool.not_eq_true, Bool.not_eq_false,
    not_and_or, not_not] at h1 h2 h3 h4 h5
  rw [checkElement_ok_iff]
  rcases h1 with ⟨hi1, hi2⟩
  rcases h2 with ⟨hl1, hl2⟩
  rcases h3 with ⟨hr1, hr2⟩
  simp only [not_lt] at h5
  have hd1 : (1 : ℚ) ≤ (d : ℚ) := by exact_mod_cast h4.1
  have hd2 : (d : ℚ) ≤ 100 := by exact_mod_cast h4.2
  have ho1 : (1 : ℚ) ≤ (o : ℚ) := by exact_mod_cast h5
  have hi2e : matchesIdPat i = true := by simpa using hi2
  have hl2e : pyStrip la.data ≠ [] := by
    simpa [String.toList, List.isEmpty_eq_false] using hl2
  have hr2e : pyStrip rt.data ≠ [] := by
    simpa [String.toList, List.isEmpty_eq_false] using hr2
  simp [sentenceToJson, elemOKb, pyGet, List.find?, asNum,
    hi2e, hl2e, hr2e, hd1, hd2, ho1]

/-- C7 (amended): for every NON-EMPTY list of schema-valid sentence
records, `export_corpus` succeeds, the document it writes passes
`validate_corpus_file`, and the sentence records read back from the
document are exactly the originals. -/
theorem C7_export_roundtrip (sentences : List Sentence) (now : String)
    (hne : sentences ≠ [])
    (hval : ∀ s ∈ sentences, validate_sentence s = Except.ok ()) :
    ∃ doc, export_corpus sentences now = Except.ok doc
      ∧ validate_corpus_file doc = Except.ok true
      ∧ (corpusSentences doc).map sentenceOfJson = sentences.map some := by
  have hok : checkSentencesFrom 0 (sentences.map sentenceToJson)
      = Except.ok () := by
    rw [checkSentencesFrom_ok_iff]
    refine List.all_eq_true.mpr ?_
    intro e he
    rcases List.mem_map.mp he with ⟨t, ht, rfl⟩
    rw [← checkElement_ok_iff]
    exact checkElement_toJson t (hval t ht)
  refine ⟨_, by unfold export_corpus; rw [validateAll_ok sentences hval], ?_, ?_⟩
  · rcases sentences with _ | ⟨s0, rest⟩
    · exact absurd rfl hne
    · show (match checkSentencesFrom 0 ((s0 :: rest).map sentenceToJson) with
        | Except.ok () => Except.ok true
        | Except.error f => Except.error f) = Except.ok true
      rw [hok]
  · show ((sentences.map sentenceToJson).map sentenceOfJson) = sentences.map some
    rw [List.map_map]
    exact List.map_congr_left (fun t _ => sentenceOfJson_toJson t)

/-- The document `export_corpus` writes for the empty list. -/
def emptyCorpusDoc : Json :=
  Json.obj
    [("sentences", Json.arr []),
     ("metadata", Json.obj
       [("version", Json.str "1.0"), ("generated_at", Json.str "t"),
        ("sentence_count", Json.num 0)])]

/-- C7 counterexample: exporting the empty list succeeds (every record
vacuously satisfies the rules) but validating the written document
fails with "Corpus is empty", so the round-trip claim fails without a
non-emptiness hypothesis. -/
theorem C7_counterexample :
    export_corpus [] "t" = Except.ok emptyCorpusDoc
    ∧ validate_corpus_file emptyCorpusDoc
        = Except.error (PyFail.vErr VErr.emptyCorpus) :=
  ⟨rfl, rfl⟩

theorem C7_witness :
    (([{ id := "bg.1.1.1", latin := "Gallia est", referenceTranslation := "Gaul is",
         difficulty := 50, order := 1, alignmentConfidence := none }]
        : List Sentence) ≠ [])
    ∧ ∃ doc, export_corpus
        [{ id := "bg.1.1.1", latin := "Gallia est", referenceTranslation := "Gaul is",
           difficulty := 50, order := 1, alignmentConfidence := none }] "t"
          = Except.ok doc
      ∧ validate_corpus_file doc = Except.ok true
      ∧ (corpusSentences doc).map sentenceOfJson
          = ([{ id := "bg.1.1.1", latin := "Gallia est",
                referenceTranslation := "Gaul is", difficulty := 50, order := 1,
                alignmentConfidence := none }] : List Sentence).map some :=
  ⟨by decide,
   C7_export_roundtrip _ "t" (by decide) (by decide)⟩

/-! ### Sentence segmentation: `segment_regex` -/

/-- The placeholder string `<PERIOD>`. -/
def ph : Str := ['<', 'P', 'E', 'R', 'I', 'O', 'D', '>']

/-- `LATIN_ABBREVS`, in source-literal order (the embedding fixes the
Python set's iteration order to the order of the set literal). -/
def LATIN_ABBREVS : List Str :=
  ["cf", "etc", "i.e", "e.g", "viz", "sc", "vs", "cap", "lib",
   "c", "a", "m", "l", "p", "q", "t", "d", "s", "n"].map String.toList

/-- Case-insensitive character match (`re.IGNORECASE`, ASCII). -/
def ciChar (c d : Char) : Bool := decide (c.toLower = d.toLower)

/-- Case-insensitive: the pattern (first argument) matches the
beginning of the text (second argument). -/
def ciPre : Str → Str → Bool
  | [], _ => true
  | _ :: _, [] => false
  | p :: ps, c :: cs => ciChar c p && ciPre ps cs

/-- Case-insensitive equality of whole strings. -/
def ciStr : Str → Str → Bool
  | [], [] => true
  | c :: cs, p :: ps => ciChar c p && ciStr cs ps
  | _, _ => false

/-- The text begins with a literal period. -/
def headDot : Str → Bool
  | [] => false
  | c :: _ => decide (c = '.')

/-- Fuel-indexed scanner for one
`re.sub(rf'\b({abbrev})\.', r'\1<PERIOD>', text, flags=re.IGNORECASE)`.
`prevW` is whether the previous character of the text is a word
character (the `\b` state); the fuel pads the recursion into structural
form and never runs out when started at the text's length. -/
def subF (a : Str) : ℕ → Bool → Str → Str
  | 0, _, t => t
  | _ + 1, _, [] => []
  | n + 1, prevW, c :: rest =>
    if !prevW && ciPre a (c :: rest) && headDot (List.drop a.length (c :: rest)) then
      List.take a.length (c :: rest) ++ ph ++
        subF a n false (List.drop (a.length + 1) (c :: rest))
    else c :: subF a n (isWordChar c) rest

/-- One whole `re.sub` pass for one abbreviation. -/
def subAbbrev (a t : Str) : Str := subF a t.length false t

/-- The abbreviation-protection loop of `segment_regex`. -/
def protect (t : Str) : Str :=
  LATIN_ABBREVS.foldl (fun s a => subAbbrev a s) t

/-- Fuel-indexed scanner for `sent.replace('<PERIOD>', '.')`. -/
def restoreF : ℕ → Str → Str
  | 0, t => t
  | _ + 1, [] => []
  | n + 1, c :: rest =>
    if ph.isPrefixOf (c :: rest) then '.' :: restoreF n (List.drop 7 rest)
    else c :: restoreF n rest

/-- `sent.replace('<PERIOD>', '.')`. -/
def restore (t : Str) : Str := restoreF t.length t

/-- Embedding of `segment_regex`. -/
def segment_regex (text : Str) : List Str :=
  if text.isEmpty || (pyStrip text).isEmpty then []
  else
    ((splitTerm isUpperOrBracket (protect (pyNormalize text))).map
        (fun s => pyStrip (restore s))).filter (fun s => !s.isEmpty)

/-- Whether `<PERIOD>` occurs as a substring. -/
def hasPh : Str → Bool
  | [] => false
  | c :: rest => ph.isPrefixOf (c :: rest) || hasPh rest

/-- A sentence that is exactly a protected abbreviation token: one of
the abbreviations (case-insensitively) followed by a period. -/
def isProtectedAbbrevToken (s : Str) : Bool :=
  LATIN_ABBREVS.any (fun a => ciStr s (a ++ ['.']))

/-! #### The restore scanner -/

theorem headDot_some {s : Str} (h : headDot s = true) : s = '.' :: s.tail := by
  cases s with
  | nil => simp [headDot] at h
  | cons c s' =>
    simp only [headDot, decide_eq_true_eq] at h
    subst h
    rfl

theorem hasPh_cons (c : Char) (r : Str) :
    hasPh (c :: r) = (ph.isPrefixOf (c :: r) || hasPh r) := rfl

theorem hasPh_iff {t : Str} : hasPh t = true ↔ ∃ u v, t = u ++ ph ++ v := by
  constructor
  · intro h
    induction t with
    | nil => simp [hasPh] at h
    | cons c rest ih =>
      rw [hasPh_cons, Bool.or_eq_true] at h
      rcases h with h | h
      · have hpre := List.isPrefixOf_iff_prefix.mp h
        obtain ⟨w, hw⟩ := hpre
        exact ⟨[], w, by rw [← hw]; rfl⟩
      · obtain ⟨u, v, huv⟩ := ih h
        exact ⟨c :: u, v, by rw [huv]; rfl⟩
  · rintro ⟨u, v, rfl⟩
    induction u with
    | nil =>
      have hp : ph.isPrefixOf (ph ++ v) = true :=
        List.isPrefixOf_iff_prefix.mpr (List.prefix_append _ _)
      show hasPh (ph ++ v) = true
      rw [show ph ++ v = '<' :: (['P', 'E', 'R', 'I', 'O', 'D', '>'] ++ v) from rfl]
      rw [hasPh_cons]
      rw [show ('<' :: (['P', 'E', 'R', 'I', 'O', 'D', '>'] ++ v)) = ph ++ v from rfl, hp]
      rfl
    | cons c u' ih =>
      show hasPh (c :: (u' ++ ph ++ v)) = true
      rw [hasPh_cons, ih]
      simp

theorem restoreF_fuel : ∀ (n : ℕ) (t : Str), t.length ≤ n → restoreF n t = restore t := by
  intro n
  induction n using Nat.strong_induction_on with
  | _ n ih =>
    intro t ht
    rcases t with _ | ⟨c, rest⟩
    · cases n <;> rfl
    · rcases n with _ | n'
      · simp at ht
      · have hr : rest.length ≤ n' := by
          simp only [List.length_cons] at ht
          omega
        show restoreF (n' + 1) (c :: rest) = restoreF (rest.length + 1) (c :: rest)
        cases hp : ph.isPrefixOf (c :: rest) with
        | true =>
          simp only [restoreF, hp, if_true]
          rw [ih n' (by omega) _ (by have := List.length_drop 7 rest; omega),
            ih rest.length (by omega) _ (by have := List.length_drop 7 rest; omega)]
        | false =>
          simp only [restoreF, hp, Bool.false_eq_true, if_false]
          rw [ih n' (by omega) _ hr, ih rest.length (by omega) _ le_rfl]

theorem restore_ph (t : Str) : restore (ph ++ t) = '.' :: restore t := by
  have hp : ph.isPrefixOf (ph ++ t) = true :=
    List.isPrefixOf_iff_prefix.mpr (List.prefix_append _ _)
  show restoreF ((ph ++ t).length) (ph ++ t) = _
  have hl : (ph ++ t).length = (t.length + 7) + 1 := by simp [ph]
  rw [hl]
  rw [show ph ++ t = '<' :: (['P', 'E', 'R', 'I', 'O', 'D', '>'] ++ t) from rfl]
  simp only [restoreF]
  rw [show ph.isPrefixOf ('<' :: (['P', 'E', 'R', 'I', 'O', 'D', '>'] ++ t)) = true from hp]
  simp only [if_true]
  rw [show List.drop 7 (['P', 'E', 'R', 'I', 'O', 'D', '>'] ++ t) = t from rfl]
  rw [restoreF_fuel _ _ (Nat.le_add_right _ _)]

theorem restore_cons {c : Char} {t : Str} (h : ph.isPrefixOf (c :: t) = false) :
    restore (c :: t) = c :: restore t := by
  show restoreF ((c :: t).length) (c :: t) = _
  rw [List.length_cons]
  simp only [restoreF, h, Bool.false_eq_true, if_false]
  rw [restoreF_fuel _ _ le_rfl]

theorem ph_isPrefixOf_head {c : Char} {t : Str} (h : ph.isPrefixOf (c :: t) = true) :
    c = '<' := by
  obtain ⟨w, hw⟩ := List.isPrefixOf_iff_prefix.mp h
  rw [show ph ++ w = '<' :: (['P', 'E', 'R', 'I', 'O', 'D', '>'] ++ w) from rfl] at hw
  exact (List.cons.injEq .. ▸ hw).1.symm

theorem restore_ne_nil {t : Str} (h : t ≠ []) : restore t ≠ [] := by
  match t with
  | [] => exact absurd rfl h
  | c :: rest =>
    cases hp : ph.isPrefixOf (c :: rest) with
    | true =>
      obtain ⟨w, hw⟩ := List.isPrefixOf_iff_prefix.mp hp
      rw [← hw, restore_ph]
      simp
    | false =>
      rw [restore_cons hp]
      simp

theorem restore_id : ∀ {t : Str}, hasPh t = false → restore t = t := by
  intro t
  induction t with
  | nil => intro _; rfl
  | cons c rest ih =>
    intro h
    rw [hasPh_cons, Bool.or_eq_false_iff] at h
    rw [restore_cons h.1, ih h.2]

theorem dot_mem_restore : ∀ {t : Str}, hasPh t = true → '.' ∈ restore t := by
  intro t
  induction t with
  | nil => intro h; simp [hasPh] at h
  | cons c rest ih =>
    intro h
    cases hp : ph.isPrefixOf (c :: rest) with
    | true =>
      obtain ⟨w, hw⟩ := List.isPrefixOf_iff_prefix.mp hp
      rw [← hw, restore_ph]
      simp
    | false =>
      rw [hasPh_cons, hp, Bool.false_or] at h
      rw [restore_cons hp]
      exact List.mem_cons_of_mem _ (ih h)

theorem restore_sep_nil {c : Char} (hc : c ∉ ph) (y : Str) :
    restore (c :: y) = c :: restore y := by
  cases hp : ph.isPrefixOf (c :: y) with
  | true =>
    exact absurd (ph_isPrefixOf_head hp ▸ (by decide : '<' ∈ ph)) hc
  | false => exact restore_cons hp

theorem restore_sep_aux {c : Char} (hc : c ∉ ph) :
    ∀ (N : ℕ) (x y : Str), x.length ≤ N →
      restore (x ++ c :: y) = restore x ++ c :: restore y := by
  intro N
  induction N with
  | zero =>
    intro x y hx
    have h0 : x = [] := List.length_eq_zero.mp (Nat.le_zero.mp hx)
    subst h0
    rw [List.nil_append]
    exact restore_sep_nil hc y
  | succ N ihN =>
    intro x y hx
    match x with
    | [] =>
      rw [List.nil_append]
      exact restore_sep_nil hc y
    | d :: x' =>
      cases hp : ph.isPrefixOf ((d :: x') ++ c :: y) with
      | true =>
        obtain ⟨r, hr⟩ := List.isPrefixOf_iff_prefix.mp hp
        rcases Nat.lt_or_ge (d :: x').length 8 with h8 | h8
        · exfalso
          have e1 : ((d :: x') ++ c :: y).take ((d :: x').length + 1) = (d :: x') ++ [c] := by
            rw [List.take_append_eq_append_take, List.take_all_of_le (by omega)]
            congr 1
            rw [show (d :: x').length + 1 - (d :: x').length = 1 from by omega]
            rfl
          have e2 : (ph ++ r).take ((d :: x').length + 1) = ph.take ((d :: x').length + 1) := by
            rw [List.take_append_eq_append_take,
              show (d :: x').length + 1 - ph.length = 0 from by
                have : ph.length = 8 := rfl
                omega]
            simp
          have e3 : (d :: x') ++ [c] = ph.take ((d :: x').length + 1) := by
            rw [← e1, ← hr, e2]
          have hmem : c ∈ ph.take ((d :: x').length + 1) := by
            rw [← e3]
            simp
          exact hc (List.take_subset _ _ hmem)
        · have hx8 : ph <+: d :: x' := by
            refine List.prefix_of_prefix_length_le ⟨r, hr⟩ (List.prefix_append _ _) ?_
            have : ph.length = 8 := rfl
            omega
          obtain ⟨x'', hx''⟩ := hx8
          rw [← hx'', List.append_assoc, restore_ph, restore_ph]
          rw [ihN x'' y (by
            have : x''.length + 8 ≤ N + 1 := by
              have hlen := congrArg List.length hx''
              simp [ph] at hlen
              simp only [List.length_cons] at hx
              omega
            omega)]
          rfl
      | false =>
        have hp2 : ph.isPrefixOf (d :: x') = false := by
          cases hq : ph.isPrefixOf (d :: x') with
          | false => rfl
          | true =>
            exfalso
            have h1 : ph <+: (d :: x') ++ (c :: y) :=
              (List.isPrefixOf_iff_prefix.mp hq).trans (List.prefix_append _ _)
            rw [← List.isPrefixOf_iff_prefix, hp] at h1
            cases h1
        have e0 := restore_cons (show ph.isPrefixOf (d :: (x' ++ c :: y)) = false from hp)
        rw [show (d :: x') ++ c :: y = d :: (x' ++ c :: y) from rfl, e0, restore_cons hp2,
          ihN x' y (by simp only [List.length_cons] at hx; omega)]
        rfl

theorem restore_sep {c : Char} (hc : c ∉ ph) (x y : Str) :
    restore (x ++ c :: y) = restore x ++ c :: restore y :=
  restore_sep_aux hc x.length x y le_rfl

/-! #### The protection relation -/

/-- The protected text is the original with some of its periods replaced
by the placeholder. -/
inductive Prot : Str → Str → Prop where
  | nil : Prot [] []
  | keep (c : Char) {n t : Str} : Prot n t → Prot (c :: n) (c :: t)
  | mark {n t : Str} : Prot n t → Prot ('.' :: n) (ph ++ t)

theorem Prot_self (t : Str) : Prot t t := by
  induction t with
  | nil => exact Prot.nil
  | cons c rest ih => exact Prot.keep c ih

theorem Prot_nil_right {n : Str} (h : Prot n []) : n = [] := by
  cases h
  rfl

theorem Prot_nil_left {t : Str} (h : Prot [] t) : t = [] := by
  cases h
  rfl

theorem Prot_cons_inv {n : Str} {d : Char} {u : Str} (h : Prot n (d :: u)) (hd : d ≠ '<') :
    ∃ n', n = d :: n' ∧ Prot n' u := by
  cases h with
  | keep c h' => exact ⟨_, rfl, h'⟩
  | mark h' => exact absurd rfl hd

theorem Prot_append_inv : ∀ (m : Str), (∀ x ∈ m, x ≠ '.') →
    ∀ {k c : Str}, Prot (m ++ k) c → ∃ c', c = m ++ c' ∧ Prot k c'
  | [], _, k, c, h => ⟨c, rfl, h⟩
  | d :: m', hm, k, c, h => by
    cases h with
    | keep _ h' =>
      obtain ⟨c', rfl, hc⟩ :=
        Prot_append_inv m' (fun x hx => hm x (List.mem_cons_of_mem _ hx)) h'
      exact ⟨c', rfl, hc⟩
    | mark h' => exact absurd rfl (hm '.' (List.mem_cons_self _ _))

theorem Prot_trans {a b : Str} (hab : Prot a b) : ∀ {c : Str}, Prot b c → Prot a c := by
  induction hab with
  | nil =>
    intro c h
    have := Prot_nil_left h
    subst this
    exact Prot.nil
  | keep d hab' ih =>
    intro c h
    cases h with
    | keep _ h' => exact Prot.keep d (ih h')
    | mark h' => exact Prot.mark (ih h')
  | mark hab' ih =>
    intro c h
    obtain ⟨c', rfl, hc⟩ := Prot_append_inv ph (by decide) h
    exact Prot.mark (ih hc)

theorem Prot_append_keep (m : Str) {n t : Str} (h : Prot n t) : Prot (m ++ n) (m ++ t) := by
  induction m with
  | nil => exact h
  | cons c m' ih => exact Prot.keep c ih

theorem Prot_subF (a : Str) : ∀ (f : ℕ) (w : Bool) (t : Str), Prot t (subF a f w t)
  | 0, _, t => Prot_self t
  | _ + 1, _, [] => Prot.nil
  | f + 1, w, c :: rest => by
    cases hcnd : (!w && ciPre a (c :: rest) && headDot (List.drop a.length (c :: rest))) with
    | true =>
      rw [show subF a (f + 1) w (c :: rest) = List.take a.length (c :: rest) ++ ph ++
          subF a f false (List.drop (a.length + 1) (c :: rest)) from by
        simp [subF, hcnd]]
      have hdot : headDot (List.drop a.length (c :: rest)) = true := by
        simp only [Bool.and_eq_true] at hcnd
        exact hcnd.2
      have htl : List.drop a.length (c :: rest) =
          '.' :: List.drop (a.length + 1) (c :: rest) := by
        rw [headDot_some hdot]
        congr 1
        rw [← List.drop_one, List.drop_drop]
      have hsp : c :: rest = List.take a.length (c :: rest) ++
          ('.' :: List.drop (a.length + 1) (c :: rest)) := by
        conv_lhs => rw [← List.take_append_drop a.length (c :: rest)]
        rw [htl]
      rw [List.append_assoc]
      nth_rewrite 1 [hsp]
      exact Prot_append_keep _ (Prot.mark (Prot_subF a f false _))
    | false =>
      rw [show subF a (f + 1) w (c :: rest) = c :: subF a f (isWordChar c) rest from by
        simp [subF, hcnd]]
      exact Prot.keep c (Prot_subF a f _ rest)

theorem Prot_fold (l : List Str) : ∀ t : Str, Prot t (l.foldl (fun s a => subAbbrev a s) t) := by
  induction l with
  | nil => intro t; exact Prot_self t
  | cons a l' ih =>
    intro t
    exact Prot_trans (Prot_subF a t.length false t) (ih (subAbbrev a t))

theorem Prot_protect (t : Str) : Prot t (protect t) := Prot_fold LATIN_ABBREVS t

theorem restore_of_Prot {n t : Str} (h : Prot n t) : hasPh n = false → restore t = n := by
  induction h with
  | nil => intro _; rfl
  | keep c h' ih =>
    rename_i n₀ t₀
    intro hn
    rw [hasPh_cons, Bool.or_eq_false_iff] at hn
    cases hp : ph.isPrefixOf (c :: t₀) with
    | true =>
      exfalso
      obtain ⟨w, hw⟩ := List.isPrefixOf_iff_prefix.mp hp
      rw [show ph ++ w = '<' :: (['P', 'E', 'R', 'I', 'O', 'D', '>'] ++ w) from rfl] at hw
      obtain ⟨hcw, htw⟩ := List.cons.injEq .. ▸ hw
      subst hcw
      rw [show (['P', 'E', 'R', 'I', 'O', 'D', '>'] : Str) ++ w =
        'P' :: 'E' :: 'R' :: 'I' :: 'O' :: 'D' :: '>' :: w from rfl] at htw
      subst htw
      obtain ⟨n₁, rfl, h1⟩ := Prot_cons_inv h' (by decide)
      obtain ⟨n₂, rfl, h2⟩ := Prot_cons_inv h1 (by decide)
      obtain ⟨n₃, rfl, h3⟩ := Prot_cons_inv h2 (by decide)
      obtain ⟨n₄, rfl, h4⟩ := Prot_cons_inv h3 (by decide)
      obtain ⟨n₅, rfl, h5⟩ := Prot_cons_inv h4 (by decide)
      obtain ⟨n₆, rfl, h6⟩ := Prot_cons_inv h5 (by decide)
      obtain ⟨n₇, rfl, h7⟩ := Prot_cons_inv h6 (by decide)
      have hbad : ph.isPrefixOf ('<' :: 'P' :: 'E' :: 'R' :: 'I' :: 'O' :: 'D' :: '>' :: n₇)
          = true := by
        exact List.isPrefixOf_iff_prefix.mpr ⟨n₇, rfl⟩
      rw [hn.1] at hbad
      cases hbad
    | false =>
      rw [restore_cons hp, ih hn.2]
  | mark h' ih =>
    intro hn
    rw [hasPh_cons, Bool.or_eq_false_iff] at hn
    rw [restore_ph, ih hn.2]

theorem restore_protect {t : Str} (h : hasPh t = false) : restore (protect t) = t :=
  restore_of_Prot (Prot_protect t) h

/-! #### Whitespace discipline -/

/-- Every whitespace character is a single `' '` not preceded by
whitespace; `b` records whether the previous character (or the left
context at the start) was whitespace. -/
def spacedAux : Bool → Str → Bool
  | _, [] => true
  | b, c :: rest =>
    cond (isPyWs c) ((decide (c = ' ') && !b) && spacedAux true rest) (spacedAux false rest)

theorem intercalate_cons₂ (s x y : Str) (zs : List Str) :
    List.intercalate s (x :: y :: zs) = x ++ s ++ List.intercalate s (y :: zs) := by
  simp [List.intercalate, List.intersperse]

theorem spacedAux_of_Prot {n t : Str} (h : Prot n t) :
    ∀ b, spacedAux b n = true → spacedAux b t = true := by
  induction h with
  | nil => intro b hb; exact hb
  | keep c h' ih =>
    intro b hb
    simp only [spacedAux] at hb ⊢
    cases hw : isPyWs c with
    | true =>
      simp only [hw, cond_true] at hb ⊢
      simp only [Bool.and_eq_true] at hb ⊢
      exact ⟨hb.1, ih true hb.2⟩
    | false =>
      simp only [hw, cond_false] at hb ⊢
      exact ih false hb
  | mark h' ih =>
    intro b hb
    exact ih false hb

theorem getLast_nonWs_of_Prot {n t : Str} (h : Prot n t) :
    (∀ d, n.getLast? = some d → isPyWs d = false) →
    ∀ d, t.getLast? = some d → isPyWs d = false := by
  induction h with
  | nil => intro h' d hd; exact h' d hd
  | keep c h' ih =>
    rename_i n₀ t₀
    intro hn d hd
    rcases ht₀ : t₀ with _ | ⟨e, t₁⟩
    · subst ht₀
      have hn₀ : n₀ = [] := Prot_nil_right h'
      subst hn₀
      simp at hd
      subst hd
      exact hn c rfl
    · subst ht₀
      rw [List.getLast?_cons_cons] at hd
      have hn₀ : n₀ ≠ [] := by
        intro h0
        rw [h0] at h'
        cases Prot_nil_left h'
      refine ih (fun e' he' => hn e' ?_) d hd
      rcases n₀ with _ | ⟨f, n₁⟩
      · exact absurd rfl hn₀
      · rw [List.getLast?_cons_cons]
        exact he'
  | mark h' ih =>
    rename_i n₀ t₀
    intro hn d hd
    rcases ht₀ : t₀ with _ | ⟨e, t₁⟩
    · subst ht₀
      rw [show (ph ++ ([] : Str)) = ph from by simp] at hd
      rw [show ph.getLast? = some '>' from rfl] at hd
      injection hd with hd'
      subst hd'
      rfl
    · subst ht₀
      rw [List.getLast?_append_of_ne_nil ph (by simp)] at hd
      have hn₀ : n₀ ≠ [] := by
        intro h0
        rw [h0] at h'
        cases Prot_nil_left h'
      refine ih (fun e' he' => hn e' ?_) d hd
      rcases n₀ with _ | ⟨f, n₁⟩
      · exact absurd rfl hn₀
      · rw [List.getLast?_cons_cons]
        exact he'

/-! #### Words of normalized text -/

theorem pyWordsAux_words : ∀ (s cur : Str), (∀ c ∈ cur, isPyWs c = false) →
    ∀ w ∈ pyWordsAux cur s, w ≠ [] ∧ ∀ c ∈ w, isPyWs c = false
  | [], cur, hcur => by
    intro w hw
    simp only [pyWordsAux] at hw
    rcases hq : decide (cur = []) with _ | _
    · simp only [decide_eq_false_iff_not] at hq
      rw [if_neg hq] at hw
      simp at hw
      subst hw
      refine ⟨by simpa using hq, fun c hc => hcur c (by simpa using hc)⟩
    · simp only [decide_eq_true_eq] at hq
      rw [if_pos hq] at hw
      simp at hw
  | c :: s', cur, hcur => by
    intro w hw
    simp only [pyWordsAux] at hw
    cases hws : isPyWs c with
    | true =>
      rw [if_pos hws] at hw
      by_cases hq : cur = []
      · rw [if_pos hq] at hw
        exact pyWordsAux_words s' [] (by simp) w hw
      · rw [if_neg hq] at hw
        rcases List.mem_cons.mp hw with hw | hw
        · subst hw
          refine ⟨by simpa using hq, fun x hx => hcur x (by simpa using hx)⟩
        · exact pyWordsAux_words s' [] (by simp) w hw
    | false =>
      rw [if_neg (by simp [hws])] at hw
      exact pyWordsAux_words s' (c :: cur) (by
        intro x hx
        rcases List.mem_cons.mp hx with hx | hx
        · subst hx; exact hws
        · exact hcur x hx) w hw

theorem pyWords_words (s : Str) : ∀ w ∈ pyWords s, w ≠ [] ∧ ∀ c ∈ w, isPyWs c = false :=
  pyWordsAux_words s [] (by simp)

theorem spacedAux_word {w : Str} (hw : ∀ c ∈ w, isPyWs c = false) (hne : w ≠ []) :
    ∀ (b : Bool) (r : Str), spacedAux b (w ++ r) = spacedAux false r := by
  induction w with
  | nil => exact absurd rfl hne
  | cons c w' ih =>
    intro b r
    show spacedAux b (c :: (w' ++ r)) = _
    simp only [spacedAux, hw c (List.mem_cons_self _ _), cond_false]
    rcases w' with _ | ⟨d, w''⟩
    · rfl
    · exact ih (fun x hx => hw x (List.mem_cons_of_mem _ hx)) (by simp) false r

theorem spacedAux_intercalate : ∀ (ws : List Str),
    (∀ w ∈ ws, w ≠ [] ∧ ∀ c ∈ w, isPyWs c = false) →
    ∀ b, spacedAux b (List.intercalate [' '] ws) = true
  | [], _, b => rfl
  | [w], hws, b => by
    have hw := hws w (List.mem_cons_self _ _)
    rw [show List.intercalate [' '] [w] = w from by simp [List.intercalate]]
    rw [show (w : Str) = w ++ [] from by simp]
    rw [spacedAux_word hw.2 hw.1]
    rfl
  | w :: w' :: ws', hws, b => by
    have hw := hws w (List.mem_cons_self _ _)
    rw [intercalate_cons₂]
    rw [List.append_assoc]
    rw [spacedAux_word hw.2 hw.1]
    show spacedAux false (' ' :: ([] ++ List.intercalate [' '] (w' :: ws'))) = true
    simp only [spacedAux, List.nil_append]
    rw [show isPyWs ' ' = true from rfl]
    simp only [cond_true]
    simp only [decide_True, Bool.not_false, Bool.and_true, Bool.true_and]
    exact spacedAux_intercalate (w' :: ws') (fun x hx => hws x (List.mem_cons_of_mem _ hx)) true

theorem getLast_nonWs_intercalate : ∀ (ws : List Str),
    (∀ w ∈ ws, w ≠ [] ∧ ∀ c ∈ w, isPyWs c = false) →
    ∀ d, (List.intercalate [' '] ws).getLast? = some d → isPyWs d = false
  | [], _, d => by intro hd; simp [List.intercalate] at hd
  | [w], hws, d => by
    intro hd
    rw [show List.intercalate [' '] [w] = w from by simp [List.intercalate]] at hd
    exact (hws w (List.mem_cons_self _ _)).2 d (List.mem_of_mem_getLast? hd)
  | w :: w' :: ws', hws, d => by
    intro hd
    rw [intercalate_cons₂] at hd
    have hne : List.intercalate [' '] (w' :: ws') ≠ [] := by
      refine intercalate_space_ne_nil _ (by simp) ?_
      intro x hx
      exact (hws x (List.mem_cons_of_mem _ hx)).1
    rw [List.getLast?_append_of_ne_nil (w ++ [' ']) hne] at hd
    exact getLast_nonWs_intercalate (w' :: ws')
      (fun x hx => hws x (List.mem_cons_of_mem _ hx)) d hd

/-! #### Structure of the split -/

theorem isTermPunct_nonWs {c : Char} (h : isTermPunct c = true) : isPyWs c = false := by
  simp only [isTermPunct, Bool.or_eq_true, decide_eq_true_eq] at h
  rcases h with (h | h) | h <;> subst h <;> rfl

theorem getLast?_tail_aux {c : Char} {r : Str} {p : Char → Prop}
    (h : ∀ d, (c :: r).getLast? = some d → p d) : ∀ d, r.getLast? = some d → p d := by
  intro d hd
  rcases r with _ | ⟨e, r'⟩
  · cases hd
  · exact h d (by rw [List.getLast?_cons_cons]; exact hd)

theorem spaced_ws_inv {c : Char} {rest pend cur : Str} (hws : isPyWs c = true)
    (hsp : spacedAux (!pend.isEmpty || cur.isEmpty) (c :: rest) = true) :
    c = ' ' ∧ pend = [] ∧ cur ≠ [] ∧ spacedAux true rest = true := by
  simp only [spacedAux, hws, cond_true, Bool.and_eq_true, decide_eq_true_eq] at hsp
  obtain ⟨⟨hc, hflag⟩, hsp'⟩ := hsp
  simp only [Bool.not_eq_true', Bool.or_eq_false_iff, Bool.not_eq_false] at hflag
  refine ⟨hc, ?_, ?_, hsp'⟩
  · simpa using hflag.1
  · simpa using hflag.2

theorem splitTermAux_ne_nil (la : Char → Bool) :
    ∀ (rest cur pend : Str) (pt : Bool), splitTermAux la cur pend pt rest ≠ []
  | [], _, _, _ => by simp [splitTermAux]
  | c :: rest, cur, pend, pt => by
    simp only [splitTermAux]
    split
    · exact splitTermAux_ne_nil la rest cur (c :: pend) pt
    · split
      · simp
      · exact splitTermAux_ne_nil la rest _ [] _

theorem splitJoin (la : Char → Bool) :
    ∀ (rest cur pend : Str) (pt : Bool),
      (pend = [] ∨ (pend = [' '] ∧ cur ≠ [])) →
      spacedAux (!pend.isEmpty || cur.isEmpty) rest = true →
      List.intercalate [' '] (splitTermAux la cur pend pt rest) = (pend ++ cur).reverse ++ rest
  | [], cur, pend, pt, hinv, hsp => by
    rw [show splitTermAux la cur pend pt [] = [(pend ++ cur).reverse] from rfl]
    simp [List.intercalate]
  | c :: rest, cur, pend, pt, hinv, hsp => by
    simp only [splitTermAux]
    cases hws : isPyWs c with
    | true =>
      rw [if_pos rfl]
      obtain ⟨hc, hpend, hcur, hsp'⟩ := spaced_ws_inv hws hsp
      subst hc
      subst hpend
      rw [splitJoin la rest cur [' '] pt (Or.inr ⟨rfl, hcur⟩) (by simpa using hsp')]
      simp
    | false =>
      rw [if_neg (by simp)]
      simp only [spacedAux, hws, cond_false] at hsp
      cases hsplit : (pt && !pend.isEmpty && la c) with
      | true =>
        rw [if_pos rfl]
        have hpd : pend = [' '] ∧ cur ≠ [] := by
          rcases hinv with h | h
          · exfalso
            rw [h] at hsplit
            simp at hsplit
          · exact h
        obtain ⟨hp1, hcur⟩ := hpd
        subst hp1
        have hne := splitTermAux_ne_nil la rest [c] [] (isTermPunct c)
        obtain ⟨z, zs, hz⟩ : ∃ z zs, splitTermAux la [c] [] (isTermPunct c) rest = z :: zs := by
          rcases hE : splitTermAux la [c] [] (isTermPunct c) rest with _ | ⟨z, zs⟩
          · exact absurd hE hne
          · exact ⟨z, zs, rfl⟩
        rw [hz, intercalate_cons₂, ← hz]
        rw [splitJoin la rest [c] [] (isTermPunct c) (Or.inl rfl) (by simpa using hsp)]
        simp
      | false =>
        rw [if_neg (by simp)]
        rw [splitJoin la rest (c :: (pend ++ cur)) [] (isTermPunct c) (Or.inl rfl)
          (by simpa using hsp)]
        simp

theorem splitTerm_join (la : Char → Bool) (P : Str) (hsp : spacedAux true P = true) :
    List.intercalate [' '] (splitTerm la P) = P := by
  have h := splitJoin la P [] [] false (Or.inl rfl) (by simpa using hsp)
  simpa [splitTerm] using h

theorem splitFrags (la : Char → Bool) :
    ∀ (rest cur pend : Str) (pt : Bool),
      (pend = [] ∨ (pend = [' '] ∧ cur ≠ [])) →
      spacedAux (!pend.isEmpty || cur.isEmpty) rest = true →
      (∀ d, rest.getLast? = some d → isPyWs d = false) →
      (rest = [] → pend = []) →
      (pt = true → ∃ c₀ cs, cur = c₀ :: cs ∧ isTermPunct c₀ = true) →
      (∀ d, cur.getLast? = some d → isPyWs d = false) →
      (∀ d, cur.head? = some d → isPyWs d = false) →
      (cur ≠ [] ∨ rest ≠ []) →
      (∀ f ∈ (splitTermAux la cur pend pt rest).dropLast,
          ∃ g d₀, f = g ++ [d₀] ∧ isTermPunct d₀ = true)
      ∧ ∀ f ∈ splitTermAux la cur pend pt rest,
          f ≠ [] ∧ (∀ d, f.head? = some d → isPyWs d = false)
            ∧ (∀ d, f.getLast? = some d → isPyWs d = false)
  | [], cur, pend, pt, hinv, hsp, htr, h8, h5, h6, h9, hic => by
    have hpend : pend = [] := h8 rfl
    subst hpend
    have hcur : cur ≠ [] := by
      rcases hic with h | h
      · exact h
      · exact absurd rfl h
    constructor
    · intro f hf
      simp only [splitTermAux] at hf
      simp at hf
    · intro f hf
      simp only [splitTermAux] at hf
      simp only [List.nil_append, List.mem_singleton] at hf
      subst hf
      refine ⟨by simpa using hcur, ?_, ?_⟩
      · intro d hd
        rw [List.head?_reverse] at hd
        exact h6 d hd
      · intro d hd
        rw [List.getLast?_reverse] at hd
        exact h9 d hd
  | c :: rest, cur, pend, pt, hinv, hsp, htr, h8, h5, h6, h9, hic => by
    simp only [splitTermAux]
    cases hws : isPyWs c with
    | true =>
      rw [if_pos rfl]
      obtain ⟨hc, hpend, hcur, hsp'⟩ := spaced_ws_inv hws hsp
      subst hc
      subst hpend
      have hrne : rest ≠ [] := by
        intro h0
        subst h0
        have := htr ' ' rfl
        simp [isPyWs] at this
      exact splitFrags la rest cur [' '] pt (Or.inr ⟨rfl, hcur⟩) (by simpa using hsp')
        (getLast?_tail_aux htr) (fun h0 => absurd h0 hrne) h5 h6 h9 (Or.inl hcur)
    | false =>
      rw [if_neg (by simp)]
      simp only [spacedAux, hws, cond_false] at hsp
      cases hsplit : (pt && !pend.isEmpty && la c) with
      | true =>
        rw [if_pos rfl]
        have hpd : pend = [' '] ∧ cur ≠ [] := by
          rcases hinv with h | h
          · exfalso
            rw [h] at hsplit
            simp at hsplit
          · exact h
        obtain ⟨hp1, hcur⟩ := hpd
        subst hp1
        have hpt : pt = true := by
          simp only [Bool.and_eq_true] at hsplit
          exact hsplit.1.1
        obtain ⟨c₀, cs, hcur0, hterm⟩ := h5 hpt
        have ihc := splitFrags la rest [c] [] (isTermPunct c) (Or.inl rfl)
          (by simpa using hsp) (getLast?_tail_aux htr) (fun _ => rfl)
          (fun hp => ⟨c, [], rfl, hp⟩)
          (fun d hd => by
            simp at hd
            subst hd
            exact hws)
          (fun d hd => by
            simp at hd
            subst hd
            exact hws)
          (Or.inl (by simp))
        have hne := splitTermAux_ne_nil la rest [c] [] (isTermPunct c)
        obtain ⟨z, zs, hz⟩ : ∃ z zs, splitTermAux la [c] [] (isTermPunct c) rest = z :: zs := by
          rcases hE : splitTermAux la [c] [] (isTermPunct c) rest with _ | ⟨z, zs⟩
          · exact absurd hE hne
          · exact ⟨z, zs, rfl⟩
        constructor
        · intro f hf
          rw [hz, List.dropLast_cons₂] at hf
          rcases List.mem_cons.mp hf with hf | hf
          · subst hf
            exact ⟨cs.reverse, c₀, by rw [hcur0]; simp, hterm⟩
          · exact ihc.1 f (by rw [hz]; exact hf)
        · intro f hf
          rw [hz] at hf
          rcases List.mem_cons.mp hf with hf | hf
          · subst hf
            refine ⟨by simpa using hcur, ?_, ?_⟩
            · intro d hd
              rw [List.head?_reverse] at hd
              exact h6 d hd
            · intro d hd
              rw [List.getLast?_reverse] at hd
              exact h9 d hd
          · exact ihc.2 f (by rw [hz]; exact hf)
      | false =>
        rw [if_neg (by simp)]
        have hcur' : ∀ d, (c :: (pend ++ cur)).getLast? = some d → isPyWs d = false := by
          intro d hd
          rcases hcc : cur with _ | ⟨c₂, cs⟩
          · have hpend : pend = [] := by
              rcases hinv with h | h
              · exact h
              · exact absurd hcc h.2
            subst hcc
            subst hpend
            simp at hd
            subst hd
            exact hws
          · subst hcc
            rw [show c :: (pend ++ c₂ :: cs) = [c] ++ (pend ++ c₂ :: cs) from rfl] at hd
            rw [List.getLast?_append_of_ne_nil [c] (by simp)] at hd
            rw [List.getLast?_append_of_ne_nil pend (by simp)] at hd
            exact h6 d hd
        exact splitFrags la rest (c :: (pend ++ cur)) [] (isTermPunct c) (Or.inl rfl)
          (by simpa using hsp) (getLast?_tail_aux htr) (fun _ => rfl)
          (fun hp => ⟨c, pend ++ cur, rfl, hp⟩) hcur'
          (fun d hd => by
            simp at hd
            subst hd
            exact hws)
          (Or.inl (by simp))

/-! #### Restore preserves the fragment boundary characters -/

theorem restore_head_nonWs {t : Str}
    (hh : ∀ d, t.head? = some d → isPyWs d = false) :
    ∀ d, (restore t).head? = some d → isPyWs d = false := by
  rcases t with _ | ⟨c, rest⟩
  · intro d hd
    cases hd
  · cases hp : ph.isPrefixOf (c :: rest) with
    | true =>
      obtain ⟨w, hw⟩ := List.isPrefixOf_iff_prefix.mp hp
      rw [← hw, restore_ph]
      intro d hd
      simp at hd
      subst hd
      rfl
    | false =>
      rw [restore_cons hp]
      intro d hd
      simp at hd
      subst hd
      exact hh c rfl

theorem restore_getLast_aux : ∀ (N : ℕ) (t : Str), t.length ≤ N →
    (∀ d, t.getLast? = some d → isPyWs d = false) →
    ∀ d, (restore t).getLast? = some d → isPyWs d = false := by
  intro N
  induction N with
  | zero =>
    intro t ht _ d hd
    have h0 : t = [] := List.length_eq_zero.mp (Nat.le_zero.mp ht)
    subst h0
    cases hd
  | succ N ih =>
    intro t ht hlast d hd
    rcases t with _ | ⟨c, rest⟩
    · cases hd
    · cases hp : ph.isPrefixOf (c :: rest) with
      | true =>
        obtain ⟨w, hw⟩ := List.isPrefixOf_iff_prefix.mp hp
        rw [← hw, restore_ph] at hd
        rcases w with _ | ⟨e, w'⟩
        · rw [show restore ([] : Str) = [] from rfl] at hd
          simp at hd
          subst hd
          rfl
        · have hrne : restore (e :: w') ≠ [] := restore_ne_nil (by simp)
          rw [show ('.' :: restore (e :: w')) = ['.'] ++ restore (e :: w') from rfl,
            List.getLast?_append_of_ne_nil ['.'] hrne] at hd
          refine ih (e :: w') ?_ ?_ d hd
          · have hlen := congrArg List.length hw
            simp [ph] at hlen
            simp only [List.length_cons] at ht ⊢
            omega
          · intro d' hd'
            refine hlast d' ?_
            rw [← hw, List.getLast?_append_of_ne_nil ph (by simp)]
            exact hd'
      | false =>
        rw [restore_cons hp] at hd
        rcases rest with _ | ⟨e, rest'⟩
        · rw [show restore ([] : Str) = [] from rfl] at hd
          simp at hd
          subst hd
          exact hlast c rfl
        · have hrne : restore (e :: rest') ≠ [] := restore_ne_nil (by simp)
          rw [show (c :: restore (e :: rest')) = [c] ++ restore (e :: rest') from rfl,
            List.getLast?_append_of_ne_nil [c] hrne] at hd
          refine ih (e :: rest') (by simp only [List.length_cons] at ht ⊢; omega) ?_ d hd
          intro d' hd'
          refine hlast d' ?_
          rw [show (c :: e :: rest') = [c] ++ (e :: rest') from rfl,
            List.getLast?_append_of_ne_nil [c] (by simp)]
          exact hd'

theorem restore_getLast_nonWs {t : Str}
    (h : ∀ d, t.getLast? = some d → isPyWs d = false) :
    ∀ d, (restore t).getLast? = some d → isPyWs d = false :=
  restore_getLast_aux t.length t le_rfl h

theorem pyStrip_eq_self {t : Str}
    (hh : ∀ d, t.head? = some d → isPyWs d = false)
    (hl : ∀ d, t.getLast? = some d → isPyWs d = false) :
    pyStrip t = t := by
  unfold pyStrip
  have h1 : t.dropWhile isPyWs = t := by
    rcases t with _ | ⟨c, rest⟩
    · rfl
    · rw [List.dropWhile_cons_of_neg (by simp [hh c rfl])]
  rw [h1]
  have h2 : t.reverse.dropWhile isPyWs = t.reverse := by
    rcases hr : t.reverse with _ | ⟨c, rest⟩
    · rfl
    · rw [List.dropWhile_cons_of_neg]
      have hc : t.getLast? = some c := by
        rw [← List.head?_reverse, hr]
        rfl
      simp [hl c hc]
  rw [h2, List.reverse_reverse]

/-! #### Words and the guard of `segment_regex` -/

theorem pyWordsAux_all_ws : ∀ (t : Str), (∀ c ∈ t, isPyWs c = true) → pyWordsAux [] t = []
  | [], _ => rfl
  | c :: rest, h => by
    simp only [pyWordsAux, h c (List.mem_cons_self _ _), if_pos rfl, if_true]
    exact pyWordsAux_all_ws rest (fun x hx => h x (List.mem_cons_of_mem _ hx))

theorem pyWordsAux_ne_nil : ∀ (t cur : Str), cur ≠ [] → pyWordsAux cur t ≠ []
  | [], cur, hc => by
    simp only [pyWordsAux]
    rw [if_neg hc]
    simp
  | c :: rest, cur, hc => by
    simp only [pyWordsAux]
    cases hws : isPyWs c with
    | true =>
      rw [if_pos rfl, if_neg hc]
      simp
    | false =>
      rw [if_neg (by simp)]
      exact pyWordsAux_ne_nil rest (c :: cur) (by simp)

theorem all_ws_of_pyWords_nil : ∀ (t : Str), pyWords t = [] → ∀ c ∈ t, isPyWs c = true := by
  intro t
  unfold pyWords
  induction t with
  | nil => intro _ c hc; cases hc
  | cons c rest ih =>
    intro h x hx
    simp only [pyWordsAux] at h
    cases hws : isPyWs c with
    | true =>
      rw [if_pos hws] at h
      simp only [if_true] at h
      rcases List.mem_cons.mp hx with hx | hx
      · subst hx
        exact hws
      · exact ih h x hx
    | false =>
      rw [if_neg (by simp [hws])] at h
      exact absurd h (pyWordsAux_ne_nil rest [c] (by simp))

theorem pyStrip_nil_of_all_ws {t : Str} (h : ∀ c ∈ t, isPyWs c = true) : pyStrip t = [] := by
  unfold pyStrip
  rw [List.dropWhile_eq_nil_iff.mpr (fun c hc => h c hc)]
  rfl

theorem all_ws_of_pyStrip_nil {t : Str} (h : pyStrip t = []) : ∀ c ∈ t, isPyWs c = true := by
  unfold pyStrip at h
  rw [List.reverse_eq_nil_iff] at h
  have h2 : ∀ c ∈ (t.dropWhile isPyWs).reverse, isPyWs c = true := by
    intro c hc
    exact List.dropWhile_eq_nil_iff.mp h c hc
  have h3 : ∀ c ∈ t.dropWhile isPyWs, isPyWs c = true := by
    intro c hc
    exact h2 c (by simpa using hc)
  intro c hc
  rw [← List.takeWhile_append_dropWhile (p := isPyWs) (l := t)] at hc
  rcases List.mem_append.mp hc with hc | hc
  · exact List.mem_takeWhile_imp hc
  · exact h3 c hc

theorem pyWords_nil_of_guard {t : Str} (h : (t.isEmpty || (pyStrip t).isEmpty) = true) :
    pyWords t = [] := by
  rcases Bool.or_eq_true .. ▸ h with h1 | h1
  · rw [List.isEmpty_iff.mp h1]
    rfl
  · exact pyWordsAux_all_ws t (all_ws_of_pyStrip_nil (List.isEmpty_iff.mp h1))

theorem pyWords_ne_nil_of_guard {t : Str} (h : (t.isEmpty || (pyStrip t).isEmpty) = false) :
    pyWords t ≠ [] := by
  intro h0
  have hws := all_ws_of_pyWords_nil t h0
  have := pyStrip_nil_of_all_ws hws
  rw [Bool.or_eq_false_iff] at h
  rw [this] at h
  simp at h

/-! #### The placeholder survives neither normalization nor splitting -/

theorem ph_in_intercalate : ∀ (ws : List Str) (u v : Str),
    List.intercalate [' '] ws = u ++ ph ++ v →
    ∃ w, w ∈ ws ∧ ∃ u' v', w = u' ++ ph ++ v'
  | [], u, v, h => by
    have := congrArg List.length h
    simp [ph, List.intercalate] at this
    omega
  | [w], u, v, h => by
    rw [show List.intercalate [' '] [w] = w from by simp [List.intercalate]] at h
    exact ⟨w, List.mem_cons_self _ _, u, v, h⟩
  | w :: w' :: ws', u, v, h => by
    rw [intercalate_cons₂] at h
    rcases le_or_lt (u.length + 8) w.length with h8 | h8
    · have h1 : (w ++ [' '] ++ List.intercalate [' '] (w' :: ws')).take (u.length + 8)
          = (u ++ ph ++ v).take (u.length + 8) := by rw [h]
      rw [List.append_assoc] at h1
      rw [List.take_append_of_le_length h8] at h1
      rw [List.take_left' (by simp [ph])] at h1
      have hpre : u ++ ph <+: w := h1 ▸ List.take_prefix _ _
      obtain ⟨w₂, hw₂⟩ := hpre
      exact ⟨w, List.mem_cons_self _ _, u, w₂, by rw [← hw₂, List.append_assoc]⟩
    · rcases le_or_lt u.length w.length with hk | hk
      · exfalso
        have h1 : (w ++ [' '] ++ List.intercalate [' '] (w' :: ws')).drop u.length
            = (u ++ ph ++ v).drop u.length := by rw [h]
        rw [List.append_assoc, List.drop_append_of_le_length hk] at h1
        rw [List.append_assoc, List.drop_left] at h1
        have h2 : (ph ++ v).take 8 = ((w.drop u.length) ++
            ([' '] ++ List.intercalate [' '] (w' :: ws'))).take 8 := by rw [h1]
        rw [List.take_left' (by simp [ph])] at h2
        rw [List.take_append_eq_append_take] at h2
        have hlt : 0 < 8 - (w.drop u.length).length := by
          rw [List.length_drop]
          omega
        have hmem : ' ' ∈ ph := by
          rw [h2]
          refine List.mem_append_right _ ?_
          rcases hq : 8 - (w.drop u.length).length with _ | q
          · omega
          · rw [show ([' '] ++ List.intercalate [' '] (w' :: ws'))
              = ' ' :: List.intercalate [' '] (w' :: ws') from rfl]
            rw [List.take_succ_cons]
            exact List.mem_cons_self _ _
        exact absurd hmem (by decide)
      · have h1 : (w ++ [' '] ++ List.intercalate [' '] (w' :: ws')).take (w.length + 1)
            = (u ++ ph ++ v).take (w.length + 1) := by rw [h]
        rw [List.take_left' (by simp)] at h1
        rw [List.append_assoc, List.take_append_of_le_length (by omega)] at h1
        have hpre : w ++ [' '] <+: u := h1 ▸ List.take_prefix _ _
        obtain ⟨u₂, hu₂⟩ := hpre
        have h2 : List.intercalate [' '] (w' :: ws') = u₂ ++ ph ++ v := by
          rw [← hu₂] at h
          have h' : (w ++ [' ']) ++ List.intercalate [' '] (w' :: ws')
              = (w ++ [' ']) ++ (u₂ ++ ph ++ v) := by
            rw [h]
            simp [List.append_assoc]
          exact List.append_cancel_left h'
        obtain ⟨w₀, hmem, u', v', hw₀⟩ := ph_in_intercalate (w' :: ws') u₂ v h2
        exact ⟨w₀, List.mem_cons_of_mem _ hmem, u', v', hw₀⟩

theorem pyWordsAux_part : ∀ (t cur : Str), ∀ w ∈ pyWordsAux cur t,
    ∃ x y, cur.reverse ++ t = x ++ w ++ y
  | [], cur, w, hw => by
    simp only [pyWordsAux] at hw
    by_cases hq : cur = []
    · rw [if_pos hq] at hw
      cases hw
    · rw [if_neg hq] at hw
      simp at hw
      subst hw
      exact ⟨[], [], by simp⟩
  | c :: rest, cur, w, hw => by
    simp only [pyWordsAux] at hw
    cases hws : isPyWs c with
    | true =>
      rw [if_pos hws] at hw
      by_cases hq : cur = []
      · rw [if_pos hq] at hw
        obtain ⟨x, y, hxy⟩ := pyWordsAux_part rest [] w hw
        simp only [List.reverse_nil, List.nil_append] at hxy
        refine ⟨cur.reverse ++ [c] ++ x, y, ?_⟩
        rw [show cur.reverse ++ (c :: rest) = cur.reverse ++ [c] ++ rest from by simp, hxy]
        simp [List.append_assoc]
      · rw [if_neg hq] at hw
        rcases List.mem_cons.mp hw with hw | hw
        · subst hw
          exact ⟨[], c :: rest, by simp⟩
        · obtain ⟨x, y, hxy⟩ := pyWordsAux_part rest [] w hw
          simp only [List.reverse_nil, List.nil_append] at hxy
          refine ⟨cur.reverse ++ [c] ++ x, y, ?_⟩
          rw [show cur.reverse ++ (c :: rest) = cur.reverse ++ [c] ++ rest from by simp, hxy]
          simp [List.append_assoc]
    | false =>
      rw [if_neg (by simp [hws])] at hw
      obtain ⟨x, y, hxy⟩ := pyWordsAux_part rest (c :: cur) w hw
      exact ⟨x, y, by rw [show cur.reverse ++ (c :: rest) = (c :: cur).reverse ++ rest from by
        simp, hxy]⟩

theorem hasPh_pyNormalize {t : Str} (h : hasPh t = false) : hasPh (pyNormalize t) = false := by
  cases hn : hasPh (pyNormalize t) with
  | false => rfl
  | true =>
    exfalso
    obtain ⟨u, v, huv⟩ := hasPh_iff.mp hn
    obtain ⟨w, hwmem, u', v', hw⟩ := ph_in_intercalate (pyWords t) u v huv
    obtain ⟨x, y, hxy⟩ := pyWordsAux_part t [] w hwmem
    simp only [List.reverse_nil, List.nil_append] at hxy
    have hbad : hasPh t = true := by
      refine hasPh_iff.mpr ⟨x ++ u', v' ++ y, ?_⟩
      rw [hxy, hw]
      simp [List.append_assoc]
    rw [h] at hbad
    cases hbad

theorem intercalate_map_restore : ∀ (l : List Str),
    List.intercalate [' '] (l.map restore) = restore (List.intercalate [' '] l)
  | [] => by
    simp only [List.map_nil]
    rfl
  | [x] => by
    simp [List.intercalate]
  | x :: y :: zs => by
    rw [List.map_cons]
    rw [show restore x :: (y :: zs).map restore
        = restore x :: restore y :: zs.map restore from by simp]
    rw [intercalate_cons₂]
    rw [show (restore y :: List.map restore zs) = (y :: zs).map restore from by simp]
    rw [intercalate_map_restore (y :: zs)]
    rw [intercalate_cons₂]
    rw [show restore x ++ [' '] ++ restore (List.intercalate [' '] (y :: zs))
        = restore x ++ ' ' :: restore (List.intercalate [' '] (y :: zs)) from by simp]
    rw [← restore_sep (by decide) x (List.intercalate [' '] (y :: zs))]
    congr 1
    simp

theorem emitted_eq_map_restore {frags : List Str}
    (hf : ∀ f ∈ frags, f ≠ [] ∧ (∀ d, f.head? = some d → isPyWs d = false)
        ∧ (∀ d, f.getLast? = some d → isPyWs d = false)) :
    ((frags.map (fun s => pyStrip (restore s))).filter (fun s => !s.isEmpty))
      = frags.map restore := by
  have hmap : frags.map (fun s => pyStrip (restore s)) = frags.map restore := by
    refine List.map_congr_left ?_
    intro f hff
    obtain ⟨hne, hh, hl⟩ := hf f hff
    exact pyStrip_eq_self (restore_head_nonWs hh) (restore_getLast_nonWs hl)
  rw [hmap]
  refine List.filter_eq_self.mpr ?_
  intro s hs
  obtain ⟨f, hff, rfl⟩ := List.mem_map.mp hs
  simp only [Bool.not_eq_true', List.isEmpty_eq_false]
  exact restore_ne_nil (hf f hff).1

/-- C8 (amended): for every text that does not contain the literal
placeholder string `<PERIOD>`, joining the sentences produced by
`segment_regex` with single spaces reproduces the whitespace-normalized
text. -/
theorem C8_segment_rejoin (text : Str) (h : hasPh text = false) :
    List.intercalate [' '] (segment_regex text) = pyNormalize text := by
  unfold segment_regex
  cases hg : (text.isEmpty || (pyStrip text).isEmpty) with
  | true =>
    rw [if_pos rfl]
    unfold pyNormalize
    rw [pyWords_nil_of_guard hg]
  | false =>
    rw [if_neg (by simp)]
    have hwords := pyWords_words text
    have hnw : pyWords text ≠ [] := pyWords_ne_nil_of_guard hg
    have hnPh : hasPh (pyNormalize text) = false := hasPh_pyNormalize h
    have hProt : Prot (pyNormalize text) (protect (pyNormalize text)) :=
      Prot_protect (pyNormalize text)
    have hspn : spacedAux true (pyNormalize text) = true :=
      spacedAux_intercalate (pyWords text) hwords true
    have hspP : spacedAux true (protect (pyNormalize text)) = true :=
      spacedAux_of_Prot hProt true hspn
    have hlastn : ∀ d, (pyNormalize text).getLast? = some d → isPyWs d = false :=
      getLast_nonWs_intercalate (pyWords text) hwords
    have hlastP : ∀ d, (protect (pyNormalize text)).getLast? = some d → isPyWs d = false :=
      getLast_nonWs_of_Prot hProt hlastn
    have hPne : protect (pyNormalize text) ≠ [] := by
      intro h0
      have hn0 : pyNormalize text = [] := Prot_nil_right (h0 ▸ hProt)
      exact intercalate_space_ne_nil (pyWords text) hnw
        (fun w hw => (hwords w hw).1) hn0
    have hfr := splitFrags isUpperOrBracket (protect (pyNormalize text)) [] [] false
      (Or.inl rfl) (by simpa using hspP) hlastP (fun _ => rfl)
      (fun h0 => absurd h0 (by simp))
      (fun d hd => by cases hd) (fun d hd => by cases hd) (Or.inr hPne)
    have hfrags : ∀ f ∈ splitTerm isUpperOrBracket (protect (pyNormalize text)),
        f ≠ [] ∧ (∀ d, f.head? = some d → isPyWs d = false)
          ∧ (∀ d, f.getLast? = some d → isPyWs d = false) := fun f hff => hfr.2 f hff
    rw [emitted_eq_map_restore hfrags]
    rw [intercalate_map_restore]
    rw [splitTerm_join isUpperOrBracket (protect (pyNormalize text)) hspP]
    exact restore_of_Prot hProt hnPh

/-- C8 counterexample: a text that already contains the literal
placeholder `<PERIOD>`: the restore step turns it into a period, so
rejoining the segmented sentences does not reproduce the
whitespace-normalized text. -/
theorem C8_counterexample :
    List.intercalate [' '] (segment_regex "a<PERIOD>b".toList)
      ≠ pyNormalize "a<PERIOD>b".toList := by
  decide

theorem C8_witness :
    hasPh "Gallia est omnis divisa. In partes tres.".toList = false
    ∧ List.intercalate [' ']
        (segment_regex "Gallia est omnis divisa. In partes tres.".toList)
      = pyNormalize "Gallia est omnis divisa. In partes tres.".toList :=
  ⟨by decide, C8_segment_rejoin _ (by decide)⟩

/-! #### Case-insensitive matching facts -/

/-- Pointwise case-insensitive agreement on the common length. -/
def compat : Str → Str → Bool
  | [], _ => true
  | x :: xs, ys =>
    match ys with
    | [] => true
    | y :: ys' => ciChar x y && compat xs ys'

/-- No suffix of the placeholder case-insensitively begins the
abbreviation-plus-period pattern. -/
def phSafe (a : Str) : Bool :=
  (List.range 8).all (fun j => !compat (a ++ ['.']) (ph.drop j))

/-- No suffix of the placeholder can begin a match-plus-placeholder
image of the abbreviation. -/
def phHeadSafe (b : Str) : Bool :=
  (List.range 8).all (fun j => !compat (ph.drop j) (b ++ ph))

theorem ciPre_len : ∀ {a t : Str}, ciPre a t = true → a.length ≤ t.length
  | [], _, _ => by simp
  | _ :: _, [], h => by simp [ciPre] at h
  | p :: ps, c :: cs, h => by
    simp only [ciPre, Bool.and_eq_true] at h
    simp only [List.length_cons]
    exact Nat.succ_le_succ (ciPre_len h.2)

theorem ciPre_take : ∀ {a t : Str}, ciPre a t = true → ciStr (t.take a.length) a = true
  | [], t, _ => by simp [ciStr]
  | p :: ps, [], h => by simp [ciPre] at h
  | p :: ps, c :: cs, h => by
    simp only [ciPre, Bool.and_eq_true] at h
    simp only [List.length_cons, List.take_succ_cons, ciStr, Bool.and_eq_true]
    exact ⟨h.1, ciPre_take h.2⟩

theorem ciStr_length : ∀ {m a : Str}, ciStr m a = true → m.length = a.length
  | [], [], _ => rfl
  | [], _ :: _, h => by simp [ciStr] at h
  | _ :: _, [], h => by simp [ciStr] at h
  | c :: cs, p :: ps, h => by
    simp only [ciStr, Bool.and_eq_true] at h
    simp only [List.length_cons]
    exact congrArg Nat.succ (ciStr_length h.2)

theorem ciStr_mem : ∀ {m a : Str}, ciStr m a = true →
    ∀ c ∈ m, ∃ q ∈ a, c.toLower = q.toLower
  | [], _, _, c, hc => absurd hc (List.not_mem_nil c)
  | _ :: _, [], h, _, _ => by simp [ciStr] at h
  | c₀ :: cs, p :: ps, h, c, hc => by
    simp only [ciStr, Bool.and_eq_true] at h
    rcases List.mem_cons.mp hc with hc | hc
    · subst hc
      exact ⟨p, List.mem_cons_self _ _, by simpa [ciChar] using h.1⟩
    · obtain ⟨q, hq, hcq⟩ := ciStr_mem h.2 c hc
      exact ⟨q, List.mem_cons_of_mem _ hq, hcq⟩

theorem ciStr_snoc_inv : ∀ {u : Str} {x : Char} {b : Str},
    ciStr (u ++ [x]) b = true →
    ∃ b₀ q, b = b₀ ++ [q] ∧ ciStr u b₀ = true ∧ x.toLower = q.toLower
  | [], x, b, h => by
    match b with
    | [] => simp [ciStr] at h
    | [q] =>
      simp only [List.nil_append, ciStr, Bool.and_eq_true] at h
      exact ⟨[], q, rfl, rfl, by simpa [ciChar] using h.1⟩
    | q :: q' :: bs => simp [ciStr] at h
  | c :: u', x, b, h => by
    match b with
    | [] => simp [ciStr] at h
    | q₀ :: b' =>
      rw [List.cons_append] at h
      simp only [ciStr, Bool.and_eq_true] at h
      obtain ⟨b₀, q, rfl, hci, hx⟩ := ciStr_snoc_inv h.2
      exact ⟨q₀ :: b₀, q, rfl, by simp [ciStr, h.1, hci], hx⟩

theorem compat_of_pre₀ : ∀ (D P S : Str), D <+: P ++ S → compat D P = true
  | [], _, _, _ => rfl
  | _ :: _, [], _, _ => rfl
  | d :: D', p :: P', S, h => by
    rw [List.cons_append, List.cons_prefix_cons] at h
    simp only [compat, Bool.and_eq_true]
    exact ⟨by simp [ciChar, h.1], compat_of_pre₀ D' P' S h.2⟩

theorem compat_of_pre : ∀ (D x y P S : Str), ciStr x y = true →
    D <+: x ++ (P ++ S) → compat D (y ++ P) = true
  | [], _, _, _, _, _, _ => rfl
  | d :: D', [], y, P, S, hci, h => by
    have hy : y = [] := by
      cases y with
      | nil => rfl
      | cons q ys => simp [ciStr] at hci
    subst hy
    rw [List.nil_append]
    exact compat_of_pre₀ (d :: D') P S (by simpa using h)
  | d :: D', c :: x', y, P, S, hci, h => by
    match y with
    | [] => simp [ciStr] at hci
    | q :: y' =>
      simp only [ciStr, Bool.and_eq_true] at hci
      rw [List.cons_append, List.cons_prefix_cons] at h
      rw [List.cons_append]
      simp only [compat, Bool.and_eq_true]
      refine ⟨?_, compat_of_pre D' x' y' P S hci.2 h.2⟩
      simp only [ciChar, decide_eq_true_eq] at hci ⊢
      rw [h.1]
      exact hci.1

theorem phSafe_spec {a : Str} (h : phSafe a = true) {j : ℕ} (hj : j ≤ 7) :
    compat (a ++ ['.']) (ph.drop j) = false := by
  have := List.all_eq_true.mp h j (List.mem_range.mpr (by omega))
  simpa using this

theorem phHeadSafe_spec {b : Str} (h : phHeadSafe b = true) {j : ℕ} (hj : j ≤ 7) :
    compat (ph.drop j) (b ++ ph) = false := by
  have := List.all_eq_true.mp h j (List.mem_range.mpr (by omega))
  simpa using this

/-! #### The substitution scanner: step equations -/

theorem subF_eq_match {b : Str} {f : ℕ} {w : Bool} {c : Char} {rest : Str}
    (hcnd : (!w && ciPre b (c :: rest) && headDot (List.drop b.length (c :: rest))) = true) :
    subF b (f + 1) w (c :: rest) = List.take b.length (c :: rest) ++ ph ++
      subF b f false (List.drop (b.length + 1) (c :: rest)) := by
  simp [subF, hcnd]

theorem subF_eq_skip {b : Str} {f : ℕ} {w : Bool} {c : Char} {rest : Str}
    (hcnd : (!w && ciPre b (c :: rest) && headDot (List.drop b.length (c :: rest))) = false) :
    subF b (f + 1) w (c :: rest) = c :: subF b f (isWordChar c) rest := by
  simp [subF, hcnd]

theorem match_split {b t : Str} (hpre : ciPre b t = true)
    (hdot : headDot (t.drop b.length) = true) :
    t = t.take b.length ++ '.' :: t.drop (b.length + 1) := by
  conv_lhs => rw [← List.take_append_drop b.length t]
  congr 1
  rw [headDot_some hdot]
  congr 1
  rw [← List.drop_one, List.drop_drop]

/-- A placeholder suffix beginning the scanner's output already began
its input. -/
theorem subF_drop_ph_pre {b : Str} (hsafe : phHeadSafe b = true) :
    ∀ (f : ℕ) (w : Bool) (t : Str) (j : ℕ), t.length ≤ f → j ≤ 7 →
      (ph.drop j) <+: subF b f w t → (ph.drop j) <+: t := by
  intro f
  induction f with
  | zero =>
    intro w t j ht _ hp
    exact hp
  | succ f ih =>
    intro w t j ht hj hp
    rcases t with _ | ⟨c, rest⟩
    · exact hp
    · cases hcnd : (!w && ciPre b (c :: rest) && headDot (List.drop b.length (c :: rest))) with
      | true =>
        exfalso
        rw [subF_eq_match hcnd] at hp
        simp only [Bool.and_eq_true] at hcnd
        have hci : ciStr ((c :: rest).take b.length) b = true := ciPre_take hcnd.1.2
        have hcompat : compat (ph.drop j) (b ++ ph) = true := by
          refine compat_of_pre (ph.drop j) ((c :: rest).take b.length) b ph
            (subF b f false (List.drop (b.length + 1) (c :: rest))) hci ?_
          rw [List.append_assoc] at hp
          exact hp
        rw [phHeadSafe_spec hsafe hj] at hcompat
        cases hcompat
      | false =>
        rw [subF_eq_skip hcnd] at hp
        rcases Nat.lt_or_ge j 7 with hj7 | hj7
        · have hj8 : j < ph.length := by simp [ph]; omega
          have hsplit := List.drop_eq_getElem_cons hj8
          rw [hsplit] at hp ⊢
          rw [List.cons_prefix_cons] at hp ⊢
          refine ⟨hp.1, ih (isWordChar c) rest (j + 1)
            (by simp only [List.length_cons] at ht; omega) (by omega) hp.2⟩
        · have hj' : j = 7 := by omega
          subst hj'
          rw [show ph.drop 7 = ['>'] from rfl] at hp ⊢
          rw [List.cons_prefix_cons] at hp ⊢
          exact ⟨hp.1, List.nil_prefix⟩

/-! #### Boundary occurrences of abbreviation patterns -/

theorem append_eq_extract {x y z w : Str} (h : x ++ y = z ++ w) (hl : z.length ≤ x.length) :
    ∃ x₂, x = z ++ x₂ ∧ x₂ ++ y = w := by
  have h1 : x.take z.length = z := by
    have h0 := congrArg (List.take z.length) h
    rw [List.take_append_of_le_length hl, List.take_left' rfl] at h0
    exact h0
  refine ⟨x.drop z.length, ?_, ?_⟩
  · conv_lhs => rw [← List.take_append_drop z.length x]
    rw [h1]
  have h2 : z ++ (x.drop z.length ++ y) = z ++ w := by
    calc z ++ (x.drop z.length ++ y) = (x.take z.length ++ x.drop z.length) ++ y := by
          rw [h1, List.append_assoc]
      _ = x ++ y := by rw [List.take_append_drop]
      _ = z ++ w := h
  exact List.append_cancel_left h2

/-- A case-insensitive occurrence of the abbreviation followed by a
literal period at a position with a regex word boundary on its left
(`w` is the boundary state for the text's start: `false` means the
start of the text counts as a boundary). -/
def BOccW (w : Bool) (a t : Str) : Prop :=
  ∃ u m v, t = u ++ m ++ '.' :: v ∧ ciStr m a = true ∧
    (u = [] → w = false) ∧ ∀ d, u.getLast? = some d → isWordChar d = false

/-- The remainder `p` of an abbreviation pattern, followed by a
period, matches at the very beginning of the text. -/
def HeadOcc (p t : Str) : Prop := ∃ m v, t = m ++ '.' :: v ∧ ciStr m p = true

theorem headOcc_subF {b : Str} :
    ∀ (f : ℕ) (p : Str) (w : Bool) (t : Str), (∀ c ∈ p, c.toLower ≠ '<') → t.length ≤ f →
      HeadOcc p (subF b f w t) → HeadOcc p t := by
  intro f
  induction f with
  | zero =>
    intro p w t _ _ h
    exact h
  | succ f ih =>
    intro p w t hp ht h
    rcases t with _ | ⟨c, rest⟩
    · exact h
    · cases hcnd : (!w && ciPre b (c :: rest) && headDot (List.drop b.length (c :: rest))) with
      | false =>
        rw [subF_eq_skip hcnd] at h
        obtain ⟨m, v, heq, hci⟩ := h
        rcases m with _ | ⟨c₀, m'⟩
        · have hp0 : p = [] := by
            cases p with
            | nil => rfl
            | cons q ps => simp [ciStr] at hci
          subst hp0
          rw [List.nil_append] at heq
          injection heq with h1 h2
          exact ⟨[], rest, by rw [List.nil_append, h1], rfl⟩
        · rw [List.cons_append] at heq
          injection heq with h1 h2
          subst h1
          rcases p with _ | ⟨q, ps⟩
          · simp [ciStr] at hci
          · simp only [ciStr, Bool.and_eq_true] at hci
            obtain ⟨m'', v'', heq', hci''⟩ := ih ps (isWordChar c) rest
              (fun x hx => hp x (List.mem_cons_of_mem _ hx))
              (by simp only [List.length_cons] at ht; omega) ⟨m', v, h2, hci.2⟩
            exact ⟨c :: m'', v'', by rw [List.cons_append, heq'],
              by simp [ciStr, hci.1, hci'']⟩
      | true =>
        rw [subF_eq_match hcnd] at h
        simp only [Bool.and_eq_true] at hcnd
        obtain ⟨⟨hw, hpre⟩, hdot⟩ := hcnd
        obtain ⟨m, v, heq, hci⟩ := h
        rw [List.append_assoc] at heq
        rcases lt_trichotomy m.length ((c :: rest).take b.length).length with hlt | heqL | hgt
        · rw [List.append_cons m '.' v] at heq
          obtain ⟨bm₂, hbm, _⟩ := append_eq_extract heq (by
            rw [List.length_append, List.length_singleton]
            omega)
          refine ⟨m, bm₂ ++ '.' :: List.drop (b.length + 1) (c :: rest), ?_, hci⟩
          calc (c :: rest : Str)
              = (c :: rest).take b.length ++ '.' :: List.drop (b.length + 1) (c :: rest) :=
                match_split hpre hdot
            _ = ((m ++ ['.']) ++ bm₂) ++ '.' :: List.drop (b.length + 1) (c :: rest) := by
                rw [hbm]
            _ = m ++ '.' :: (bm₂ ++ '.' :: List.drop (b.length + 1) (c :: rest)) := by
                simp [List.append_assoc]
        · exfalso
          obtain ⟨hbm, hrest⟩ := List.append_inj heq.symm heqL
          rw [show (ph ++ subF b f false (List.drop (b.length + 1) (c :: rest)))
            = '<' :: (['P', 'E', 'R', 'I', 'O', 'D', '>'] ++
              subF b f false (List.drop (b.length + 1) (c :: rest))) from rfl] at hrest
          injection hrest with h1 _
          exact absurd h1 (by decide)
        · exfalso
          obtain ⟨m₂, hm₂, hrest⟩ := append_eq_extract heq.symm (by omega)
          rcases m₂ with _ | ⟨e, m₃⟩
          · rw [List.append_nil] at hm₂
            rw [hm₂] at hgt
            exact lt_irrefl _ hgt
          · rw [show (ph ++ subF b f false (List.drop (b.length + 1) (c :: rest)))
              = '<' :: (['P', 'E', 'R', 'I', 'O', 'D', '>'] ++
                subF b f false (List.drop (b.length + 1) (c :: rest))) from rfl,
              List.cons_append] at hrest
            injection hrest with h1 _
            subst h1
            obtain ⟨q, hq, hq'⟩ := ciStr_mem hci '<' (by rw [hm₂]; simp)
            exact hp q hq hq'.symm

theorem ciStr_nil_left {a : Str} (h : ciStr [] a = true) : a = [] := by
  cases a with
  | nil => rfl
  | cons q qs => simp [ciStr] at h

theorem ciPre_of_ciStr : ∀ {x y r : Str}, ciStr x y = true → ciPre y (x ++ r) = true
  | [], y, r, h => by rw [ciStr_nil_left h]; rfl
  | c :: x', y, r, h => by
    rcases y with _ | ⟨q, y'⟩
    · simp [ciStr] at h
    · simp only [ciStr, Bool.and_eq_true] at h
      rw [List.cons_append]
      simp only [ciPre, Bool.and_eq_true]
      exact ⟨h.1, ciPre_of_ciStr h.2⟩

theorem compat_nil_right : ∀ x : Str, compat x [] = true := by
  intro x
  cases x <;> rfl

theorem ci_compat : ∀ (D m a v S : Str), m ++ '.' :: v = D ++ S → ciStr m a = true →
    compat (a ++ ['.']) D = true
  | [], m, a, v, S, _, _ => compat_nil_right _
  | d :: D', m, a, v, S, heq, hci => by
    rcases m with _ | ⟨c, m'⟩
    · have ha0 : a = [] := ciStr_nil_left hci
      subst ha0
      rw [List.nil_append] at heq
      rw [List.cons_append] at heq
      injection heq with h1 _
      rw [List.nil_append, ← h1]
      simp [compat, ciChar]
    · rw [List.cons_append, List.cons_append] at heq
      injection heq with h1 h2
      rcases a with _ | ⟨q, as'⟩
      · simp [ciStr] at hci
      · simp only [ciStr, Bool.and_eq_true] at hci
        rw [List.cons_append]
        simp only [compat, Bool.and_eq_true]
        refine ⟨?_, ci_compat D' m' as' v S h2 hci.2⟩
        simp only [ciChar, decide_eq_true_eq] at hci ⊢
        rw [← h1]
        exact hci.1.symm

theorem ciStr_cons_inv {c : Char} {m a : Str} (h : ciStr (c :: m) a = true) :
    ∃ q as', a = q :: as' ∧ ciChar c q = true ∧ ciStr m as' = true := by
  rcases a with _ | ⟨q, as'⟩
  · simp [ciStr] at h
  · simp only [ciStr, Bool.and_eq_true] at h
    exact ⟨q, as', rfl, h.1, h.2⟩

theorem not_BOccW_nil {w : Bool} {a : Str} : ¬ BOccW w a [] := by
  rintro ⟨u, m, v, heq, -, -, -⟩
  have := congrArg List.length heq
  simp only [List.length_nil, List.length_append, List.length_cons] at this
  omega

/-- A boundary occurrence of the pattern `a` followed by a period in the
output of one substitution pass for a different abbreviation `b` was
already present in the pass's input. -/
theorem BOccW_subF {b a : Str} (hane : a ≠ []) (ha : ∀ c ∈ a, c.toLower ≠ '<')
    (hsafe : phSafe a = true) :
    ∀ (f : ℕ) (w : Bool) (t : Str), t.length ≤ f →
      BOccW w a (subF b f w t) → BOccW w a t := by
  intro f
  induction f with
  | zero =>
    intro w t _ h
    exact h
  | succ f ih =>
    intro w t ht h
    rcases t with _ | ⟨c, rest⟩
    · exact h
    have htr : rest.length ≤ f := by
      simp only [List.length_cons] at ht
      omega
    cases hcnd : (!w && ciPre b (c :: rest) && headDot (List.drop b.length (c :: rest))) with
    | false =>
      rw [subF_eq_skip hcnd] at h
      obtain ⟨u, m, v, heq, hci, hu0, hul⟩ := h
      rcases u with _ | ⟨c₀, u'⟩
      · rcases m with _ | ⟨c₁, m'⟩
        · exact absurd (ciStr_nil_left hci) hane
        · rw [List.nil_append, List.cons_append] at heq
          injection heq with h1 h2
          subst h1
          obtain ⟨q, as', haq, hcq, hcs⟩ := ciStr_cons_inv hci
          obtain ⟨m'', v'', heq', hci''⟩ := headOcc_subF f as' (isWordChar c) rest
            (fun x hx => ha x (by rw [haq]; exact List.mem_cons_of_mem _ hx)) htr
            ⟨m', v, h2, hcs⟩
          refine ⟨[], c :: m'', v'', ?_, ?_, hu0, hul⟩
          · rw [List.nil_append, List.cons_append, heq']
          · rw [haq]
            simp [ciStr, hcq, hci'']
      · rw [List.cons_append] at heq
        injection heq with h1 h2
        subst h1
        have hS : BOccW (isWordChar c) a (subF b f (isWordChar c) rest) := by
          refine ⟨u', m, v, h2, hci, ?_, ?_⟩
          · intro hu'
            subst hu'
            exact hul c (by simp)
          · intro d hd
            rcases u' with _ | ⟨e, u''⟩
            · simp at hd
            · exact hul d (by rw [List.getLast?_cons_cons]; exact hd)
        obtain ⟨u₂, m₂, v₂, heq₂, hci₂, hu0₂, hul₂⟩ := ih (isWordChar c) rest htr hS
        refine ⟨c :: u₂, m₂, v₂, ?_, hci₂, ?_, ?_⟩
        · simp [heq₂, List.append_assoc]
        · intro h0
          simp at h0
        · intro d hd
          rcases u₂ with _ | ⟨e, u₃⟩
          · simp at hd
            subst hd
            exact hu0₂ rfl
          · rw [List.getLast?_cons_cons] at hd
            exact hul₂ d hd
    | true =>
      rw [subF_eq_match hcnd] at h
      simp only [Bool.and_eq_true] at hcnd
      obtain ⟨⟨hw, hpre⟩, hdot⟩ := hcnd
      obtain ⟨u, m, v, heq, hci, hu0, hul⟩ := h
      set bm := List.take b.length (c :: rest) with hbm
      set dr := List.drop (b.length + 1) (c :: rest) with hdr
      set S2 := subF b f false dr with hS2
      have hts : (c :: rest : Str) = bm ++ '.' :: dr := by
        rw [hbm, hdr]
        exact match_split hpre hdot
      have hbml : bm.length = b.length := by
        rw [hbm, List.length_take]
        exact Nat.min_eq_left (ciPre_len hpre)
      have hm : m.length = a.length := ciStr_length hci
      rcases Nat.lt_or_ge u.length bm.length with hlt | hge
      · rcases Nat.lt_or_ge (u.length + m.length) bm.length with hA | hBC
        · have heqA : bm ++ (ph ++ S2) = ((u ++ m) ++ ['.']) ++ v := by
            rw [← List.append_assoc, heq]
            simp [List.append_assoc]
          obtain ⟨bm₂, hbm₂, _⟩ := append_eq_extract heqA (by
            simp only [List.length_append, List.length_singleton]
            omega)
          refine ⟨u, m, bm₂ ++ '.' :: dr, ?_, hci, hu0, hul⟩
          rw [hts, hbm₂]
          simp [List.append_assoc]
        · have heqB : (u ++ m) ++ '.' :: v = bm ++ (ph ++ S2) := by
            rw [← heq, List.append_assoc]
          obtain ⟨m₂, hm₂, hrest⟩ := append_eq_extract heqB
            (by rw [List.length_append]; omega)
          rcases m₂ with _ | ⟨e, m₃⟩
          · exfalso
            rw [List.nil_append] at hrest
            have h8 : ph ++ S2 = '<' :: (['P', 'E', 'R', 'I', 'O', 'D', '>'] ++ S2) := rfl
            rw [h8] at hrest
            injection hrest with h1 _
            exact absurd h1 (by decide)
          · exfalso
            have h8 : ph ++ S2 = '<' :: (['P', 'E', 'R', 'I', 'O', 'D', '>'] ++ S2) := rfl
            rw [h8, List.cons_append] at hrest
            injection hrest with h1 _
            subst h1
            obtain ⟨bm₃, hbm₃, hm₃⟩ := append_eq_extract hm₂.symm (le_of_lt hlt)
            obtain ⟨q, hq, hq'⟩ := ciStr_mem hci '<' (by rw [← hm₃]; simp)
            exact ha q hq hq'.symm
      · have hR1 : u ++ (m ++ '.' :: v) = bm ++ (ph ++ S2) := by
          rw [← List.append_assoc, ← heq, List.append_assoc]
        obtain ⟨u₃, hu₃, hrem⟩ := append_eq_extract hR1 hge
        rcases Nat.lt_or_ge u₃.length 8 with hD | hE
        · exfalso
          obtain ⟨p₂, hp₂, hrem₂⟩ := append_eq_extract hrem.symm
            (by rw [show ph.length = 8 from rfl]; omega)
          have hp₂d : p₂ = ph.drop u₃.length := by
            rw [hp₂]
            exact (List.drop_left u₃ p₂).symm
          have hcmp : compat (a ++ ['.']) p₂ = true :=
            ci_compat p₂ m a v S2 hrem₂.symm hci
          rw [hp₂d, phSafe_spec hsafe (by omega)] at hcmp
          cases hcmp
        · obtain ⟨u₄, hu₄, hrem₄⟩ := append_eq_extract hrem
            (by rw [show ph.length = 8 from rfl]; omega)
          have hS : BOccW false a S2 := by
            refine ⟨u₄, m, v, ?_, hci, fun _ => rfl, ?_⟩
            · rw [← hrem₄, ← List.append_assoc]
            intro d hd
            rcases u₄ with _ | ⟨e, u₅⟩
            · simp at hd
            · refine hul d ?_
              rw [hu₃, hu₄, List.getLast?_append_of_ne_nil bm (by simp),
                List.getLast?_append_of_ne_nil ph (by simp)]
              exact hd
          have hdrl : dr.length ≤ f := by
            rw [hdr]
            simp only [List.length_drop, List.length_cons]
            omega
          rw [hS2] at hS
          obtain ⟨u₆, m₆, v₆, heq₆, hci₆, _, hul₆⟩ := ih false dr hdrl hS
          refine ⟨bm ++ '.' :: u₆, m₆, v₆, ?_, hci₆, ?_, ?_⟩
          · rw [hts, heq₆]
            simp [List.append_assoc]
          · intro h0
            simp at h0
          · intro d hd
            rcases u₆ with _ | ⟨e, u₇⟩
            · rw [List.getLast?_append_of_ne_nil bm (by simp)] at hd
              simp at hd
              subst hd
              decide
            · rw [List.getLast?_append_of_ne_nil bm (by simp),
                List.getLast?_cons_cons] at hd
              exact hul₆ d hd

/-- After the substitution pass for an abbreviation, no boundary
occurrence of that very abbreviation followed by a period remains. -/
theorem not_BOccW_subF {a : Str} (hane : a ≠ []) (ha : ∀ c ∈ a, c.toLower ≠ '<')
    (hsafe : phSafe a = true) :
    ∀ (f : ℕ) (w : Bool) (t : Str), t.length ≤ f → BOccW w a (subF a f w t) → False := by
  intro f
  induction f with
  | zero =>
    intro w t ht h
    rcases t with _ | ⟨c, rest⟩
    · exact not_BOccW_nil h
    · simp at ht
  | succ f ih =>
    intro w t ht h
    rcases t with _ | ⟨c, rest⟩
    · exact not_BOccW_nil h
    have htr : rest.length ≤ f := by
      simp only [List.length_cons] at ht
      omega
    cases hcnd : (!w && ciPre a (c :: rest) && headDot (List.drop a.length (c :: rest))) with
    | false =>
      rw [subF_eq_skip hcnd] at h
      obtain ⟨u, m, v, heq, hci, hu0, hul⟩ := h
      rcases u with _ | ⟨c₀, u'⟩
      · rcases m with _ | ⟨c₁, m'⟩
        · exact absurd (ciStr_nil_left hci) hane
        · rw [List.nil_append, List.cons_append] at heq
          injection heq with h1 h2
          subst h1
          obtain ⟨q, as', haq, hcq, hcs⟩ := ciStr_cons_inv hci
          obtain ⟨m'', v'', heq', hci''⟩ := headOcc_subF f as' (isWordChar c) rest
            (fun x hx => ha x (by rw [haq]; exact List.mem_cons_of_mem _ hx)) htr
            ⟨m', v, h2, hcs⟩
          have hw : w = false := hu0 rfl
          have hpre : ciPre a (c :: rest) = true := by
            rw [haq, heq']
            simp only [ciPre, Bool.and_eq_true]
            exact ⟨hcq, ciPre_of_ciStr hci''⟩
          have hdot : headDot (List.drop a.length (c :: rest)) = true := by
            rw [haq, heq']
            have hml : m''.length = as'.length := ciStr_length hci''
            rw [List.length_cons, List.drop_succ_cons, ← hml, List.drop_left]
            simp [headDot]
          have hc' : (!w && ciPre a (c :: rest) &&
              headDot (List.drop a.length (c :: rest))) = true := by
            rw [hw, hpre, hdot]
            rfl
          rw [hcnd] at hc'
          cases hc'
      · rw [List.cons_append] at heq
        injection heq with h1 h2
        subst h1
        refine ih (isWordChar c) rest htr ⟨u', m, v, h2, hci, ?_, ?_⟩
        · intro hu'
          subst hu'
          exact hul c (by simp)
        · intro d hd
          rcases u' with _ | ⟨e, u''⟩
          · simp at hd
          · exact hul d (by rw [List.getLast?_cons_cons]; exact hd)
    | true =>
      rw [subF_eq_match hcnd] at h
      simp only [Bool.and_eq_true] at hcnd
      obtain ⟨⟨hw, hpre⟩, hdot⟩ := hcnd
      obtain ⟨u, m, v, heq, hci, hu0, hul⟩ := h
      set bm := List.take a.length (c :: rest) with hbm
      set dr := List.drop (a.length + 1) (c :: rest) with hdr
      set S2 := subF a f false dr with hS2
      have hbml : bm.length = a.length := by
        rw [hbm, List.length_take]
        exact Nat.min_eq_left (ciPre_len hpre)
      have hm : m.length = a.length := ciStr_length hci
      rcases Nat.lt_or_ge u.length bm.length with hlt | hge
      · rcases Nat.lt_or_ge (u.length + m.length) bm.length with hA | hBC
        · omega
        · have heqB : (u ++ m) ++ '.' :: v = bm ++ (ph ++ S2) := by
            rw [← heq, List.append_assoc]
          obtain ⟨m₂, hm₂, hrest⟩ := append_eq_extract heqB
            (by rw [List.length_append]; omega)
          rcases m₂ with _ | ⟨e, m₃⟩
          · rw [List.nil_append] at hrest
            have h8 : ph ++ S2 = '<' :: (['P', 'E', 'R', 'I', 'O', 'D', '>'] ++ S2) := rfl
            rw [h8] at hrest
            injection hrest with h1 _
            exact absurd h1 (by decide)
          · have h8 : ph ++ S2 = '<' :: (['P', 'E', 'R', 'I', 'O', 'D', '>'] ++ S2) := rfl
            rw [h8, List.cons_append] at hrest
            injection hrest with h1 _
            subst h1
            obtain ⟨bm₃, hbm₃, hm₃⟩ := append_eq_extract hm₂.symm (le_of_lt hlt)
            obtain ⟨q, hq, hq'⟩ := ciStr_mem hci '<' (by rw [← hm₃]; simp)
            exact ha q hq hq'.symm
      · have hR1 : u ++ (m ++ '.' :: v) = bm ++ (ph ++ S2) := by
          rw [← List.append_assoc, ← heq, List.append_assoc]
        obtain ⟨u₃, hu₃, hrem⟩ := append_eq_extract hR1 hge
        rcases Nat.lt_or_ge u₃.length 8 with hD | hE
        · obtain ⟨p₂, hp₂, hrem₂⟩ := append_eq_extract hrem.symm
            (by rw [show ph.length = 8 from rfl]; omega)
          have hp₂d : p₂ = ph.drop u₃.length := by
            rw [hp₂]
            exact (List.drop_left u₃ p₂).symm
          have hcmp : compat (a ++ ['.']) p₂ = true :=
            ci_compat p₂ m a v S2 hrem₂.symm hci
          rw [hp₂d, phSafe_spec hsafe (by omega)] at hcmp
          cases hcmp
        · obtain ⟨u₄, hu₄, hrem₄⟩ := append_eq_extract hrem
            (by rw [show ph.length = 8 from rfl]; omega)
          have hdrl : dr.length ≤ f := by
            rw [hdr]
            simp only [List.length_drop, List.length_cons]
            omega
          refine ih false dr hdrl ?_
          rw [← hS2]
          refine ⟨u₄, m, v, ?_, hci, fun _ => rfl, ?_⟩
          · rw [← hrem₄, ← List.append_assoc]
          intro d hd
          rcases u₄ with _ | ⟨e, u₅⟩
          · simp at hd
          · refine hul d ?_
            rw [hu₃, hu₄, List.getLast?_append_of_ne_nil bm (by simp),
              List.getLast?_append_of_ne_nil ph (by simp)]
            exact hd

theorem not_BOccW_foldl {a : Str} (hane : a ≠ []) (ha : ∀ c ∈ a, c.toLower ≠ '<')
    (hsafe : phSafe a = true) :
    ∀ (l : List Str) (t : Str), ¬ BOccW false a t →
      ¬ BOccW false a (l.foldl (fun s b => subAbbrev b s) t)
  | [], _, h => h
  | b :: l, t, h => by
    simp only [List.foldl_cons]
    exact not_BOccW_foldl hane ha hsafe l (subAbbrev b t)
      (fun hocc => h (BOccW_subF hane ha hsafe t.length false t le_rfl hocc))

/-- Decidable conditions on each abbreviation pattern: nonempty, free of
the placeholder's opening bracket, and never case-insensitively begun by
a placeholder suffix. -/
theorem abbrevs_cond : LATIN_ABBREVS.all
    (fun a => (!a.isEmpty && a.all (fun c => !decide (c.toLower = '<'))) && phSafe a)
      = true := by
  decide

theorem abbrev_conds {a : Str} (h : a ∈ LATIN_ABBREVS) :
    a ≠ [] ∧ (∀ c ∈ a, c.toLower ≠ '<') ∧ phSafe a = true := by
  have h1 := List.all_eq_true.mp abbrevs_cond a h
  simp only [Bool.and_eq_true, List.all_eq_true, Bool.not_eq_true',
    decide_eq_false_iff_not, List.isEmpty_eq_false] at h1
  exact ⟨h1.1.1, h1.1.2, h1.2⟩

/-- The protection loop leaves no case-insensitive word-boundary
occurrence of any protected abbreviation followed by a literal period. -/
theorem not_BOccW_protect {a : Str} (hmem : a ∈ LATIN_ABBREVS) (t : Str) :
    ¬ BOccW false a (protect t) := by
  obtain ⟨hane, ha, hsafe⟩ := abbrev_conds hmem
  obtain ⟨l₁, l₂, hl⟩ := List.append_of_mem hmem
  rw [protect, hl, List.foldl_append, List.foldl_cons]
  exact not_BOccW_foldl hane ha hsafe l₂ _
    (fun hocc => not_BOccW_subF hane ha hsafe _ false _ le_rfl hocc)

/-! #### Restore preimages -/

theorem Prot_restoreN : ∀ (N : ℕ) (t : Str), t.length ≤ N → Prot (restore t) t := by
  intro N
  induction N with
  | zero =>
    intro t ht
    have h0 : t = [] := List.length_eq_zero.mp (Nat.le_zero.mp ht)
    subst h0
    exact Prot.nil
  | succ N ih =>
    intro t ht
    rcases t with _ | ⟨c, rest⟩
    · exact Prot.nil
    cases hp : ph.isPrefixOf (c :: rest) with
    | true =>
      obtain ⟨r, hr⟩ := List.isPrefixOf_iff_prefix.mp hp
      rw [← hr, restore_ph]
      refine Prot.mark (ih r ?_)
      have hlen := congrArg List.length hr
      simp only [List.length_append, List.length_cons] at hlen
      have h8 : ph.length = 8 := rfl
      simp only [List.length_cons] at ht
      omega
    | false =>
      rw [restore_cons hp]
      exact Prot.keep c (ih rest (by simp only [List.length_cons] at ht; omega))

/-- Every string protects its own restoration: the scanner's output is
the input with each placeholder block collapsed to a period. -/
theorem Prot_restore (t : Str) : Prot (restore t) t :=
  Prot_restoreN t.length t le_rfl

theorem ciStr_nil_right : ∀ {t : Str}, ciStr t [] = true → t = []
  | [], _ => rfl
  | _ :: _, h => by simp [ciStr] at h

theorem ciStr_snoc_right : ∀ (a : Str) {t : Str} {q : Char}, ciStr t (a ++ [q]) = true →
    ∃ m z, t = m ++ [z] ∧ ciStr m a = true ∧ ciChar z q = true
  | [], t, q, h => by
    rcases t with _ | ⟨c, cs⟩
    · simp [ciStr] at h
    · rw [List.nil_append] at h
      simp only [ciStr, Bool.and_eq_true] at h
      have h0 : cs = [] := ciStr_nil_right h.2
      subst h0
      exact ⟨[], c, rfl, rfl, h.1⟩
  | p :: as, t, q, h => by
    rcases t with _ | ⟨c, cs⟩
    · simp [ciStr] at h
    · rw [List.cons_append] at h
      simp only [ciStr, Bool.and_eq_true] at h
      obtain ⟨m, z, rfl, hm, hz⟩ := ciStr_snoc_right as h.2
      exact ⟨c :: m, z, rfl, by simp [ciStr, h.1, hm], hz⟩

theorem termPunct_ci_dot {z : Char} (h1 : isTermPunct z = true)
    (h2 : ciChar z '.' = true) : z = '.' := by
  simp only [isTermPunct, Bool.or_eq_true, decide_eq_true_eq] at h1
  rcases h1 with (h | h) | h
  · exact h
  · subst h
    exact absurd h2 (by decide)
  · subst h
    exact absurd h2 (by decide)

/-- Every member of a list sits inside the space-joined text, preceded
either by nothing or by a space. -/
theorem mem_intercalate_split : ∀ (l : List Str) (g : Str), g ∈ l →
    ∃ u v, List.intercalate [' '] l = u ++ g ++ v ∧
      (u = [] ∨ u.getLast? = some ' ')
  | [], g, hg => absurd hg (List.not_mem_nil g)
  | w :: rest, g, hg => by
    rcases List.mem_cons.mp hg with rfl | hg'
    · rcases rest with _ | ⟨r, rs⟩
      · exact ⟨[], [], by simp [List.intercalate, List.intersperse], Or.inl rfl⟩
      · refine ⟨[], ' ' :: List.intercalate [' '] (r :: rs), ?_, Or.inl rfl⟩
        rw [intercalate_cons₂]
        simp
    · rcases rest with _ | ⟨r, rs⟩
      · exact absurd hg' (List.not_mem_nil g)
      · obtain ⟨u, v, hi, hu⟩ := mem_intercalate_split (r :: rs) g hg'
        refine ⟨w ++ ' ' :: u, v, ?_, ?_⟩
        · rw [intercalate_cons₂, hi]
          simp [List.append_assoc]
        · right
          rcases u with _ | ⟨e, u'⟩
          · rw [List.getLast?_append_of_ne_nil w (by simp)]
            simp
          · rw [List.getLast?_append_of_ne_nil w (by simp), List.getLast?_cons_cons]
            rcases hu with h0 | h0
            · cases h0
            · exact h0

theorem getLast?_mem : ∀ {l : Str} {a : Char}, l.getLast? = some a → a ∈ l
  | [], _, h => by simp at h
  | [x], a, h => by
    simp only [List.getLast?_singleton, Option.some.injEq] at h
    subst h
    exact List.mem_singleton_self _
  | x :: y :: l, a, h => by
    rw [List.getLast?_cons_cons] at h
    exact List.mem_cons_of_mem _ (getLast?_mem h)

/-- No placeholder block of the text is immediately preceded by a lone
`i`/`e` letter at a word start; `sp` says whether the position just
before the text follows a space (or is the start of the whole text). -/
def RPhW (sp : Bool) (t : Str) : Prop :=
  ∀ u x v, t = u ++ (x :: (ph ++ v)) → (x.toLower = 'i' ∨ x.toLower = 'e') →
    (u = [] → sp = false) ∧ ∀ d, u.getLast? = some d → d ≠ ' '

/-- One substitution pass preserves the invariant: the only new
placeholders it writes sit right after a full match of its
abbreviation, which is neither a lone `i`/`e` nor space-containing. -/
theorem RPhW_subF {b : Str} (hbne : b ≠ []) (hbLT : ∀ c ∈ b, c.toLower ≠ '<')
    (hbSP : ∀ c ∈ b, c.toLower ≠ ' ')
    (hbIE : b.length = 1 → ∀ c ∈ b, c.toLower ≠ 'i' ∧ c.toLower ≠ 'e')
    (hsafe : phHeadSafe b = true) :
    ∀ (f : ℕ) (w sp : Bool) (t : Str), t.length ≤ f →
      RPhW sp t → RPhW sp (subF b f w t) := by
  intro f
  induction f with
  | zero =>
    intro w sp t _ hR
    exact hR
  | succ f ih =>
    intro w sp t ht hR
    rcases t with _ | ⟨c, rest⟩
    · exact hR
    have htr : rest.length ≤ f := by
      simp only [List.length_cons] at ht
      omega
    cases hcnd : (!w && ciPre b (c :: rest) && headDot (List.drop b.length (c :: rest))) with
    | false =>
      rw [subF_eq_skip hcnd]
      intro u x v heq hx
      rcases u with _ | ⟨c₀, u'⟩
      · rw [List.nil_append] at heq
        injection heq with h1 h2
        subst h1
        have hdp0 : ph.drop 0 <+: subF b f (isWordChar c) rest := by
          rw [List.drop_zero]
          exact ⟨v, h2.symm⟩
        have hdp := subF_drop_ph_pre hsafe f (isWordChar c) rest 0 htr (by omega) hdp0
        rw [List.drop_zero] at hdp
        obtain ⟨v', hv'⟩ := hdp
        exact hR [] c v' (by rw [List.nil_append, ← hv']) hx
      · rw [List.cons_append] at heq
        injection heq with h1 h2
        subst h1
        have hRrest : RPhW (decide (c = ' ')) rest := by
          intro u₀ x₀ v₀ h₀ hx₀
          have hT := hR (c :: u₀) x₀ v₀ (by rw [List.cons_append, h₀]) hx₀
          constructor
          · intro hu₀
            subst hu₀
            have hcne : c ≠ ' ' := hT.2 c (by simp)
            simp [hcne]
          · intro d hd
            refine hT.2 d ?_
            rcases u₀ with _ | ⟨e, u₁⟩
            · simp at hd
            · rw [List.getLast?_cons_cons]
              exact hd
        have hres := ih (isWordChar c) (decide (c = ' ')) rest htr hRrest u' x v h2 hx
        constructor
        · intro h0
          simp at h0
        · intro d hd
          rcases u' with _ | ⟨e, u''⟩
          · simp at hd
            subst hd
            have := hres.1 rfl
            simpa using this
          · rw [List.getLast?_cons_cons] at hd
            exact hres.2 d hd
    | true =>
      rw [subF_eq_match hcnd]
      simp only [Bool.and_eq_true] at hcnd
      obtain ⟨⟨hw, hpre⟩, hdot⟩ := hcnd
      set bm := List.take b.length (c :: rest) with hbm
      set dr := List.drop (b.length + 1) (c :: rest) with hdr
      set S2 := subF b f false dr with hS2
      intro u x v heq hx
      have hts : (c :: rest : Str) = bm ++ '.' :: dr := by
        rw [hbm, hdr]
        exact match_split hpre hdot
      have hbml : bm.length = b.length := by
        rw [hbm, List.length_take]
        exact Nat.min_eq_left (ciPre_len hpre)
      have hci : ciStr bm b = true := by
        rw [hbm]
        exact ciPre_take hpre
      have hE : bm ++ (ph ++ S2) = u ++ (x :: (ph ++ v)) := by
        rw [← List.append_assoc]
        exact heq
      rcases Nat.lt_or_ge (u.length + 1) bm.length with hA | hBE
      · have hx1 : u ++ (x :: (ph ++ v)) = (u ++ [x, '<']) ++ (List.drop 1 ph ++ v) := by
          simp [ph, List.append_assoc]
        have hE2 : bm ++ (ph ++ S2) = (u ++ [x, '<']) ++ (List.drop 1 ph ++ v) := by
          rw [hE, hx1]
        obtain ⟨bm₂, hbm₂, _⟩ := append_eq_extract hE2 (by
          simp only [List.length_append]
          have h2 : ([x, '<'] : Str).length = 2 := rfl
          omega)
        obtain ⟨q, hq, hq'⟩ := ciStr_mem hci '<' (by rw [hbm₂]; simp)
        exact absurd hq'.symm (hbLT q hq)
      · rcases Nat.lt_or_ge u.length bm.length with hB | hCE
        · have hx1 : u ++ (x :: (ph ++ v)) = (u ++ [x]) ++ (ph ++ v) := by
            simp [List.append_assoc]
          have hE2 : bm ++ (ph ++ S2) = (u ++ [x]) ++ (ph ++ v) := by
            rw [hE, hx1]
          obtain ⟨bm₂, hbm₂, _⟩ := append_eq_extract hE2 (by
            simp only [List.length_append, List.length_singleton]
            omega)
          have hbm0 : bm₂ = [] := by
            have hlen := congrArg List.length hbm₂
            simp only [List.length_append, List.length_singleton] at hlen
            exact List.length_eq_zero.mp (by omega)
          subst hbm0
          rw [List.append_nil] at hbm₂
          have hci' : ciStr (u ++ [x]) b = true := by
            rw [← hbm₂]
            exact hci
          obtain ⟨b₀, q, hb, hub, hxq⟩ := ciStr_snoc_inv hci'
          rcases u with _ | ⟨e, u'⟩
          · have hb0 : b₀ = [] := ciStr_nil_left hub
            subst hb0
            rw [List.nil_append] at hb
            have hie := hbIE (by rw [hb]; rfl) q (by rw [hb]; exact List.mem_singleton_self q)
            rcases hx with h | h
            · exact absurd (hxq.symm.trans h) hie.1
            · exact absurd (hxq.symm.trans h) hie.2
          · constructor
            · intro h0
              simp at h0
            · intro d hd
              have hdm : d ∈ (e :: u') := getLast?_mem hd
              obtain ⟨q', hq', hdq⟩ := ciStr_mem hub d hdm
              intro hds
              subst hds
              exact absurd hdq.symm
                (hbSP q' (by rw [hb]; exact List.mem_append_left _ hq'))
        · obtain ⟨u₃, hu₃, hrem⟩ := append_eq_extract hE.symm hCE
          rcases Nat.lt_or_ge u₃.length 8 with hj | hj
          · obtain ⟨p₂, hp₂, hrem₂⟩ := append_eq_extract hrem.symm
              (by rw [show ph.length = 8 from rfl]; omega)
            have hp₂d : p₂ = ph.drop u₃.length := by
              rw [hp₂]
              exact (List.drop_left u₃ p₂).symm
            obtain ⟨e, pp, rfl⟩ : ∃ e pp, p₂ = e :: pp := by
              rcases p₂ with _ | ⟨e, pp⟩
              · exfalso
                have hlen := congrArg List.length hp₂
                simp only [List.length_append, List.length_nil] at hlen
                have h8 : ph.length = 8 := rfl
                omega
              · exact ⟨_, _, rfl⟩
            rw [List.cons_append] at hrem₂
            injection hrem₂ with hex hrem₃
            rcases Nat.lt_or_ge u₃.length 7 with hj7 | hj7
            · have hppd : pp = ph.drop (u₃.length + 1) := by
                have h1 := congrArg (List.drop 1) hp₂d
                rw [show List.drop 1 (e :: pp) = pp from rfl, List.drop_drop] at h1
                rw [h1, Nat.add_comm]
              obtain ⟨e₂, pp₂, hepp₂⟩ : ∃ e₂ pp₂, pp = e₂ :: pp₂ := by
                rcases pp with _ | ⟨e₂, pp₂⟩
                · exfalso
                  have hlen := congrArg List.length hppd
                  simp only [List.length_nil, List.length_drop] at hlen
                  have h8 : ph.length = 8 := rfl
                  omega
                · exact ⟨_, _, rfl⟩
              rw [hepp₂, List.cons_append] at hrem₃
              have h8e : ph ++ v = '<' :: (['P', 'E', 'R', 'I', 'O', 'D', '>'] ++ v) := rfl
              rw [h8e] at hrem₃
              injection hrem₃ with he₂ _
              have hd7 : ∀ i < 8, 1 ≤ i → (ph.drop i).head? ≠ some '<' := by decide
              refine absurd ?_ (hd7 (u₃.length + 1) (by omega) (by omega))
              rw [← hppd, hepp₂, he₂]
              rfl
            · have hj7' : u₃.length = 7 := by omega
              have he7 : e = '>' := by
                have h77 : ph.drop u₃.length = ['>'] := by rw [hj7']; rfl
                rw [h77] at hp₂d
                simp only [List.cons.injEq] at hp₂d
                exact hp₂d.1
              rw [← hex, he7] at hx
              rcases hx with h | h
              · exact absurd h (by decide)
              · exact absurd h (by decide)
          · obtain ⟨u₄, hu₄, hrem₄⟩ := append_eq_extract hrem
              (by rw [show ph.length = 8 from rfl]; omega)
            have hdrl : dr.length ≤ f := by
              rw [hdr]
              simp only [List.length_drop, List.length_cons]
              omega
            have hRdr : RPhW false dr := by
              intro u₀ x₀ v₀ h₀ hx₀
              refine ⟨fun _ => rfl, ?_⟩
              intro d hd
              rcases u₀ with _ | ⟨e₀, u₁⟩
              · simp at hd
              · have hT := hR (bm ++ '.' :: (e₀ :: u₁)) x₀ v₀ (by
                  rw [hts, h₀]
                  simp [List.append_assoc]) hx₀
                refine hT.2 d ?_
                rw [List.getLast?_append_of_ne_nil bm (by simp), List.getLast?_cons_cons]
                exact hd
            have hS2R := ih false false dr hdrl hRdr
            rw [← hS2] at hS2R
            have hres := hS2R u₄ x v hrem₄.symm hx
            have hb1 : 1 ≤ b.length := List.length_pos.mpr hbne
            constructor
            · intro h0
              exfalso
              rw [h0] at hu₃
              have hlen := congrArg List.length hu₃
              simp only [List.length_nil, List.length_append] at hlen
              omega
            · intro d hd
              rcases u₄ with _ | ⟨e₄, u₅⟩
              · rw [hu₃, hu₄, List.append_nil,
                  List.getLast?_append_of_ne_nil bm (by simp [ph]),
                  show ph.getLast? = some '>' from by decide] at hd
                injection hd with hd1
                rw [← hd1]
                decide
              · rw [hu₃, hu₄, List.getLast?_append_of_ne_nil bm (by simp),
                  List.getLast?_append_of_ne_nil ph (by simp)] at hd
                exact hres.2 d hd

/-- Further decidable conditions on each abbreviation: no placeholder
suffix can begin its match image, it is nonempty, contains nothing
case-insensitively equal to a space, and no single-letter abbreviation
is an `i` or an `e`. -/
theorem abbrevs_cond₂ : LATIN_ABBREVS.all
    (fun b => ((phHeadSafe b && !b.isEmpty)
        && b.all (fun c => !decide (c.toLower = ' ')))
      && (!decide (b.length = 1)
        || b.all (fun c => !decide (c.toLower = 'i') && !decide (c.toLower = 'e'))))
      = true := by
  decide

theorem abbrev_conds₂ {b : Str} (h : b ∈ LATIN_ABBREVS) :
    phHeadSafe b = true ∧ b ≠ [] ∧ (∀ c ∈ b, c.toLower ≠ ' ')
      ∧ (b.length = 1 → ∀ c ∈ b, c.toLower ≠ 'i' ∧ c.toLower ≠ 'e') := by
  have h1 := List.all_eq_true.mp abbrevs_cond₂ b h
  simp only [Bool.and_eq_true, Bool.or_eq_true, Bool.not_eq_true', List.all_eq_true,
    decide_eq_false_iff_not, List.isEmpty_eq_false] at h1
  refine ⟨h1.1.1.1, h1.1.1.2, h1.1.2, fun hlen c hc => ?_⟩
  rcases h1.2 with hno | hall
  · exact absurd hlen hno
  · exact hall c hc

theorem RPhW_foldl : ∀ (l : List Str), (∀ b ∈ l, b ∈ LATIN_ABBREVS) → ∀ t : Str,
    RPhW true t → RPhW true (l.foldl (fun s b => subAbbrev b s) t)
  | [], _, _, h => h
  | b :: l, hl, t, h => by
    simp only [List.foldl_cons]
    refine RPhW_foldl l (fun x hx => hl x (List.mem_cons_of_mem _ hx)) _ ?_
    obtain ⟨hsafe, hbne, hbsp, hbie⟩ := abbrev_conds₂ (hl b (List.mem_cons_self _ _))
    obtain ⟨_, hbLT, _⟩ := abbrev_conds (hl b (List.mem_cons_self _ _))
    exact RPhW_subF hbne hbLT hbsp hbie hsafe t.length false true t le_rfl h

/-- In the protected form of a placeholder-free text, no placeholder is
immediately preceded by a lone `i`/`e` at a word start. -/
theorem RPhW_protect {t : Str} (h : hasPh t = false) : RPhW true (protect t) := by
  refine RPhW_foldl LATIN_ABBREVS (fun b hb => hb) t ?_
  intro u x v heq _
  exfalso
  have hph : hasPh t = true :=
    hasPh_iff.mpr ⟨u ++ [x], v, by rw [heq]; simp [List.append_assoc]⟩
  rw [h] at hph
  cases hph

theorem Prot_cons_inv₂ {r : Char} {n t : Str} (h : Prot (r :: n) t) :
    (∃ t', t = r :: t' ∧ Prot n t') ∨ (r = '.' ∧ ∃ t', t = ph ++ t' ∧ Prot n t') := by
  cases h with
  | keep c h' => exact Or.inl ⟨_, rfl, h'⟩
  | mark h' => exact Or.inr ⟨rfl, _, rfl, h'⟩

/-- Shape of the abbreviation list: every entry is either free of
(case-insensitive) periods or one of the two dotted entries. -/
theorem abbrevs_shape : LATIN_ABBREVS.all
    (fun a => a.all (fun c => !decide (c.toLower = '.'))
      || (decide (a = ['i', '.', 'e']) || decide (a = ['e', '.', 'g']))) = true := by
  decide

theorem abbrev_shape {a : Str} (h : a ∈ LATIN_ABBREVS) :
    (∀ c ∈ a, c.toLower ≠ '.') ∨ a = ['i', '.', 'e'] ∨ a = ['e', '.', 'g'] := by
  have h1 := List.all_eq_true.mp abbrevs_shape a h
  simp only [Bool.or_eq_true, List.all_eq_true, Bool.not_eq_true',
    decide_eq_false_iff_not, decide_eq_true_eq] at h1
  exact h1

/-- A fragment of the protected text that sits before the final one
(so it ends with a sentence terminator), is preceded by nothing or a
space, and restores to a string that case-insensitively equals an
abbreviation plus a period, contradicts either occurrence-freeness or
the placeholder-context invariant. -/
theorem middle_frag_not_abbrev {P g : Str}
    (hNoOcc : ∀ a ∈ LATIN_ABBREVS, ¬ BOccW false a P)
    (hRP : RPhW true P)
    (u v : Str) (hP : P = u ++ g ++ v) (hu : u = [] ∨ u.getLast? = some ' ')
    (g' : Str) (d₀ : Char) (hg : g = g' ++ [d₀]) (hd₀ : isTermPunct d₀ = true) :
    isProtectedAbbrevToken (restore g) = false := by
  cases hbadc : isProtectedAbbrevToken (restore g) with
  | false => rfl
  | true =>
    exfalso
    simp only [isProtectedAbbrevToken, List.any_eq_true] at hbadc
    obtain ⟨a, hamem, hcia⟩ := hbadc
    have hub : ∀ d, u.getLast? = some d → isWordChar d = false := by
      intro d hd
      rcases hu with h0 | h0
      · subst h0
        simp at hd
      · rw [h0] at hd
        injection hd with hd1
        rw [← hd1]
        decide
    have hnotPh : ∀ (x₀ : Char) (w₀ : Str), g = x₀ :: (ph ++ w₀) →
        (x₀.toLower = 'i' ∨ x₀.toLower = 'e') → False := by
      intro x₀ w₀ hgx hx₀
      have hres := hRP u x₀ (w₀ ++ v)
        (by rw [hP, hgx]; simp [List.append_assoc]) hx₀
      rcases hu with h0 | h0
      · exact absurd (hres.1 h0) (by decide)
      · exact (hres.2 ' ' h0) rfl
    have hBOcc : ∀ (m₀ w₀ : Str), g = m₀ ++ '.' :: w₀ → ciStr m₀ a = true → False := by
      intro m₀ w₀ hgm hcm
      refine hNoOcc a hamem ⟨u, m₀, w₀ ++ v, ?_, hcm, fun _ => rfl, hub⟩
      rw [hP, hgm]
      simp [List.append_assoc]
    obtain ⟨m, z, hρ, hm, hz⟩ := ciStr_snoc_right a hcia
    have hProt' : Prot (m ++ [z]) g := by
      rw [← hρ]
      exact Prot_restore g
    have hF2 : ∀ x₁ y₁ : Char, a = [x₁, '.', y₁] →
        (x₁.toLower = 'i' ∨ x₁.toLower = 'e') → x₁.toLower ≠ '.' →
        y₁.toLower ≠ '.' → False := by
      intro x₁ y₁ haeq hx₁ hx₁d hy₁d
      subst haeq
      rcases m with _ | ⟨r₁, m₁⟩
      · simp [ciStr] at hm
      rcases m₁ with _ | ⟨r₂, m₂⟩
      · simp [ciStr] at hm
      rcases m₂ with _ | ⟨r₃, m₃⟩
      · simp [ciStr] at hm
      rcases m₃ with _ | ⟨r₄, m₄⟩
      swap
      · simp [ciStr] at hm
      simp only [ciStr, ciChar, Bool.and_eq_true, decide_eq_true_eq] at hm
      rcases Prot_cons_inv₂ hProt' with ⟨g₁, hg₁, hP₁⟩ | ⟨hr₁dot, -⟩
      swap
      · exact absurd (hr₁dot ▸ hm.1).symm hx₁d
      rcases Prot_cons_inv₂ hP₁ with ⟨g₂, hg₂, hP₂⟩ | ⟨hr₂dot, g₂, hg₂, -⟩
      swap
      · refine hnotPh r₁ g₂ (by rw [hg₁, hg₂]) ?_
        rcases hx₁ with hh | hh
        · exact Or.inl (hm.1.trans hh)
        · exact Or.inr (hm.1.trans hh)
      rcases Prot_cons_inv₂ hP₂ with ⟨g₃, hg₃, hP₃⟩ | ⟨hr₃dot, -⟩
      swap
      · exact absurd (hr₃dot ▸ hm.2.2.1).symm hy₁d
      rcases Prot_cons_inv₂ hP₃ with ⟨g₄, hg₄, hP₄⟩ | ⟨hzdot, g₄, hg₄, hP₄⟩
      · have h40 : g₄ = [] := Prot_nil_left hP₄
        subst h40
        have hgz : g = [r₁, r₂, r₃, z] := by rw [hg₁, hg₂, hg₃, hg₄]
        have hzd : z = d₀ := by
          have h1 : g.getLast? = some z := by
            rw [hgz]
            simp
          rw [hg, List.getLast?_append_of_ne_nil g' (by simp)] at h1
          simp only [List.getLast?_singleton, Option.some.injEq] at h1
          exact h1.symm
        have hzdotl : z = '.' := termPunct_ci_dot (by rw [hzd]; exact hd₀) hz
        refine hBOcc [r₁, r₂, r₃] [] (by rw [hgz, hzdotl]; rfl) ?_
        simp [ciStr, ciChar, hm.1, hm.2.1, hm.2.2.1]
      · have h40 : g₄ = [] := Prot_nil_left hP₄
        subst h40
        have hgz : g = r₁ :: r₂ :: r₃ :: ph := by
          rw [hg₁, hg₂, hg₃, hg₄, List.append_nil]
        have h1 : g.getLast? = some '>' := by
          rw [hgz, show (r₁ :: r₂ :: r₃ :: ph : Str) = [r₁, r₂, r₃] ++ ph from rfl,
            List.getLast?_append_of_ne_nil [r₁, r₂, r₃] (by simp [ph])]
          decide
        rw [hg, List.getLast?_append_of_ne_nil g' (by simp)] at h1
        simp only [List.getLast?_singleton, Option.some.injEq] at h1
        rw [h1] at hd₀
        exact absurd hd₀ (by decide)
    rcases abbrev_shape hamem with hdl | hae | hae
    · have hmdot : ∀ x ∈ m, x ≠ '.' := by
        intro x hx hx'
        subst hx'
        obtain ⟨q, hq, hq'⟩ := ciStr_mem hm '.' hx
        exact hdl q hq hq'.symm
      obtain ⟨g₂, hgg₂, hPz⟩ := Prot_append_inv m hmdot hProt'
      rcases Prot_cons_inv₂ hPz with ⟨t', hgt, hPt⟩ | ⟨hzdot, t', hgt, hPt⟩
      · have ht0 : t' = [] := Prot_nil_left hPt
        subst ht0
        have hgz : g = m ++ [z] := by rw [hgg₂, hgt]
        have hzd : z = d₀ := by
          have h1 : g.getLast? = some z := by
            rw [hgz, List.getLast?_append_of_ne_nil m (by simp)]
            simp
          rw [hg, List.getLast?_append_of_ne_nil g' (by simp)] at h1
          simp only [List.getLast?_singleton, Option.some.injEq] at h1
          exact h1.symm
        have hzdotl : z = '.' := termPunct_ci_dot (by rw [hzd]; exact hd₀) hz
        exact hBOcc m [] (by rw [hgz, hzdotl]) hm
      · have ht0 : t' = [] := Prot_nil_left hPt
        subst ht0
        have hgz : g = m ++ ph := by rw [hgg₂, hgt, List.append_nil]
        have h1 : g.getLast? = some '>' := by
          rw [hgz, List.getLast?_append_of_ne_nil m (by simp [ph])]
          decide
        rw [hg, List.getLast?_append_of_ne_nil g' (by simp)] at h1
        simp only [List.getLast?_singleton, Option.some.injEq] at h1
        rw [h1] at hd₀
        exact absurd hd₀ (by decide)
    · exact hF2 'i' 'e' hae (Or.inl (by decide)) (by decide) (by decide)
    · exact hF2 'e' 'g' hae (Or.inr (by decide)) (by decide) (by decide)

/-- C9 (amended): for every text that does not contain the literal
placeholder string `<PERIOD>`, no sentence emitted by `segment_regex`
other than possibly the last one consists solely of a protected
abbreviation token (a member of the fixed abbreviation set followed by
a period, compared case-insensitively). -/
theorem C9_no_bare_abbrev_sentences (text : Str) (h : hasPh text = false) :
    ∀ s ∈ (segment_regex text).dropLast, isProtectedAbbrevToken s = false := by
  intro s hs
  unfold segment_regex at hs
  cases hguard : (text.isEmpty || (pyStrip text).isEmpty) with
  | true =>
    rw [if_pos hguard] at hs
    simp at hs
  | false =>
    rw [if_neg (by simp [hguard])] at hs
    have hwords := pyWords_words text
    have hnw : pyWords text ≠ [] := pyWords_ne_nil_of_guard hguard
    have hnPh : hasPh (pyNormalize text) = false := hasPh_pyNormalize h
    have hProt : Prot (pyNormalize text) (protect (pyNormalize text)) :=
      Prot_protect (pyNormalize text)
    have hspn : spacedAux true (pyNormalize text) = true :=
      spacedAux_intercalate (pyWords text) hwords true
    have hspP : spacedAux true (protect (pyNormalize text)) = true :=
      spacedAux_of_Prot hProt true hspn
    have hlastn : ∀ d, (pyNormalize text).getLast? = some d → isPyWs d = false :=
      getLast_nonWs_intercalate (pyWords text) hwords
    have hlastP : ∀ d, (protect (pyNormalize text)).getLast? = some d → isPyWs d = false :=
      getLast_nonWs_of_Prot hProt hlastn
    have hPne : protect (pyNormalize text) ≠ [] := by
      intro h0
      have hn0 : pyNormalize text = [] := Prot_nil_right (h0 ▸ hProt)
      exact intercalate_space_ne_nil (pyWords text) hnw
        (fun w hw => (hwords w hw).1) hn0
    have hfr := splitFrags isUpperOrBracket (protect (pyNormalize text)) [] [] false
      (Or.inl rfl) (by simpa using hspP) hlastP (fun _ => rfl)
      (fun h0 => absurd h0 (by simp))
      (fun d hd => by cases hd) (fun d hd => by cases hd) (Or.inr hPne)
    have hfrags : ∀ f ∈ splitTerm isUpperOrBracket (protect (pyNormalize text)),
        f ≠ [] ∧ (∀ d, f.head? = some d → isPyWs d = false)
          ∧ (∀ d, f.getLast? = some d → isPyWs d = false) := fun f hff => hfr.2 f hff
    rw [emitted_eq_map_restore hfrags, ← List.map_dropLast] at hs
    obtain ⟨gfrag, hgmem, rfl⟩ := List.mem_map.mp hs
    have hgfr : gfrag ∈ splitTerm isUpperOrBracket (protect (pyNormalize text)) :=
      List.dropLast_subset _ hgmem
    have hjoin := splitTerm_join isUpperOrBracket (protect (pyNormalize text)) hspP
    obtain ⟨u, v, hPdec, hu⟩ := mem_intercalate_split _ gfrag hgfr
    rw [hjoin] at hPdec
    obtain ⟨gbody, d₀, hgbody, hd₀⟩ := hfr.1 gfrag hgmem
    exact middle_frag_not_abbrev (fun a ha => not_BOccW_protect ha _)
      (RPhW_protect hnPh) u v hPdec hu gbody d₀ hgbody hd₀

/-- C9 counterexample: a text consisting of a single protected
abbreviation: the final emitted sentence is exactly that abbreviation
followed by a period, so the unrestricted claim fails. -/
theorem C9_counterexample :
    segment_regex "Cf.".toList = ["Cf.".toList]
      ∧ isProtectedAbbrevToken "Cf.".toList = true := by
  decide

theorem C9_witness :
    hasPh "Gallia est omnis divisa. In partes tres. Vercingetorix i.e. rex.".toList = false
    ∧ ∀ s ∈ (segment_regex
          "Gallia est omnis divisa. In partes tres. Vercingetorix i.e. rex.".toList).dropLast,
        isProtectedAbbrevToken s = false :=
  ⟨by decide, C9_no_bare_abbrev_sentences _ (by decide)⟩

end Caesar
